import Mathlib

/-!
# Verification of the ybd virtfs staging/collection engine

This file gives a shallow embedding of `ybd/virtfs.py` (the virtual-filesystem
encode/decode engine: sidecar attribute store, stager, collector, extractor)
and proves/refutes the frozen specification claims about it.

Conventions of the embedding:
* Python byte strings are `List Char` (all data here is ASCII).
* Machine integers (`st_mode`, `st_uid`, ...) are `Nat`; the source never
  relies on overflow.
* The host filesystem visible to the engine is represented explicitly:
  staged trees are inductive trees of regular files and directories (the
  only kinds the staging convention produces on the host), the extraction
  destination is a path-keyed finite map.
* Fallible Python code becomes `Except`/`Option`-valued definitions; the
  specific exception classes that the source distinguishes (`IOError`,
  `KeyError`, the bare `Exception`, `tarfile` errors) are distinguished
  error constructors.
-/

namespace Virtfs

/-! ## stat.py type bits

Decimal values of the POSIX constants used by the source via Python's
`stat` module: `S_IFMT = 0o170000`, `S_IFREG = 0o100000`, `S_IFDIR =
0o040000`, `S_IFLNK = 0o120000`, `S_IFIFO = 0o010000`, `S_IFCHR =
0o020000`, `S_IFBLK = 0o060000`. -/

def S_IFMT : Nat := 61440
def S_IFREG : Nat := 32768
def S_IFDIR : Nat := 16384
def S_IFLNK : Nat := 40960
def S_IFIFO : Nat := 4096
def S_IFCHR : Nat := 8192
def S_IFBLK : Nat := 24576

/-- `stat.S_ISREG(m)`: `S_IFMT(m) == S_IFREG`. -/
def S_ISREG (m : Nat) : Bool := m &&& S_IFMT == S_IFREG
def S_ISDIR (m : Nat) : Bool := m &&& S_IFMT == S_IFDIR
def S_ISLNK (m : Nat) : Bool := m &&& S_IFMT == S_IFLNK
def S_ISFIFO (m : Nat) : Bool := m &&& S_IFMT == S_IFIFO
def S_ISCHR (m : Nat) : Bool := m &&& S_IFMT == S_IFCHR
def S_ISBLK (m : Nat) : Bool := m &&& S_IFMT == S_IFBLK

/-! ## Device number packing (`_dev_major`, `_dev_minor`, `_dev_from_major_minor`)

Source (virtfs.py lines 60-67): an 8-bit major in bits 8-15 and an 8-bit
minor in bits 0-7. -/

/-- `_dev_major(dev) = (dev >> 8) & 0xff`. -/
def dev_major (dev : Nat) : Nat := (dev >>> 8) &&& 255

/-- `_dev_minor(dev) = dev & 0xff`. -/
def dev_minor (dev : Nat) : Nat := dev &&& 255

/-- `_dev_from_major_minor(major, minor) = (major << 8) | minor`. -/
def dev_from_major_minor (major minor : Nat) : Nat := (major <<< 8) ||| minor

theorem testBit_false_of_le_255 {n i : Nat} (hn : n ≤ 255) (hi : 8 ≤ i) :
    Nat.testBit n i = false :=
  Nat.testBit_lt_two_pow (lt_of_le_of_lt hn
    (lt_of_lt_of_le (by norm_num : (255 : Nat) < 2 ^ 8)
      (Nat.pow_le_pow_right (by norm_num) hi)))

theorem dev_major_from (major minor : Nat) (hmaj : major ≤ 255)
    (hmin : minor ≤ 255) : dev_major (dev_from_major_minor major minor) = major := by
  unfold dev_major dev_from_major_minor
  apply Nat.eq_of_testBit_eq
  intro i
  have hminbit : Nat.testBit minor (8 + i) = false :=
    testBit_false_of_le_255 hmin (Nat.le_add_right 8 i)
  simp only [Nat.testBit_and, Nat.testBit_shiftRight, Nat.testBit_or,
    Nat.testBit_shiftLeft, hminbit, Bool.or_false]
  rcases Nat.lt_or_ge i 8 with hi | hi
  · have h255 : Nat.testBit 255 i = true := by
      interval_cases i <;> decide
    have h8 : 8 ≤ 8 + i := Nat.le_add_right 8 i
    simp [h255, h8, Nat.add_sub_cancel_left]
  · have h255 : Nat.testBit 255 i = false := by
      exact Nat.testBit_lt_two_pow (lt_of_lt_of_le (by norm_num)
        (Nat.pow_le_pow_right (by norm_num) hi))
    have hmajbit : Nat.testBit major i = false := testBit_false_of_le_255 hmaj hi
    simp [h255, hmajbit]

theorem dev_minor_from (major minor : Nat) (hmin : minor ≤ 255) :
    dev_minor (dev_from_major_minor major minor) = minor := by
  unfold dev_minor dev_from_major_minor
  apply Nat.eq_of_testBit_eq
  intro i
  simp only [Nat.testBit_and, Nat.testBit_or, Nat.testBit_shiftLeft]
  rcases Nat.lt_or_ge i 8 with hi | hi
  · have h255 : Nat.testBit 255 i = true := by
      interval_cases i <;> decide
    simp [h255, Nat.not_le.mpr hi]
  · have h255 : Nat.testBit 255 i = false := testBit_false_of_le_255 (by norm_num) hi
    have hminbit : Nat.testBit minor i = false := testBit_false_of_le_255 hmin hi
    simp [h255, hminbit]

/-! ## Text layer

Byte strings are `List Char`.  `natToChars` models Python's `str()` of a
nonnegative integer (the `'%s' % value` formatting in `_write_virtfs_attrs`),
`pyInt` models `int()` on the canonical decimal strings the engine writes,
`pySplit` models `str.split(sep)`, `pyLines` models iteration over the lines
of an open text file, `rstripChar` models `str.rstrip(c)`. -/

def digitChar : Nat → Char
  | 0 => '0' | 1 => '1' | 2 => '2' | 3 => '3' | 4 => '4'
  | 5 => '5' | 6 => '6' | 7 => '7' | 8 => '8' | _ => '9'

/-- Decimal representation, recursing on a fuel argument (kept `≥` the
value, so the fuel-0 branch is unreachable) so that the definition is
structural and reduces in the kernel. -/
def natToCharsFuel (fuel : Nat) (n : Nat) : List Char :=
  match fuel with
  | 0 => [digitChar n]
  | fuel + 1 =>
    if n < 10 then [digitChar n]
    else natToCharsFuel fuel (n / 10) ++ [digitChar (n % 10)]

/-- Decimal representation of a natural number, as Python's `str` produces. -/
def natToChars (n : Nat) : List Char := natToCharsFuel n n

def digitVal (c : Char) : Nat := c.toNat - 48

/-- Python `int()` restricted to the canonical digit strings the engine
itself writes (the source would raise `ValueError` on anything else, which
never happens on engine-written sidecar files). -/
def pyInt (s : List Char) : Nat := s.foldl (fun a c => 10 * a + digitVal c) 0

/-- Python `str.split(sep)` (no maxsplit). -/
def pySplit (sep : Char) : List Char → List (List Char)
  | [] => [[]]
  | c :: cs =>
    let r := pySplit sep cs
    if c = sep then [] :: r
    else
      match r with
      | [] => [[c]]
      | h :: t => (c :: h) :: t

/-- Iteration over the lines of a text file: pieces end with `'\n'` which is
kept, a final piece without a terminating newline is also yielded. -/
def pyLinesGo (acc : List Char) : List Char → List (List Char)
  | [] => if acc = [] then [] else [acc]
  | c :: cs =>
    if c = '\n' then (acc ++ ['\n']) :: pyLinesGo [] cs
    else pyLinesGo (acc ++ [c]) cs

def pyLines (l : List Char) : List (List Char) := pyLinesGo [] l

/-- Python `str.rstrip(c)`: remove all trailing occurrences of `c`. -/
def rstripChar (c : Char) (l : List Char) : List Char :=
  (l.reverse.dropWhile (· = c)).reverse

theorem digitVal_digitChar (n : Nat) (h : n < 10) : digitVal (digitChar n) = n := by
  interval_cases n <;> rfl

theorem digitChar_range (n : Nat) (h : n < 10) :
    48 ≤ (digitChar n).toNat ∧ (digitChar n).toNat ≤ 57 := by
  interval_cases n <;> simp [digitChar]

theorem digit_mem_natToCharsFuel {fuel n : Nat} (hn : n ≤ fuel) {c : Char}
    (hc : c ∈ natToCharsFuel fuel n) : 48 ≤ c.toNat ∧ c.toNat ≤ 57 := by
  induction fuel generalizing n with
  | zero =>
    unfold natToCharsFuel at hc
    simp only [List.mem_singleton] at hc
    subst hc
    exact digitChar_range n (by omega)
  | succ fuel ih =>
    unfold natToCharsFuel at hc
    split at hc
    · simp only [List.mem_singleton] at hc
      subst hc
      rename_i h
      exact digitChar_range n h
    · rw [List.mem_append] at hc
      rcases hc with hc | hc
      · refine ih ?_ hc
        have := Nat.div_lt_self (n := n) (by omega) (by omega : 1 < 10)
        omega
      · simp only [List.mem_singleton] at hc
        subst hc
        exact digitChar_range _ (Nat.mod_lt _ (by omega))

theorem digit_mem_natToChars {n : Nat} {c : Char} (hc : c ∈ natToChars n) :
    48 ≤ c.toNat ∧ c.toNat ≤ 57 :=
  digit_mem_natToCharsFuel (Nat.le_refl n) hc

theorem natToCharsFuel_ne_nil (fuel n : Nat) : natToCharsFuel fuel n ≠ [] := by
  cases fuel with
  | zero => simp [natToCharsFuel]
  | succ m =>
    unfold natToCharsFuel
    by_cases h : n < 10
    · simp [h]
    · simp [h]

theorem natToChars_ne_nil (n : Nat) : natToChars n ≠ [] :=
  natToCharsFuel_ne_nil n n

theorem pyInt_natToCharsFuel {fuel n : Nat} (hn : n ≤ fuel) :
    pyInt (natToCharsFuel fuel n) = n := by
  induction fuel generalizing n with
  | zero =>
    unfold natToCharsFuel
    simp only [pyInt, List.foldl_cons, List.foldl_nil]
    rw [digitVal_digitChar n (by omega)]
    omega
  | succ fuel ih =>
    unfold natToCharsFuel
    split
    · rename_i h
      simp only [pyInt, List.foldl_cons, List.foldl_nil]
      rw [digitVal_digitChar n h]
      omega
    · rename_i h
      have hdive : n / 10 ≤ fuel := by
        have := Nat.div_lt_self (n := n) (by omega) (by omega : 1 < 10)
        omega
      have hdiv := ih hdive
      simp only [pyInt, List.foldl_append, List.foldl_cons, List.foldl_nil]
      simp only [pyInt] at hdiv
      rw [hdiv, digitVal_digitChar _ (Nat.mod_lt _ (by omega))]
      omega

theorem pyInt_natToChars (n : Nat) : pyInt (natToChars n) = n :=
  pyInt_natToCharsFuel (Nat.le_refl n)

/-- Splitting a single-separator line: `key=value` splits into the pair. -/
theorem pySplit_single {sep : Char} {val : List Char}
    (hval : ∀ c ∈ val, c ≠ sep) : pySplit sep val = [val] := by
  induction val with
  | nil => rfl
  | cons c cs ihc =>
    have hc : c ≠ sep := hval c (by simp)
    rw [pySplit, ihc fun d hd => hval d (by simp [hd])]
    simp [hc]

theorem pySplit_pair {sep : Char} {key val : List Char}
    (hkey : ∀ c ∈ key, c ≠ sep) (hval : ∀ c ∈ val, c ≠ sep) :
    pySplit sep (key ++ sep :: val) = [key, val] := by
  induction key with
  | nil => simp [pySplit, pySplit_single hval]
  | cons c cs ihc =>
    have hc : c ≠ sep := hkey c (by simp)
    rw [List.cons_append, pySplit, ihc fun d hd => hkey d (by simp [hd])]
    simp [hc]

theorem pyLinesGo_append {x rest : List Char} (hx : ∀ c ∈ x, c ≠ '\n') :
    ∀ acc, pyLinesGo acc (x ++ '\n' :: rest) =
      ((acc ++ x) ++ ['\n']) :: pyLinesGo [] rest := by
  induction x with
  | nil => intro acc; simp [pyLinesGo]
  | cons c cs ihc =>
    intro acc
    have hc : c ≠ '\n' := hx c (by simp)
    rw [List.cons_append, pyLinesGo]
    simp only [hc, if_false]
    rw [ihc fun d hd => hx d (by simp [hd])]
    simp

theorem rstripChar_append {c : Char} {x : List Char} (hx : ∀ d ∈ x, d ≠ c) :
    rstripChar c (x ++ [c]) = x := by
  unfold rstripChar
  rw [List.reverse_append]
  simp only [List.reverse_cons, List.reverse_nil, List.nil_append,
    List.singleton_append]
  rw [List.dropWhile_cons_of_pos (by simp)]
  cases hrev : x.reverse with
  | nil =>
    have hx0 : x = [] := by simpa using congrArg List.reverse hrev
    simp [hx0]
  | cons d ds =>
    have hd : d ∈ x := by
      have hm : d ∈ x.reverse := by rw [hrev]; simp
      simpa using hm
    rw [List.dropWhile_cons_of_neg (by simp [hx d hd])]
    rw [← hrev, List.reverse_reverse]

/-! ## Python dicts (string-keyed, Nat-valued)

Association lists with Python's `d[k] = v` semantics: replace in place if the
key is present, append otherwise. -/

def Dict := List (List Char × Nat)

def dictInsert (k : List Char) (v : Nat) : Dict → Dict
  | [] => [(k, v)]
  | (k', v') :: t => if k' = k then (k, v) :: t else (k', v') :: dictInsert k v t

def dictLookup (k : List Char) : Dict → Option Nat
  | [] => none
  | (k', v') :: t => if k' = k then some v' else dictLookup k t

theorem dictLookup_insert (k : List Char) (v : Nat) (d : Dict) :
    dictLookup k (dictInsert k v d) = some v := by
  induction d with
  | nil => simp [dictInsert, dictLookup]
  | cons p t iht =>
    obtain ⟨k', v'⟩ := p
    by_cases h : k' = k
    · subst h
      simp [dictInsert, dictLookup]
    · simp [dictInsert, dictLookup, h, iht]

theorem dictLookup_insert_ne (k k₀ : List Char) (v : Nat) (d : Dict)
    (hne : k ≠ k₀) : dictLookup k (dictInsert k₀ v d) = dictLookup k d := by
  induction d with
  | nil => simp [dictInsert, dictLookup, hne.symm]
  | cons p t iht =>
    obtain ⟨k', v'⟩ := p
    by_cases h : k' = k₀
    · subst h
      simp [dictInsert, dictLookup, hne.symm]
    · simp only [dictInsert, h, if_false]
      by_cases h2 : k' = k
      · simp [dictLookup, h2]
      · simp [dictLookup, h2, iht]

/-! ## Virtfs constants (virtfs.py lines 37-44) and sidecar file format -/

def VIRTFS_META_DIR : List Char := ".virtfs_metadata".data
def VIRTFS_UID_KEY : List Char := "virtfs.uid".data
def VIRTFS_GID_KEY : List Char := "virtfs.gid".data
def VIRTFS_MODE_KEY : List Char := "virtfs.mode".data
def VIRTFS_RDEV_KEY : List Char := "virtfs.rdev".data

/-- Errno values used by the source (`errno.ENOENT`, `errno.EEXIST`) and in
failure scenarios (`errno.EACCES`). -/
def ENOENT : Nat := 2
def EACCES : Nat := 13
def EEXIST : Nat := 17

/-- `calendar.timegm` on a UTC time tuple: days are counted in the
proleptic Gregorian calendar from the 1970 epoch. -/
def isLeap (y : Nat) : Bool := (y % 4 == 0 && y % 100 != 0) || y % 400 == 0

def monthLengths (leap : Bool) : List Nat :=
  [31, if leap then 29 else 28, 31, 30, 31, 30, 31, 31, 30, 31, 30, 31]

def timegm (y mo d hh mi ss : Nat) : Nat :=
  let days := (List.range (y - 1970)).foldl
      (fun a i => a + (if isLeap (1970 + i) then 366 else 365)) 0
    + ((monthLengths (isLeap y)).take (mo - 1)).sum + (d - 1)
  ((days * 24 + hh) * 60 + mi) * 60 + ss

/-- `MAGIC_TIMESTAMP = calendar.timegm([2011, 11, 11, 11, 11, 11])`
(virtfs.py line 44). -/
def MAGIC_TIMESTAMP : Nat := timegm 2011 11 11 11 11 11

/-- One `'key=%s\n' % value` line as written by `_write_virtfs_attrs`
(without the newline; `attrLineNl` adds it). -/
def attrLine (key : List Char) (v : Nat) : List Char := key ++ '=' :: natToChars v

def attrLineNl (key : List Char) (v : Nat) : List Char := attrLine key v ++ ['\n']

/-- The file content `_write_virtfs_attrs` produces from an attribute dict:
`uid`, `gid`, `mode` lines in that order, then an `rdev` line only when the
`virtfs.rdev` key is present.  `none` models the `KeyError` the source
raises when a mandatory key is missing. -/
def serializeVirtfsAttrs (attrs : Dict) : Option (List Char) :=
  match dictLookup VIRTFS_UID_KEY attrs, dictLookup VIRTFS_GID_KEY attrs,
      dictLookup VIRTFS_MODE_KEY attrs with
  | some u, some g, some m =>
    some (attrLineNl VIRTFS_UID_KEY u ++ attrLineNl VIRTFS_GID_KEY g ++
      attrLineNl VIRTFS_MODE_KEY m ++
      (match dictLookup VIRTFS_RDEV_KEY attrs with
       | some r => attrLineNl VIRTFS_RDEV_KEY r
       | none => []))
  | _, _, _ => none

/-- The parsing loop of `_read_virtfs_attrs` (lines 75-80): for each line,
strip the newline, split on `=`, take piece 0 as key and `int()` of piece 1
as value.  (`getD` keeps the model total where the source would raise
`IndexError`/`ValueError`; engine-written files are always well formed.) -/
def parseAttrStep (attrs : Dict) (line : List Char) : Dict :=
  let split := pySplit '=' (rstripChar '\n' line)
  dictInsert (split.getD 0 []) (pyInt (split.getD 1 [])) attrs

def parseVirtfsAttrs (content : List Char) : Dict :=
  (pyLines content).foldl parseAttrStep []

/-- Well-formed sidecar keys: no newline, no `=`. -/
def wfKey (k : List Char) : Prop := ∀ c ∈ k, c ≠ '\n' ∧ c ≠ '='

theorem wfKey_uid : wfKey VIRTFS_UID_KEY := by unfold wfKey; decide
theorem wfKey_gid : wfKey VIRTFS_GID_KEY := by unfold wfKey; decide
theorem wfKey_mode : wfKey VIRTFS_MODE_KEY := by unfold wfKey; decide
theorem wfKey_rdev : wfKey VIRTFS_RDEV_KEY := by unfold wfKey; decide

theorem natToChars_no_nl_eq {n : Nat} : ∀ c ∈ natToChars n, c ≠ '\n' ∧ c ≠ '=' := by
  intro c hc
  have h := digit_mem_natToChars hc
  obtain ⟨h1, h2⟩ := h
  constructor
  · intro he
    subst he
    have h10 : Char.toNat '\n' = 10 := by decide
    omega
  · intro he
    subst he
    have h61 : Char.toNat '=' = 61 := by decide
    omega

theorem attrLine_no_nl {k : List Char} {v : Nat} (hk : wfKey k) :
    ∀ c ∈ attrLine k v, c ≠ '\n' := by
  intro c hc
  unfold attrLine at hc
  rw [List.mem_append] at hc
  rcases hc with hc | hc
  · exact (hk c hc).1
  · rcases List.mem_cons.mp hc with hc | hc
    · subst hc; decide
    · exact (natToChars_no_nl_eq c hc).1

/-- `pyLines` peels one well-formed `key=value\n` line at a time. -/
theorem pyLines_attrLineNl {k : List Char} {v : Nat} {rest : List Char}
    (hk : wfKey k) :
    pyLines (attrLineNl k v ++ rest) = attrLineNl k v :: pyLinesGo [] rest := by
  unfold pyLines attrLineNl
  rw [List.append_assoc, List.singleton_append]
  rw [pyLinesGo_append (attrLine_no_nl hk)]
  simp

/-- Processing one `key=value\n` line inserts the corresponding binding. -/
theorem parse_step {k : List Char} {v : Nat} (hk : wfKey k) (d : Dict) :
    parseAttrStep d (attrLineNl k v) = dictInsert k v d := by
  unfold parseAttrStep attrLineNl
  rw [rstripChar_append (attrLine_no_nl hk)]
  have hsplit : pySplit '=' (attrLine k v) = [k, natToChars v] := by
    unfold attrLine
    exact pySplit_pair (fun c hc => (hk c hc).2)
      (fun c hc => (natToChars_no_nl_eq c hc).2)
  rw [hsplit]
  simp [List.getD, pyInt_natToChars]

theorem uid_ne_gid : VIRTFS_UID_KEY ≠ VIRTFS_GID_KEY := by decide
theorem uid_ne_mode : VIRTFS_UID_KEY ≠ VIRTFS_MODE_KEY := by decide
theorem uid_ne_rdev : VIRTFS_UID_KEY ≠ VIRTFS_RDEV_KEY := by decide
theorem gid_ne_mode : VIRTFS_GID_KEY ≠ VIRTFS_MODE_KEY := by decide
theorem gid_ne_rdev : VIRTFS_GID_KEY ≠ VIRTFS_RDEV_KEY := by decide
theorem mode_ne_rdev : VIRTFS_MODE_KEY ≠ VIRTFS_RDEV_KEY := by decide

/-- Shape of an engine-written sidecar file. -/
def serializedAttrs (u g m : Nat) (ro : Option Nat) : List Char :=
  attrLineNl VIRTFS_UID_KEY u ++ attrLineNl VIRTFS_GID_KEY g ++
    attrLineNl VIRTFS_MODE_KEY m ++
    ro.elim [] (fun r => attrLineNl VIRTFS_RDEV_KEY r)

/-- Canonical parsed form of an engine-written sidecar file. -/
def canonicalAttrs (u g m : Nat) (ro : Option Nat) : Dict :=
  (VIRTFS_UID_KEY, u) :: (VIRTFS_GID_KEY, g) :: (VIRTFS_MODE_KEY, m) ::
    ro.elim [] (fun r => [(VIRTFS_RDEV_KEY, r)])

theorem serializeVirtfsAttrs_eq {attrs : Dict} {u g m : Nat}
    (hu : dictLookup VIRTFS_UID_KEY attrs = some u)
    (hg : dictLookup VIRTFS_GID_KEY attrs = some g)
    (hm : dictLookup VIRTFS_MODE_KEY attrs = some m) :
    serializeVirtfsAttrs attrs =
      some (serializedAttrs u g m (dictLookup VIRTFS_RDEV_KEY attrs)) := by
  unfold serializeVirtfsAttrs serializedAttrs
  rw [hu, hg, hm]
  cases dictLookup VIRTFS_RDEV_KEY attrs <;> rfl

theorem pyLines_attrLineNl_nil {k : List Char} {v : Nat} (hk : wfKey k) :
    pyLines (attrLineNl k v) = [attrLineNl k v] := by
  have h := @pyLines_attrLineNl k v [] hk
  rw [List.append_nil] at h
  rw [h]
  rfl

theorem parseVirtfsAttrs_serialized (u g m : Nat) (ro : Option Nat) :
    parseVirtfsAttrs (serializedAttrs u g m ro) = canonicalAttrs u g m ro := by
  have hgo : ∀ l, pyLinesGo [] l = pyLines l := fun _ => rfl
  have h1 : pyLines (serializedAttrs u g m ro) =
      attrLineNl VIRTFS_UID_KEY u :: attrLineNl VIRTFS_GID_KEY g ::
      attrLineNl VIRTFS_MODE_KEY m ::
      ro.elim [] (fun r => [attrLineNl VIRTFS_RDEV_KEY r]) := by
    unfold serializedAttrs
    rw [List.append_assoc, List.append_assoc]
    rw [pyLines_attrLineNl wfKey_uid, hgo, pyLines_attrLineNl wfKey_gid, hgo]
    cases ro with
    | none =>
      simp only [Option.elim_none, List.append_nil]
      rw [pyLines_attrLineNl_nil wfKey_mode]
    | some r =>
      simp only [Option.elim_some]
      rw [pyLines_attrLineNl wfKey_mode, hgo, pyLines_attrLineNl_nil wfKey_rdev]
  unfold parseVirtfsAttrs
  rw [h1]
  cases ro with
  | none =>
    simp only [Option.elim_none, List.foldl_cons, List.foldl_nil]
    rw [parse_step wfKey_uid, parse_step wfKey_gid, parse_step wfKey_mode]
    simp [dictInsert, canonicalAttrs, uid_ne_gid, uid_ne_mode, gid_ne_mode]
  | some r =>
    simp only [Option.elim_some, List.foldl_cons, List.foldl_nil]
    rw [parse_step wfKey_uid, parse_step wfKey_gid, parse_step wfKey_mode,
      parse_step wfKey_rdev]
    simp [dictInsert, canonicalAttrs, uid_ne_gid, uid_ne_mode, gid_ne_mode,
      uid_ne_rdev, gid_ne_rdev, mode_ne_rdev]

theorem canonicalAttrs_lookup (u g m : Nat) (ro : Option Nat) (k : List Char) :
    dictLookup k (canonicalAttrs u g m ro) =
      if k = VIRTFS_UID_KEY then some u
      else if k = VIRTFS_GID_KEY then some g
      else if k = VIRTFS_MODE_KEY then some m
      else if k = VIRTFS_RDEV_KEY then ro
      else none := by
  by_cases h1 : k = VIRTFS_UID_KEY
  · subst h1
    simp [canonicalAttrs, dictLookup]
  · by_cases h2 : k = VIRTFS_GID_KEY
    · subst h2
      simp [canonicalAttrs, dictLookup, uid_ne_gid, Ne.symm uid_ne_gid]
    · by_cases h3 : k = VIRTFS_MODE_KEY
      · subst h3
        simp [canonicalAttrs, dictLookup, uid_ne_mode, gid_ne_mode,
          Ne.symm uid_ne_mode, Ne.symm gid_ne_mode]
      · by_cases h4 : k = VIRTFS_RDEV_KEY
        · subst h4
          cases ro <;>
            simp [canonicalAttrs, dictLookup, uid_ne_rdev, gid_ne_rdev,
              mode_ne_rdev, Ne.symm uid_ne_rdev, Ne.symm gid_ne_rdev,
              Ne.symm mode_ne_rdev]
        · have h1' : VIRTFS_UID_KEY ≠ k := fun hh => h1 hh.symm
          have h2' : VIRTFS_GID_KEY ≠ k := fun hh => h2 hh.symm
          have h3' : VIRTFS_MODE_KEY ≠ k := fun hh => h3 hh.symm
          have h4' : VIRTFS_RDEV_KEY ≠ k := fun hh => h4 hh.symm
          cases ro <;>
            simp [canonicalAttrs, dictLookup, h1, h2, h3, h4, h1', h2', h3', h4']

/-! ## POSIX path helpers (`os.path.join`, `os.path.split`, `os.path.basename`) -/

/-- `os.path.join(a, b)` for a relative `b` (the only use in the source). -/
def osPathJoin (a b : List Char) : List Char := a ++ '/' :: b

/-- `posixpath.split`: tail is everything after the last `/`; head is
everything up to and including the last `/`, with trailing slashes stripped
unless the head consists only of slashes. -/
def osPathSplit (p : List Char) : List Char × List Char :=
  let r := p.reverse
  let tail := (r.takeWhile (fun c => !(c == '/'))).reverse
  let head := (r.dropWhile (fun c => !(c == '/'))).reverse
  (if head ≠ [] ∧ ¬(head.all (fun c => c == '/')) then rstripChar '/' head
   else head, tail)

/-- `posixpath.basename`. -/
def osBasename (p : List Char) : List Char := (osPathSplit p).2

theorem takeWhile_all {p : Char → Bool} {l : List Char}
    (h : ∀ c ∈ l, p c = true) : l.takeWhile p = l := by
  induction l with
  | nil => rfl
  | cons c cs ih =>
    rw [List.takeWhile_cons_of_pos (h c (by simp))]
    rw [ih fun d hd => h d (by simp [hd])]

theorem takeWhile_append_sat {p : Char → Bool} {l₁ l₂ : List Char} {x : Char}
    (h₁ : ∀ c ∈ l₁, p c = true) (hx : p x = false) :
    (l₁ ++ x :: l₂).takeWhile p = l₁ := by
  induction l₁ with
  | nil => simp [List.takeWhile_cons_of_neg, hx]
  | cons c cs ih =>
    rw [List.cons_append, List.takeWhile_cons_of_pos (h₁ c (by simp))]
    rw [ih fun d hd => h₁ d (by simp [hd])]

theorem dropWhile_append_sat {p : Char → Bool} {l₁ l₂ : List Char} {x : Char}
    (h₁ : ∀ c ∈ l₁, p c = true) (hx : p x = false) :
    (l₁ ++ x :: l₂).dropWhile p = x :: l₂ := by
  induction l₁ with
  | nil => simp [List.dropWhile_cons_of_neg, hx]
  | cons c cs ih =>
    rw [List.cons_append, List.dropWhile_cons_of_pos (h₁ c (by simp))]
    exact ih fun d hd => h₁ d (by simp [hd])

theorem rstripChar_no_occur {c : Char} {x : List Char}
    (hx : ∀ d ∈ x, d ≠ c) : rstripChar c x = x := by
  unfold rstripChar
  cases hrev : x.reverse with
  | nil => simpa using congrArg List.reverse hrev
  | cons d ds =>
    have hd : d ∈ x := by
      have hm : d ∈ x.reverse := by rw [hrev]; simp
      simpa using hm
    rw [List.dropWhile_cons_of_neg (by simp [hx d hd])]
    rw [← hrev, List.reverse_reverse]

/-- Stripping the final separator off `head ++ "/"`. -/
theorem rstripChar_snoc (c : Char) (x : List Char) :
    rstripChar c (x ++ [c]) = rstripChar c x := by
  unfold rstripChar
  rw [List.reverse_append]
  simp only [List.reverse_cons, List.reverse_nil, List.nil_append,
    List.singleton_append]
  rw [List.dropWhile_cons_of_pos (by simp)]

theorem rstripChar_of_getLast {c : Char} {x : List Char}
    (h : ∀ (hx : x ≠ []), x.getLast hx ≠ c) : rstripChar c x = x := by
  unfold rstripChar
  cases hrev : x.reverse with
  | nil => simpa using congrArg List.reverse hrev
  | cons d ds =>
    have hxne : x ≠ [] := by
      intro hnil
      rw [hnil] at hrev
      simp at hrev
    have hd : d = x.getLast hxne := by
      have h1 : x.getLast? = some d := by
        rw [← List.head?_reverse, hrev]; rfl
      have h2 := List.getLast?_eq_getLast x hxne
      rw [h1] at h2
      exact Option.some_injective _ h2
    rw [List.dropWhile_cons_of_neg (by simp [hd ▸ h hxne])]
    rw [← hrev, List.reverse_reverse]

/-- Basename of a slash-free path is the path itself. -/
theorem osBasename_no_slash {p : List Char} (hp : ∀ c ∈ p, c ≠ '/') :
    osBasename p = p := by
  unfold osBasename osPathSplit
  simp only
  rw [takeWhile_all (p := fun c => !(c == '/'))
    (fun c hc => by simpa using hp c (by simpa using hc))]
  rw [List.reverse_reverse]

/-- `os.path.split` recovers the two components of a join when the new
component is nonempty and slash-free and the base does not end in `/`. -/
theorem osPathSplit_join (a b : List Char) (ha : a ≠ [])
    (hlast : ∀ (hx : a ≠ []), a.getLast hx ≠ '/')
    (hb : ∀ c ∈ b, c ≠ '/') :
    osPathSplit (osPathJoin a b) = (a, b) := by
  unfold osPathSplit osPathJoin
  simp only [List.reverse_append, List.reverse_cons, List.append_assoc,
    List.singleton_append]
  have htake : (b.reverse ++ '/' :: a.reverse).takeWhile (fun c => !(c == '/'))
      = b.reverse :=
    takeWhile_append_sat
      (fun c hc => by simpa using hb c (by simpa using hc)) (by simp)
  have hdrop : (b.reverse ++ '/' :: a.reverse).dropWhile (fun c => !(c == '/'))
      = '/' :: a.reverse :=
    dropWhile_append_sat
      (fun c hc => by simpa using hb c (by simpa using hc)) (by simp)
  rw [htake, hdrop, List.reverse_reverse]
  have hhead : ('/' :: a.reverse).reverse = a ++ ['/'] := by simp
  rw [hhead]
  have hne : a ++ ['/'] ≠ [] := by simp
  have hnotall : ¬((a ++ ['/']).all fun c => c == '/') := by
    intro hall
    rw [List.all_append] at hall
    have h1 : a.all (fun c => c == '/') = true := by
      rcases Bool.and_eq_true_iff.mp hall with ⟨h1, _⟩
      exact h1
    have h2 := List.all_eq_true.mp h1 (a.getLast ha) (List.getLast_mem ha)
    have h3 := hlast ha
    simp at h2
    exact h3 h2
  rw [if_pos ⟨hne, hnotall⟩]
  rw [rstripChar_snoc, rstripChar_of_getLast hlast]

/-! ## Generic association lists (model of path-keyed filesystem maps) -/

def alistLookup {κ ν : Type} [DecidableEq κ] (k : κ) : List (κ × ν) → Option ν
  | [] => none
  | (k', v') :: t => if k' = k then some v' else alistLookup k t

def alistInsert {κ ν : Type} [DecidableEq κ] (k : κ) (v : ν) :
    List (κ × ν) → List (κ × ν)
  | [] => [(k, v)]
  | (k', v') :: t => if k' = k then (k, v) :: t else (k', v') :: alistInsert k v t

theorem alistLookup_insert {κ ν : Type} [DecidableEq κ] (k : κ) (v : ν)
    (l : List (κ × ν)) : alistLookup k (alistInsert k v l) = some v := by
  induction l with
  | nil => simp [alistInsert, alistLookup]
  | cons p t iht =>
    obtain ⟨k', v'⟩ := p
    by_cases h : k' = k
    · subst h
      simp [alistInsert, alistLookup]
    · simp [alistInsert, alistLookup, h, iht]

theorem alistLookup_insert_ne {κ ν : Type} [DecidableEq κ] (k k₀ : κ) (v : ν)
    (l : List (κ × ν)) (hne : k ≠ k₀) :
    alistLookup k (alistInsert k₀ v l) = alistLookup k l := by
  induction l with
  | nil => simp [alistInsert, alistLookup, hne.symm]
  | cons p t iht =>
    obtain ⟨k', v'⟩ := p
    by_cases h : k' = k₀
    · subst h
      simp [alistInsert, alistLookup, hne.symm]
    · simp only [alistInsert, h, if_false]
      by_cases h2 : k' = k
      · simp [alistLookup, h2]
      · simp [alistLookup, h2, iht]

/-! ## The staged/destination filesystem and the AttributeStore operations -/

/-- An entry materialized on the host: a regular file with content, or a
directory.  (Staged trees never hold real symlinks or device nodes.) -/
inductive DEntry
  | file (content : List Char)
  | dir
  deriving DecidableEq

/-- The exception classes the source distinguishes. -/
inductive VErr
  | ioError (errno : Nat)   -- `IOError` (Python 2: raised by `open`)
  | osError (errno : Nat)   -- `OSError` (raised by `os.mkdir`, `os.lstat`, ...)
  | keyError                -- `KeyError` from a dict subscript
  | typeError               -- the bare `Exception` for an unsupported mode
  | linkError               -- missing hardlink target during extraction
  | readError               -- `tarfile.ReadError` (compression mismatch)
  deriving DecidableEq

/-- A directory tree viewed as flat path-keyed maps: surrogate entries,
the set of directories whose `.virtfs_metadata` subdirectory exists, and the
sidecar records keyed by (directory, basename). -/
structure Store where
  metaDirs : List (List Char)
  records : List ((List Char × List Char) × List Char)
  files : List (List Char × DEntry)
  deriving DecidableEq

def emptyStore : Store := ⟨[], [], []⟩

def lookupRecord (dir base : List Char) (s : Store) : Option (List Char) :=
  alistLookup (dir, base) s.records

/-- `_write_virtfs_attrs` (virtfs.py lines 84-106).

`mkdirErr` injects the outcome of an actual `os.mkdir` creation attempt
(performed only when the metadata directory does not yet exist): `none`
for success, `some e` for an `OSError` with that errno.  The source ignores
exactly `EEXIST` (which the model also produces by itself when the metadata
directory is already present) and re-raises everything else.  If a record
for the basename already exists the function returns without writing; the
serialized `key=value` lines are those of `serializeVirtfsAttrs`, whose
`none` result models the `KeyError` on a missing mandatory key. -/
def write_virtfs_attrs (mkdirErr : Option Nat) (attrs : Dict)
    (dir_name file_name : List Char) (s : Store) : Except VErr Store :=
  let basename := osBasename (rstripChar '/' file_name)
  match (if dir_name ∈ s.metaDirs then Except.ok s
      else
        match mkdirErr with
        | some e =>
          if e = EEXIST then Except.ok s else Except.error (VErr.osError e)
        | none => Except.ok { s with metaDirs := dir_name :: s.metaDirs }) with
  | Except.error e => Except.error e
  | Except.ok s1 =>
    if (lookupRecord dir_name basename s1).isSome then Except.ok s1
    else
      match serializeVirtfsAttrs attrs with
      | some content =>
        Except.ok { s1 with
          records := alistInsert (dir_name, basename) content s1.records }
      | none => Except.error VErr.keyError

/-- `_read_virtfs_attrs` (virtfs.py lines 70-82): open the sidecar file for
the basename and parse it; `IOError(ENOENT)` when it is absent. -/
def read_virtfs_attrs (dir_name file_name : List Char) (s : Store) :
    Except VErr Dict :=
  let basename := osBasename (rstripChar '/' file_name)
  match lookupRecord dir_name basename s with
  | some content => Except.ok (parseVirtfsAttrs content)
  | none => Except.error (VErr.ioError ENOENT)

/-- C10: sidecar serialization round-trips: writing an attribute mapping
with integer uid, gid and mode values (and optionally rdev) with
`_write_virtfs_attrs` for a basename with no existing record and then
reading it back with `_read_virtfs_attrs` returns exactly the same
key-to-value mapping. -/
theorem c10_sidecar_write_read_roundtrip
    (attrs : Dict) (u g m : Nat) (dir file_name : List Char) (s : Store)
    (hu : dictLookup VIRTFS_UID_KEY attrs = some u)
    (hg : dictLookup VIRTFS_GID_KEY attrs = some g)
    (hm : dictLookup VIRTFS_MODE_KEY attrs = some m)
    (hother : ∀ k, k ≠ VIRTFS_UID_KEY → k ≠ VIRTFS_GID_KEY →
      k ≠ VIRTFS_MODE_KEY → k ≠ VIRTFS_RDEV_KEY → dictLookup k attrs = none)
    (hbs : ∀ c ∈ file_name, c ≠ '/')
    (hfresh : lookupRecord dir file_name s = none) :
    ∃ s', write_virtfs_attrs none attrs dir file_name s = Except.ok s' ∧
      ∃ d, read_virtfs_attrs dir file_name s' = Except.ok d ∧
        ∀ k, dictLookup k d = dictLookup k attrs := by
  have hbn : osBasename (rstripChar '/' file_name) = file_name := by
    rw [rstripChar_no_occur hbs, osBasename_no_slash hbs]
  have hser := serializeVirtfsAttrs_eq hu hg hm
  unfold write_virtfs_attrs
  rw [hbn]
  by_cases hmem : dir ∈ s.metaDirs
  · rw [if_pos hmem]
    simp only [hfresh, Option.isSome_none, Bool.false_eq_true, if_false, hser]
    refine ⟨_, rfl, ?_⟩
    unfold read_virtfs_attrs
    rw [hbn]
    unfold lookupRecord
    simp only [alistLookup_insert]
    refine ⟨_, rfl, ?_⟩
    intro k
    rw [parseVirtfsAttrs_serialized, canonicalAttrs_lookup]
    by_cases h1 : k = VIRTFS_UID_KEY
    · subst h1; simp [hu]
    · by_cases h2 : k = VIRTFS_GID_KEY
      · subst h2; simp [hg, h1]
      · by_cases h3 : k = VIRTFS_MODE_KEY
        · subst h3; simp [hm, h1, h2]
        · by_cases h4 : k = VIRTFS_RDEV_KEY
          · subst h4; simp [h1, h2, h3]
          · simp [h1, h2, h3, h4, hother k h1 h2 h3 h4]
  · rw [if_neg hmem]
    have hfresh1 : lookupRecord dir file_name
        { s with metaDirs := dir :: s.metaDirs } = none := hfresh
    simp only [hfresh1, Option.isSome_none, Bool.false_eq_true, if_false, hser]
    refine ⟨_, rfl, ?_⟩
    unfold read_virtfs_attrs
    rw [hbn]
    unfold lookupRecord
    simp only [alistLookup_insert]
    refine ⟨_, rfl, ?_⟩
    intro k
    rw [parseVirtfsAttrs_serialized, canonicalAttrs_lookup]
    by_cases h1 : k = VIRTFS_UID_KEY
    · subst h1; simp [hu]
    · by_cases h2 : k = VIRTFS_GID_KEY
      · subst h2; simp [hg, h1]
      · by_cases h3 : k = VIRTFS_MODE_KEY
        · subst h3; simp [hm, h1, h2]
        · by_cases h4 : k = VIRTFS_RDEV_KEY
          · subst h4; simp [h1, h2, h3]
          · simp [h1, h2, h3, h4, hother k h1 h2 h3 h4]

/-- Witness for C10: a concrete mapping with uid=0, gid=0, mode=33188
(0o100644) and no rdev, written to an empty store for basename `f`. -/
theorem c10_sidecar_write_read_roundtrip_witness :
    ∃ s', write_virtfs_attrs none
        [(VIRTFS_UID_KEY, 0), (VIRTFS_GID_KEY, 0), (VIRTFS_MODE_KEY, 33188)]
        ['.'] ['f'] emptyStore = Except.ok s' ∧
      ∃ d, read_virtfs_attrs ['.'] ['f'] s' = Except.ok d ∧
        ∀ k, dictLookup k d = dictLookup k
          [(VIRTFS_UID_KEY, 0), (VIRTFS_GID_KEY, 0), (VIRTFS_MODE_KEY, 33188)] :=
  c10_sidecar_write_read_roundtrip _ 0 0 33188 _ _ _
    (by decide) (by decide) (by decide)
    (by
      intro k h1 h2 h3 h4
      simp [dictLookup, h1.symm, h2.symm, h3.symm])
    (by decide) (by decide)

/-- C6: `AttributeStore.write` (`_write_virtfs_attrs`) is write-once: if a
record already exists for the basename, a later write is a no-op that leaves
the stored records (hence the first record's content) unchanged; the
metadata subdirectory is created if absent; an already-exists failure of
that creation is ignored (the call still succeeds, with the same records
outcome); any other creation failure propagates. -/
theorem c6_write_once (attrs : Dict) (dir file_name : List Char) (s : Store)
    (e : Nat) :
    ((lookupRecord dir (osBasename (rstripChar '/' file_name)) s).isSome →
      ∃ s', write_virtfs_attrs none attrs dir file_name s = Except.ok s' ∧
        s'.records = s.records) ∧
    (dir ∉ s.metaDirs →
      ∀ s', write_virtfs_attrs none attrs dir file_name s = Except.ok s' →
        dir ∈ s'.metaDirs) ∧
    (dir ∉ s.metaDirs →
      ∀ s', write_virtfs_attrs none attrs dir file_name s = Except.ok s' →
        ∃ s'', write_virtfs_attrs (some EEXIST) attrs dir file_name s =
            Except.ok s'' ∧ s''.records = s'.records) ∧
    (dir ∉ s.metaDirs → e ≠ EEXIST →
      write_virtfs_attrs (some e) attrs dir file_name s =
        Except.error (VErr.osError e)) := by
  refine ⟨?_, ?_, ?_, ?_⟩
  · intro hsome
    unfold write_virtfs_attrs
    by_cases hmem : dir ∈ s.metaDirs
    · rw [if_pos hmem]
      simp only [hsome, if_true]
      exact ⟨s, rfl, rfl⟩
    · rw [if_neg hmem]
      have hsome1 : (lookupRecord dir (osBasename (rstripChar '/' file_name))
          { s with metaDirs := dir :: s.metaDirs }).isSome = true := hsome
      simp only [hsome1, if_true]
      exact ⟨_, rfl, rfl⟩
  · intro hmem s' hw
    unfold write_virtfs_attrs at hw
    rw [if_neg hmem] at hw
    simp only at hw
    by_cases hsome : (lookupRecord dir (osBasename (rstripChar '/' file_name))
        { s with metaDirs := dir :: s.metaDirs }).isSome = true
    · rw [if_pos hsome] at hw
      cases hw
      simp
    · rw [if_neg hsome] at hw
      cases hser : serializeVirtfsAttrs attrs with
      | some content =>
        rw [hser] at hw
        cases hw
        simp
      | none =>
        rw [hser] at hw
        cases hw
  · intro hmem s' hw
    unfold write_virtfs_attrs at hw ⊢
    rw [if_neg hmem] at hw ⊢
    simp only [eq_self_iff_true, if_true] at hw ⊢
    by_cases hsome : (lookupRecord dir (osBasename (rstripChar '/' file_name))
        { s with metaDirs := dir :: s.metaDirs }).isSome = true
    · rw [if_pos hsome] at hw
      have hsome0 : (lookupRecord dir (osBasename (rstripChar '/' file_name))
          s).isSome = true := hsome
      rw [if_pos hsome0]
      cases hw
      exact ⟨s, rfl, rfl⟩
    · rw [if_neg hsome] at hw
      have hsome0 : ¬(lookupRecord dir (osBasename (rstripChar '/' file_name))
          s).isSome = true := hsome
      rw [if_neg hsome0]
      cases hser : serializeVirtfsAttrs attrs with
      | some content =>
        rw [hser] at hw
        cases hw
        exact ⟨_, rfl, rfl⟩
      | none =>
        rw [hser] at hw
        cases hw
  · intro hmem hne
    unfold write_virtfs_attrs
    rw [if_neg hmem]
    simp only [hne, if_false]

/-- Witness for C6: the store already holds a record for basename `f` in
directory `.`; a second write succeeds and leaves the records unchanged,
and an injected `EACCES` mkdir failure on a store without the metadata
directory propagates. -/
theorem c6_write_once_witness :
    (∃ s', write_virtfs_attrs none [(VIRTFS_UID_KEY, 1)] ['.'] ['f']
        ⟨[['.']], [(((['.'] : List Char), (['f'] : List Char)), ['x'])], []⟩ =
        Except.ok s' ∧
      s'.records = [(((['.'] : List Char), (['f'] : List Char)), ['x'])]) ∧
    write_virtfs_attrs (some EACCES) [(VIRTFS_UID_KEY, 1)] ['.'] ['f']
        emptyStore = Except.error (VErr.osError EACCES) := by
  constructor
  · exact (c6_write_once [(VIRTFS_UID_KEY, 1)] ['.'] ['f']
      ⟨[['.']], [(((['.'] : List Char), (['f'] : List Char)), ['x'])], []⟩
      EACCES).1 (by decide)
  · exact (c6_write_once [(VIRTFS_UID_KEY, 1)] ['.'] ['f'] emptyStore
      EACCES).2.2.2 (by decide) (by decide)

/-! ## tar member model -/

/-- `tarfile` member type flags REGTYPE, LNKTYPE, DIRTYPE, FIFOTYPE,
SYMTYPE, CHRTYPE, BLKTYPE. -/
inductive TarType
  | REG | LNK | DIR | FIFO | SYM | CHR | BLK
  deriving DecidableEq

structure TarInfo where
  name : List Char
  mode : Nat
  uid : Nat
  gid : Nat
  size : Nat
  mtime : Nat
  type : TarType
  linkname : List Char
  uname : List Char
  gname : List Char
  devmajor : Nat
  devminor : Nat
  deriving DecidableEq

/-- The type bit or-ed onto the mode by the elif chain of
`_extract_virtfs_attrs` (REGTYPE and LNKTYPE both map to `S_IFREG`). -/
def tarTypeBit : TarType → Nat
  | TarType.REG => S_IFREG
  | TarType.LNK => S_IFREG
  | TarType.DIR => S_IFDIR
  | TarType.FIFO => S_IFIFO
  | TarType.SYM => S_IFLNK
  | TarType.CHR => S_IFCHR
  | TarType.BLK => S_IFBLK

/-- `_extract_virtfs_attrs` (virtfs.py lines 193-221): rebuild a sidecar
attribute dict from a tar member: or the type bit onto the member's
permission mode, keep uid/gid, and add the 8/8-packed `rdev` only for
character/block device members. -/
def extract_virtfs_attrs (ti : TarInfo) : Dict :=
  let stmd := ti.mode ||| tarTypeBit ti.type
  let attrs := dictInsert VIRTFS_UID_KEY ti.uid []
  let attrs := dictInsert VIRTFS_GID_KEY ti.gid attrs
  let attrs := dictInsert VIRTFS_MODE_KEY stmd attrs
  if ti.type = TarType.CHR ∨ ti.type = TarType.BLK then
    dictInsert VIRTFS_RDEV_KEY
      (dev_from_major_minor ti.devmajor ti.devminor) attrs
  else attrs

theorem attrs_chain (u g m : Nat) :
    dictInsert VIRTFS_MODE_KEY m
      (dictInsert VIRTFS_GID_KEY g (dictInsert VIRTFS_UID_KEY u [])) =
    canonicalAttrs u g m none := by
  simp [dictInsert, canonicalAttrs, uid_ne_gid, uid_ne_mode, gid_ne_mode]

theorem attrs_chain_rdev (u g m r : Nat) :
    dictInsert VIRTFS_RDEV_KEY r (canonicalAttrs u g m none) =
    canonicalAttrs u g m (some r) := by
  simp [dictInsert, canonicalAttrs, uid_ne_rdev, gid_ne_rdev, mode_ne_rdev]

theorem extract_virtfs_attrs_eq (ti : TarInfo) :
    extract_virtfs_attrs ti =
      canonicalAttrs ti.uid ti.gid (ti.mode ||| tarTypeBit ti.type)
        (if ti.type = TarType.CHR ∨ ti.type = TarType.BLK then
          some (dev_from_major_minor ti.devmajor ti.devminor)
        else none) := by
  unfold extract_virtfs_attrs
  by_cases h : ti.type = TarType.CHR ∨ ti.type = TarType.BLK
  · rw [if_pos h, if_pos h, attrs_chain, attrs_chain_rdev]
  · rw [if_neg h, if_neg h, attrs_chain]

/-! ## Stager (`_stage_file_for_virtfs`) -/

/-- The on-disk effect `_stage_file_for_virtfs` leaves at the staged path:
`content = some c` means the original node was deleted and replaced by a
fresh regular file with content `c`; `none` means the node was kept.
`hostMode` is the final `os.chmod` argument. -/
structure Surrogate where
  content : Option (List Char)
  hostMode : Nat
  deriving DecidableEq

/-- `_stage_file_for_virtfs` (virtfs.py lines 328-368) as a function of the
entry's lstat data (`st_mode`, `st_rdev`) and, for symlinks, the
`os.readlink` result: the attribute dict it persists (via
`_write_virtfs_attrs`) and the surrogate left on disk.  Char/block devices
and fifos capture `st_rdev` and are deleted and recreated as empty regular
files; symlinks become regular files holding the link target; directories
get host mode 0700, everything else 0600. -/
def stage_file_for_virtfs (st_mode st_rdev : Nat) (linkTarget : List Char) :
    Dict × Surrogate :=
  let attrs := dictInsert VIRTFS_UID_KEY 0 []
  let attrs := dictInsert VIRTFS_GID_KEY 0 attrs
  let attrs := dictInsert VIRTFS_MODE_KEY st_mode attrs
  let step :=
    if S_ISCHR st_mode || S_ISBLK st_mode || S_ISFIFO st_mode then
      (dictInsert VIRTFS_RDEV_KEY st_rdev attrs, some ([] : List Char))
    else if S_ISLNK st_mode then (attrs, some linkTarget)
    else (attrs, none)
  let hostMode := if S_ISDIR st_mode then 448 else 384
  (step.1, ⟨step.2, hostMode⟩)

theorem stage_file_for_virtfs_eq (st_mode st_rdev : Nat) (lt : List Char) :
    stage_file_for_virtfs st_mode st_rdev lt =
      (canonicalAttrs 0 0 st_mode
        (if S_ISCHR st_mode || S_ISBLK st_mode || S_ISFIFO st_mode then
          some st_rdev
        else none),
       ⟨if S_ISCHR st_mode || S_ISBLK st_mode || S_ISFIFO st_mode then some []
         else if S_ISLNK st_mode then some lt else none,
        if S_ISDIR st_mode then 448 else 384⟩) := by
  unfold stage_file_for_virtfs
  by_cases h : (S_ISCHR st_mode || S_ISBLK st_mode || S_ISFIFO st_mode) = true
  · simp only [h, if_true, attrs_chain, attrs_chain_rdev]
  · simp only [h, if_false, attrs_chain]
    by_cases h2 : S_ISLNK st_mode = true
    · simp [h2]
    · simp [h2]

/-- Counterexample to C5 as stated: staging a FIFO (stat mode 0o010644 =
4516, `st_rdev` 0) produces a record WITH an rdev entry, whose persisted
sidecar file carries a `virtfs.rdev=0` line. -/
theorem c5_fifo_rdev_counterexample :
    dictLookup VIRTFS_RDEV_KEY (stage_file_for_virtfs 4516 0 []).1 = some 0 ∧
    serializeVirtfsAttrs (stage_file_for_virtfs 4516 0 []).1 =
      some (serializedAttrs 0 0 4516 (some 0)) := by
  constructor
  · decide
  · decide

/-- C5 amended: records created at extract time carry `rdev` iff the member
type is char/block device; records created by the stager carry `rdev` iff
the stat type is char device, block device, or FIFO (a staged FIFO's record
does include an rdev line); device and fifo staging deletes the real node
and replaces it with a zero-length regular file. -/
theorem c5_rdev_presence_amended (ti : TarInfo) (st_mode st_rdev : Nat)
    (lt : List Char) :
    ((dictLookup VIRTFS_RDEV_KEY (extract_virtfs_attrs ti)).isSome ↔
      (ti.type = TarType.CHR ∨ ti.type = TarType.BLK)) ∧
    ((dictLookup VIRTFS_RDEV_KEY
        (stage_file_for_virtfs st_mode st_rdev lt).1).isSome ↔
      (S_ISCHR st_mode || S_ISBLK st_mode || S_ISFIFO st_mode) = true) ∧
    ((S_ISCHR st_mode || S_ISBLK st_mode || S_ISFIFO st_mode) = true →
      (stage_file_for_virtfs st_mode st_rdev lt).2.content = some []) := by
  refine ⟨?_, ?_, ?_⟩
  · rw [extract_virtfs_attrs_eq, canonicalAttrs_lookup]
    by_cases h : ti.type = TarType.CHR ∨ ti.type = TarType.BLK
    · simp [h, Ne.symm uid_ne_rdev, Ne.symm gid_ne_rdev, Ne.symm mode_ne_rdev]
    · simp [h, Ne.symm uid_ne_rdev, Ne.symm gid_ne_rdev, Ne.symm mode_ne_rdev]
  · rw [stage_file_for_virtfs_eq]
    simp only [canonicalAttrs_lookup]
    by_cases h : (S_ISCHR st_mode || S_ISBLK st_mode || S_ISFIFO st_mode) = true
    · simp [h, Ne.symm uid_ne_rdev, Ne.symm gid_ne_rdev, Ne.symm mode_ne_rdev]
    · simp [h, Ne.symm uid_ne_rdev, Ne.symm gid_ne_rdev, Ne.symm mode_ne_rdev]
  · intro h
    rw [stage_file_for_virtfs_eq]
    simp [h]

/-- Witness for C5 amended: a block-device member (type BLK) yields a record
with rdev; staging a char device (mode 0o020644 = 8612) replaces it with an
empty regular file and records rdev. -/
theorem c5_rdev_presence_amended_witness :
    ((dictLookup VIRTFS_RDEV_KEY (extract_virtfs_attrs
        ⟨['f'], 420, 0, 0, 0, 0, TarType.BLK, [], ['0'], ['0'], 5, 1⟩)).isSome ↔
      (TarType.BLK = TarType.CHR ∨ TarType.BLK = TarType.BLK)) ∧
    ((dictLookup VIRTFS_RDEV_KEY
        (stage_file_for_virtfs 8612 1281 []).1).isSome ↔
      (S_ISCHR 8612 || S_ISBLK 8612 || S_ISFIFO 8612) = true) ∧
    ((S_ISCHR 8612 || S_ISBLK 8612 || S_ISFIFO 8612) = true →
      (stage_file_for_virtfs 8612 1281 []).2.content = some []) :=
  c5_rdev_presence_amended
    ⟨['f'], 420, 0, 0, 0, 0, TarType.BLK, [], ['0'], ['0'], 5, 1⟩ 8612 1281 []

/-! ## Ownership normalization (`filter_virtfs_attrs`, lines 283-292) -/

/-- The collecting/extracting process environment: effective uid/gid, the
passwd database `pwd.getpwuid(·)[0]` and the group database
`grp.getgrgid(·)[0]` (total models; a missing database entry would raise
`KeyError`, which never happens in the verified flows). -/
structure Env where
  euid : Nat
  egid : Nat
  pwnam : Nat → List Char
  grnam : Nat → List Char

/-- The ownership-normalization step at the end of `filter_virtfs_attrs`:
an entry whose uid/gid/uname/gname all match the collecting process's
effective identity (as the source computes it, via `pwd.getpwuid` on the
entry's uid and gid) is rewritten to uid=0, gid=0, uname="0", gname="0". -/
def normalizeOwner (env : Env) (ti : TarInfo) : TarInfo :=
  if ti.uid = env.euid ∧ ti.gid = env.egid ∧ ti.uname = env.pwnam ti.uid ∧
      ti.gname = env.pwnam ti.gid then
    { ti with uid := 0, gid := 0, uname := ['0'], gname := ['0'] }
  else ti

/-- C7: during collection, an entry whose recorded uid/gid/uname/gname all
equal the effective identity of the collecting process (euid, egid and
their passwd names) is rewritten to uid=0, gid=0, uname="0", gname="0",
and an entry whose recorded identity differs keeps all four fields. -/
theorem c7_ownership_normalization (env : Env) (ti : TarInfo) :
    (ti.uid = env.euid → ti.gid = env.egid → ti.uname = env.pwnam env.euid →
      ti.gname = env.pwnam env.egid →
      (normalizeOwner env ti).uid = 0 ∧ (normalizeOwner env ti).gid = 0 ∧
      (normalizeOwner env ti).uname = ['0'] ∧
      (normalizeOwner env ti).gname = ['0']) ∧
    (¬(ti.uid = env.euid ∧ ti.gid = env.egid ∧
        ti.uname = env.pwnam env.euid ∧ ti.gname = env.pwnam env.egid) →
      (normalizeOwner env ti).uid = ti.uid ∧
      (normalizeOwner env ti).gid = ti.gid ∧
      (normalizeOwner env ti).uname = ti.uname ∧
      (normalizeOwner env ti).gname = ti.gname) := by
  constructor
  · intro h1 h2 h3 h4
    unfold normalizeOwner
    rw [if_pos ⟨h1, h2, by rw [h1]; exact h3, by rw [h2]; exact h4⟩]
    exact ⟨rfl, rfl, rfl, rfl⟩
  · intro hne
    unfold normalizeOwner
    rw [if_neg ?hcond]
    · exact ⟨rfl, rfl, rfl, rfl⟩
    · intro hcode
      obtain ⟨h1, h2, h3, h4⟩ := hcode
      exact hne ⟨h1, h2, by rw [← h1]; exact h3, by rw [← h2]; exact h4⟩

/-- Witness for C7: with euid=1000/egid=100 and passwd names, a member
recorded as that identity is normalized; a root-recorded member (uname "0")
is unchanged. -/
theorem c7_ownership_normalization_witness :
    ((normalizeOwner ⟨1000, 100, fun _ => ['b'], fun _ => ['b']⟩
        ⟨['f'], 420, 1000, 100, 0, 0, TarType.REG, [], ['b'], ['b'], 0, 0⟩).uid
        = 0 ∧
      (normalizeOwner ⟨1000, 100, fun _ => ['b'], fun _ => ['b']⟩
        ⟨['f'], 420, 1000, 100, 0, 0, TarType.REG, [], ['b'], ['b'], 0, 0⟩).gid
        = 0 ∧
      (normalizeOwner ⟨1000, 100, fun _ => ['b'], fun _ => ['b']⟩
        ⟨['f'], 420, 1000, 100, 0, 0, TarType.REG, [], ['b'], ['b'], 0, 0⟩).uname
        = ['0'] ∧
      (normalizeOwner ⟨1000, 100, fun _ => ['b'], fun _ => ['b']⟩
        ⟨['f'], 420, 1000, 100, 0, 0, TarType.REG, [], ['b'], ['b'], 0, 0⟩).gname
        = ['0']) ∧
    ((normalizeOwner ⟨1000, 100, fun _ => ['b'], fun _ => ['b']⟩
        ⟨['f'], 420, 7, 100, 0, 0, TarType.REG, [], ['0'], ['0'], 0, 0⟩).uid
        = 7) := by
  constructor
  · exact (c7_ownership_normalization ⟨1000, 100, fun _ => ['b'], fun _ => ['b']⟩
      ⟨['f'], 420, 1000, 100, 0, 0, TarType.REG, [], ['b'], ['b'], 0, 0⟩).1
      rfl rfl rfl rfl
  · exact ((c7_ownership_normalization ⟨1000, 100, fun _ => ['b'], fun _ => ['b']⟩
      ⟨['f'], 420, 7, 100, 0, 0, TarType.REG, [], ['0'], ['0'], 0, 0⟩).2
      (by intro hc; exact absurd hc.1 (by decide))).1

/-! ## The exception net of `filter_virtfs_attrs` (claim C4) -/

def EISDIR : Nat := 21

/-- Outcome of the `try` body of `filter_virtfs_attrs`
(`_read_virtfs_attrs` followed by `_apply_virtfs_attrs`). -/
inductive PyOutcome (α : Type)
  | ok (a : α)
  | ioError (errno : Nat)     -- an `IOError`, e.g. ENOENT or EACCES from `open`
  | exc (e : VErr)            -- any non-IOError exception (KeyError, ...)

/-- The `try/except` net of `filter_virtfs_attrs` (virtfs.py lines
273-278).  The handler catches `IOError` and tests
`e.errno is errno.ENOENT`, but the `if` has no `else: raise`: control falls
off the end of the except block in BOTH branches, so every `IOError` is
suppressed (`Except.ok none` = continue with the native tarinfo). -/
def filterExceptNet {α : Type} (body : PyOutcome α) : Except VErr (Option α) :=
  match body with
  | PyOutcome.ok a => Except.ok (some a)
  | PyOutcome.ioError e =>
    if e = ENOENT then
      Except.ok none    -- `pass`
    else
      Except.ok none    -- no re-raise: suppressed as well
  | PyOutcome.exc e => Except.error e

/-- C4 (code evaluation at the failing input): an `EACCES` IOError raised
while reading the sidecar record is swallowed by the except block and
collection proceeds with the native stat data, instead of propagating and
aborting `collect_artifact` as the claim requires; indeed every IOError is
swallowed, so the `errno is ENOENT` test has no effect. -/
theorem c4_ioerror_swallowed :
    filterExceptNet (PyOutcome.ioError (α := Dict) EACCES) = Except.ok none ∧
    ∀ e : Nat, filterExceptNet (PyOutcome.ioError (α := Dict) e) =
      Except.ok none := by
  constructor
  · rfl
  · intro e
    show (if e = ENOENT then (Except.ok none : Except VErr (Option Dict))
        else Except.ok none) = Except.ok none
    by_cases h : e = ENOENT
    · rw [if_pos h]
    · rw [if_neg h]

/-! ## Name ordering and entry sorting (`sorted(os.listdir(...))`)

Python sorts directory listings bytewise; names here are ASCII `List Char`,
ordered lexicographically by code point. -/

def nameLe : List Char → List Char → Bool
  | [], _ => true
  | _ :: _, [] => false
  | a :: as, b :: bs =>
    if a.toNat < b.toNat then true
    else if a.toNat = b.toNat then nameLe as bs
    else false

def insertEntry {α : Type} (x : List Char × α) :
    List (List Char × α) → List (List Char × α)
  | [] => [x]
  | y :: ys => if nameLe x.1 y.1 then x :: y :: ys else y :: insertEntry x ys

/-- Insertion sort by name: the model of `sorted(os.listdir(dir_name))`. -/
def sortEntries {α : Type} : List (List Char × α) → List (List Char × α)
  | [] => []
  | x :: xs => insertEntry x (sortEntries xs)

theorem char_toNat_inj {a b : Char} (h : a.toNat = b.toNat) : a = b :=
  Char.ext (UInt32.ext h)

theorem nameLe_total (x y : List Char) : nameLe x y = true ∨ nameLe y x = true := by
  induction x generalizing y with
  | nil => left; rfl
  | cons a as ih =>
    cases y with
    | nil => right; rfl
    | cons b bs =>
      unfold nameLe
      rcases Nat.lt_trichotomy a.toNat b.toNat with h | h | h
      · left; simp [h]
      · rcases ih bs with h2 | h2
        · left; simp [h, h2]
        · right; simp [h.symm, h2]
      · right; simp [h]

theorem nameLe_antisymm {x y : List Char} (hxy : nameLe x y = true)
    (hyx : nameLe y x = true) : x = y := by
  induction x generalizing y with
  | nil =>
    cases y with
    | nil => rfl
    | cons b bs => exact absurd hyx (by simp [nameLe])
  | cons a as ih =>
    cases y with
    | nil => exact absurd hxy (by simp [nameLe])
    | cons b bs =>
      unfold nameLe at hxy hyx
      rcases Nat.lt_trichotomy a.toNat b.toNat with h | h | h
      · simp [Nat.not_lt.mpr (Nat.le_of_lt h), Nat.ne_of_gt h] at hyx
      · have hab : a = b := char_toNat_inj h
        subst hab
        simp only [Nat.lt_irrefl, if_false, eq_self_iff_true, if_true] at hxy hyx
        rw [ih hxy hyx]
      · simp [Nat.not_lt.mpr (Nat.le_of_lt h), Nat.ne_of_gt h] at hxy

theorem nameLe_trans {x y z : List Char} (hxy : nameLe x y = true)
    (hyz : nameLe y z = true) : nameLe x z = true := by
  induction x generalizing y z with
  | nil => rfl
  | cons a as ih =>
    cases y with
    | nil => exact absurd hxy (by simp [nameLe])
    | cons b bs =>
      cases z with
      | nil => exact absurd hyz (by simp [nameLe])
      | cons c cs =>
        unfold nameLe at hxy hyz ⊢
        rcases Nat.lt_trichotomy a.toNat b.toNat with h1 | h1 | h1
        · rcases Nat.lt_trichotomy b.toNat c.toNat with h2 | h2 | h2
          · simp [Nat.lt_trans h1 h2]
          · simp [h2 ▸ h1]
          · simp [Nat.not_lt.mpr (Nat.le_of_lt h2), Nat.ne_of_gt h2] at hyz
        · rcases Nat.lt_trichotomy b.toNat c.toNat with h2 | h2 | h2
          · simp [h1 ▸ h2]
          · have hac : a.toNat = c.toNat := h1.trans h2
            simp only [Nat.lt_irrefl, if_false, eq_self_iff_true, if_true,
              hac, h1, h2] at hxy hyz ⊢
            simp only [hac ▸ (Nat.lt_irrefl a.toNat), if_false] at *
            exact ih hxy hyz
          · simp [Nat.not_lt.mpr (Nat.le_of_lt h2), Nat.ne_of_gt h2] at hyz
        · simp [Nat.not_lt.mpr (Nat.le_of_lt h1), Nat.ne_of_gt h1] at hxy

theorem insertEntry_perm {α : Type} (x : List Char × α)
    (l : List (List Char × α)) : List.Perm (insertEntry x l) (x :: l) := by
  induction l with
  | nil => exact List.Perm.refl _
  | cons y ys ih =>
    unfold insertEntry
    by_cases h : nameLe x.1 y.1 = true
    · rw [if_pos h]
    · rw [if_neg h]
      exact (ih.cons y).trans (List.Perm.swap x y ys)

theorem sortEntries_perm {α : Type} (l : List (List Char × α)) :
    List.Perm (sortEntries l) l := by
  induction l with
  | nil => exact List.Perm.refl _
  | cons x xs ih => exact (insertEntry_perm x (sortEntries xs)).trans (ih.cons x)

theorem sizeOf_perm {α : Type} [SizeOf α] {l₁ l₂ : List α}
    (h : List.Perm l₁ l₂) : sizeOf l₁ = sizeOf l₂ := by
  induction h with
  | nil => rfl
  | cons x h ih => simp only [List.cons.sizeOf_spec]; omega
  | swap x y l => simp only [List.cons.sizeOf_spec]; omega
  | trans h1 h2 ih1 ih2 => omega

theorem sizeOf_sortEntries {α : Type} [SizeOf α] (l : List (List Char × α)) :
    sizeOf (sortEntries l) = sizeOf l :=
  sizeOf_perm (sortEntries_perm l)

/-- Sortedness of an entry list: pairwise name order. -/
def entriesSorted {α : Type} (l : List (List Char × α)) : Prop :=
  List.Pairwise (fun a b => nameLe a.1 b.1 = true) l

theorem insertEntry_sorted {α : Type} (x : List Char × α)
    {l : List (List Char × α)} (hl : entriesSorted l) :
    entriesSorted (insertEntry x l) := by
  induction l with
  | nil => simp [insertEntry, entriesSorted]
  | cons y ys ih =>
    simp only [entriesSorted, List.pairwise_cons] at hl
    obtain ⟨hy, hys⟩ := hl
    unfold insertEntry
    by_cases h : nameLe x.1 y.1 = true
    · rw [if_pos h]
      simp only [entriesSorted, List.pairwise_cons]
      refine ⟨?_, ?_, ?_⟩
      · intro b hb
        rcases List.mem_cons.mp hb with hb | hb
        · subst hb; exact h
        · exact nameLe_trans h (hy b hb)
      · exact hy
      · exact hys
    · rw [if_neg h]
      have hyx : nameLe y.1 x.1 = true := (nameLe_total x.1 y.1).resolve_left h
      simp only [entriesSorted, List.pairwise_cons]
      refine ⟨?_, ih hys⟩
      intro b hb
      have hb' : b ∈ x :: ys := (insertEntry_perm x ys).mem_iff.mp hb
      rcases List.mem_cons.mp hb' with hb' | hb'
      · subst hb'; exact hyx
      · exact hy b hb'

theorem sortEntries_sorted {α : Type} (l : List (List Char × α)) :
    entriesSorted (sortEntries l) := by
  induction l with
  | nil => exact List.Pairwise.nil
  | cons x xs ih => exact insertEntry_sorted x ih

/-- Sorting commutes with mapping over the payload (names untouched):
insertion sort is stable and compares only names. -/
theorem insertEntry_map {α β : Type} (f : α → β) (x : List Char × α)
    (l : List (List Char × α)) :
    insertEntry (x.1, f x.2) (l.map (fun p => (p.1, f p.2))) =
      (insertEntry x l).map (fun p => (p.1, f p.2)) := by
  induction l with
  | nil => rfl
  | cons y ys ih =>
    unfold insertEntry
    by_cases h : nameLe x.1 y.1 = true
    · simp [h]
    · simp [h, ih]

theorem sortEntries_map {α β : Type} (f : α → β)
    (l : List (List Char × α)) :
    sortEntries (l.map (fun p => (p.1, f p.2))) =
      (sortEntries l).map (fun p => (p.1, f p.2)) := by
  induction l with
  | nil => rfl
  | cons x xs ih =>
    show insertEntry (x.1, f x.2) (sortEntries (xs.map fun p => (p.1, f p.2)))
      = _
    rw [ih, insertEntry_map]
    rfl

/-- Two sorted entry lists that are permutations of each other, with
duplicate-free names, are equal. -/
theorem sorted_perm_unique {α : Type} :
    ∀ {l₁ l₂ : List (List Char × α)}, List.Perm l₁ l₂ → entriesSorted l₁ →
      entriesSorted l₂ → (l₁.map Prod.fst).Nodup → l₁ = l₂ := by
  intro l₁
  induction l₁ with
  | nil =>
    intro l₂ hp _ _ _
    exact (List.Perm.nil_eq hp).symm ▸ rfl
  | cons a t₁ ih =>
    intro l₂ hp hs₁ hs₂ hnd
    cases l₂ with
    | nil => exact absurd hp.symm (by simp [List.Perm.nil_eq])
    | cons b t₂ =>
      by_cases hab : a = b
      · subst hab
        simp only [entriesSorted, List.pairwise_cons] at hs₁ hs₂
        rw [List.map_cons, List.nodup_cons] at hnd
        rw [ih hp.cons_inv hs₁.2 hs₂.2 hnd.2]
      · exfalso
        have ha2 : a ∈ t₂ := by
          have := hp.mem_iff.mp (List.mem_cons_self a t₁)
          rcases List.mem_cons.mp this with h | h
          · exact absurd h hab
          · exact h
        have hb1 : b ∈ t₁ := by
          have := hp.mem_iff.mpr (List.mem_cons_self b t₂)
          rcases List.mem_cons.mp this with h | h
          · exact absurd h.symm hab
          · exact h
        simp only [entriesSorted, List.pairwise_cons] at hs₁ hs₂
        have h1 : nameLe a.1 b.1 = true := hs₁.1 b hb1
        have h2 : nameLe b.1 a.1 = true := hs₂.1 a ha2
        have heq : a.1 = b.1 := nameLe_antisymm h1 h2
        rw [List.map_cons, List.nodup_cons] at hnd
        exact hnd.1 (heq ▸ List.mem_map_of_mem Prod.fst hb1)

/-- Association lookup is stable under permutation when names are unique. -/
theorem alistLookup_perm {κ ν : Type} [DecidableEq κ]
    {l₁ l₂ : List (κ × ν)} (h : List.Perm l₁ l₂)
    (hnd : (l₁.map Prod.fst).Nodup) (k : κ) :
    alistLookup k l₁ = alistLookup k l₂ := by
  induction h with
  | nil => rfl
  | cons x h ih =>
    rw [List.map_cons, List.nodup_cons] at hnd
    unfold alistLookup
    by_cases hx : x.1 = k
    · simp [hx]
    · simp only [hx, if_false]
      exact ih hnd.2
  | swap x y l =>
    rw [List.map_cons, List.map_cons, List.nodup_cons, List.nodup_cons] at hnd
    have hxy : y.1 ≠ x.1 := by
      intro he
      exact hnd.1 (he ▸ List.mem_cons_self x.1 _)
    by_cases hx : x.1 = k
    · by_cases hy : y.1 = k
      · exact absurd (hy.trans hx.symm) hxy
      · simp [alistLookup, hx, hy]
    · by_cases hy : y.1 = k
      · simp [alistLookup, hx, hy]
      · simp [alistLookup, hx, hy]
  | trans h1 h2 ih1 ih2 =>
    rw [ih1 hnd]
    refine ih2 ?_
    exact ((h1.map Prod.fst).nodup_iff).mp hnd

theorem alistLookup_sortEntries {α : Type}
    {l : List (List Char × α)} (hnd : (l.map Prod.fst).Nodup) (k : List Char) :
    alistLookup k (sortEntries l) = alistLookup k l :=
  alistLookup_perm (sortEntries_perm l)
    (((sortEntries_perm l).map Prod.fst).nodup_iff.mpr hnd) k

/-! ## The staged host tree and the collector

The host filesystem a collection pass walks.  Staged trees contain only
regular files and directories on the host (the staging convention replaces
every other kind by a surrogate regular file), so those are the node kinds
of the model; `st_size` of a file is its content length. -/

structure FileStat where
  st_mode : Nat
  st_uid : Nat
  st_gid : Nat
  st_ino : Nat
  st_dev : Nat
  st_nlink : Nat
  st_mtime : Nat
  content : List Char
  deriving DecidableEq

structure DirStat where
  st_mode : Nat
  st_uid : Nat
  st_gid : Nat
  st_ino : Nat
  st_dev : Nat
  st_nlink : Nat
  st_mtime : Nat
  deriving DecidableEq

mutual
inductive HNode
  | file (f : FileStat)
  | dir (d : DirStat) (entries : HEntries)
inductive HEntries
  | nil
  | cons (name : List Char) (node : HNode) (rest : HEntries)
end

/-- A directory listing as the association list the walk operates on. -/
def HEntries.toList : HEntries → List (List Char × HNode)
  | HEntries.nil => []
  | HEntries.cons n x r => (n, x) :: HEntries.toList r

def HEntries.ofList : List (List Char × HNode) → HEntries
  | [] => HEntries.nil
  | (n, x) :: r => HEntries.cons n x (HEntries.ofList r)

mutual
/-- Node size, the fuel measure of the tree walks. -/
def HNode.size : HNode → Nat
  | HNode.file _ => 1
  | HNode.dir _ es => 1 + es.size
def HEntries.size : HEntries → Nat
  | HEntries.nil => 0
  | HEntries.cons _ x r => 1 + x.size + r.size
end

def entsListSize : List (List Char × HNode) → Nat
  | [] => 0
  | (_, nd) :: rest => 1 + nd.size + entsListSize rest

theorem entsListSize_toList : ∀ (es : HEntries),
    entsListSize es.toList = es.size
  | HEntries.nil => rfl
  | HEntries.cons n x r => by
    show 1 + x.size + entsListSize r.toList = 1 + x.size + r.size
    rw [entsListSize_toList r]

theorem entsListSize_perm {l₁ l₂ : List (List Char × HNode)}
    (h : List.Perm l₁ l₂) : entsListSize l₁ = entsListSize l₂ := by
  induction h with
  | nil => rfl
  | cons x h ih =>
    obtain ⟨n, nd⟩ := x
    show 1 + nd.size + entsListSize _ = 1 + nd.size + entsListSize _
    rw [ih]
  | swap x y l =>
    obtain ⟨n1, nd1⟩ := x
    obtain ⟨n2, nd2⟩ := y
    show 1 + nd2.size + (1 + nd1.size + entsListSize l) =
      1 + nd1.size + (1 + nd2.size + entsListSize l)
    omega
  | trans h1 h2 ih1 ih2 => omega

theorem entsListSize_sortEntries (l : List (List Char × HNode)) :
    entsListSize (sortEntries l) = entsListSize l :=
  entsListSize_perm (sortEntries_perm l)

/-- The per-entry `os.lstat` view that one `tar_f.add` call consumes (a
directory's entry list plays no role in its own member). -/
inductive ItemNode
  | file (f : FileStat)
  | dirStat (d : DirStat)
  deriving DecidableEq

def HNode.view : HNode → ItemNode
  | HNode.file f => ItemNode.file f
  | HNode.dir d _ => ItemNode.dirStat d

def ItemNode.lstatIno : ItemNode → Nat × Nat × Nat
  | ItemNode.file f => (f.st_ino, f.st_dev, f.st_nlink)
  | ItemNode.dirStat d => (d.st_ino, d.st_dev, d.st_nlink)

/-- `tarfile.TarFile` state during one build pass: the `dereference` flag,
the `inodes` table (identity ↦ first archived name) and the members emitted
so far, each with its data payload. -/
structure TarF where
  dereference : Bool
  inodes : List ((Nat × Nat) × List Char)
  members : List (TarInfo × List Char)
  deriving DecidableEq

/-- `tarfile.TarFile.gettarinfo` (Python 2.7) on the node kinds occurring
in staged trees.  Regular files run the hardlink resolution against
`self.inodes` (registering the inode when nonzero); directories yield
DIRTYPE members.  Other host node kinds do not occur in the model
filesystem; gettarinfo would return None for genuinely unsupported kinds,
which `add()` answers by skipping the entry. -/
def gettarinfo (env : Env) (tf : TarF) (nd : ItemNode) (arcname : List Char) :
    Option (TarF × TarInfo) :=
  match nd with
  | ItemNode.file f =>
    if S_ISREG f.st_mode then
      let inode := (f.st_ino, f.st_dev)
      let reg :=
        (if f.st_ino ≠ 0 then
          { tf with inodes := alistInsert inode arcname tf.inodes }
         else tf,
         ({ name := arcname
            mode := f.st_mode
            uid := f.st_uid
            gid := f.st_gid
            size := f.content.length
            mtime := f.st_mtime
            type := TarType.REG
            linkname := []
            uname := env.pwnam f.st_uid
            gname := env.grnam f.st_gid
            devmajor := 0
            devminor := 0 } : TarInfo))
      match alistLookup inode tf.inodes with
      | some nm =>
        if !tf.dereference && decide (f.st_nlink > 1) && nm ≠ arcname then
          some (tf,
            { name := arcname
              mode := f.st_mode
              uid := f.st_uid
              gid := f.st_gid
              size := 0
              mtime := f.st_mtime
              type := TarType.LNK
              linkname := nm
              uname := env.pwnam f.st_uid
              gname := env.grnam f.st_gid
              devmajor := 0
              devminor := 0 })
        else some reg
      | none => some reg
    else none
  | ItemNode.dirStat d =>
    if S_ISDIR d.st_mode then
      some (tf,
        { name := arcname
          mode := d.st_mode
          uid := d.st_uid
          gid := d.st_gid
          size := 0
          mtime := d.st_mtime
          type := TarType.DIR
          linkname := []
          uname := env.pwnam d.st_uid
          gname := env.grnam d.st_gid
          devmajor := 0
          devminor := 0 })
    else none

/-- The type-resolution branch chain of `_apply_virtfs_attrs` (lines
125-164): from the sidecar mode, determine the member type, the linkname
(hardlink target or symlink target text) and the tarfile state (regular
files register their inode in `tar_f.inodes`).  Reading the surrogate of a
symlink record raises `IOError(EISDIR)` when the host node is a directory;
an unrecognised mode raises the bare `Exception`. -/
def applyResolveType (tf : TarF) (ti : TarInfo) (nd : ItemNode) (stmd : Nat) :
    Except VErr (TarType × List Char × TarF) :=
  if S_ISREG stmd then
    let inode := (nd.lstatIno.1, nd.lstatIno.2.1)
    let nlink := nd.lstatIno.2.2
    let reg :=
      (TarType.REG, ([] : List Char),
        if nd.lstatIno.1 ≠ 0 then
          { tf with inodes := alistInsert inode ti.name tf.inodes }
        else tf)
    match alistLookup inode tf.inodes with
    | some nm =>
      if !tf.dereference && decide (nlink > 1) && nm ≠ ti.name then
        Except.ok (TarType.LNK, nm, tf)
      else Except.ok reg
    | none => Except.ok reg
  else if S_ISDIR stmd then Except.ok (TarType.DIR, [], tf)
  else if S_ISFIFO stmd then Except.ok (TarType.FIFO, [], tf)
  else if S_ISLNK stmd then
    match nd with
    | ItemNode.file f => Except.ok (TarType.SYM, f.content, tf)
    | ItemNode.dirStat _ => Except.error (VErr.ioError EISDIR)
  else if S_ISCHR stmd then Except.ok (TarType.CHR, [], tf)
  else if S_ISBLK stmd then Except.ok (TarType.BLK, [], tf)
  else Except.error VErr.typeError

/-- `_apply_virtfs_attrs` (virtfs.py lines 118-187): override the native
tarinfo with the sidecar attributes.  Dict subscripts raise `KeyError`.
Mutations the source performs before an exception that aborts the whole
collection are unobservable, so the model returns only the error. -/
def applyVirtfsAttrs (tf : TarF) (ti : TarInfo) (nd : ItemNode)
    (attrs : Dict) : Except VErr (TarF × TarInfo) := do
  let stmd ← match dictLookup VIRTFS_MODE_KEY attrs with
    | some m => Except.ok m
    | none => Except.error VErr.keyError
  let res ← applyResolveType tf ti nd stmd
  let uid ← match dictLookup VIRTFS_UID_KEY attrs with
    | some u => Except.ok u
    | none => Except.error VErr.keyError
  let gid ← match dictLookup VIRTFS_GID_KEY attrs with
    | some g => Except.ok g
    | none => Except.error VErr.keyError
  let ti1 := { ti with
    mode := stmd
    uid := uid
    gid := gid
    uname := natToChars uid
    gname := natToChars gid
    type := res.1
    linkname := res.2.1 }
  let ti2 := if res.1 ≠ TarType.REG then { ti1 with size := 0 } else ti1
  if res.1 = TarType.CHR ∨ res.1 = TarType.BLK then
    match dictLookup VIRTFS_RDEV_KEY attrs with
    | some rdev =>
      Except.ok (res.2.2,
        { ti2 with devmajor := dev_major rdev, devminor := dev_minor rdev })
    | none => Except.error VErr.keyError
  else
    Except.ok (res.2.2, ti2)

/-- What `_read_virtfs_attrs(dir_name, name)` finds for `basename` among
`dir_name`'s entries: the content of `dir_name/.virtfs_metadata/basename`
when it is a readable file.  `none` covers every `IOError` of the model
filesystem: metadata directory absent (ENOENT), metadata entry not a
directory (ENOTDIR), sidecar file absent (ENOENT), sidecar a directory
(EISDIR on open). -/
def readVirtfsMeta (entries : List (List Char × HNode)) (basename : List Char) :
    Option (List Char) :=
  match alistLookup VIRTFS_META_DIR entries with
  | some (HNode.dir _ metaEntries) =>
    match alistLookup basename metaEntries.toList with
    | some (HNode.file f) => some f.content
    | _ => none
  | _ => none

/-- One entry of the collection walk: the arcname handed to `tar_f.add`,
the basename, the sidecar file content (when readable) and the entry's
lstat view. -/
structure WalkItem where
  arc : List Char
  base : List Char
  sidecar : Option (List Char)
  node : ItemNode
  deriving DecidableEq

/-- `filter_virtfs_attrs` (virtfs.py lines 267-294) for one entry: the
try/except around read+apply — the handler suppresses every `IOError`, not
only ENOENT (its errno test has no `else: raise`, cf. `filterExceptNet`) —
then the fixed mtime stamp, then ownership normalization. -/
def filter_virtfs_attrs (env : Env) (time : Nat) (tf : TarF) (it : WalkItem)
    (ti : TarInfo) : Except VErr (TarF × TarInfo) := do
  let r ←
    match it.sidecar with
    | none => Except.ok (tf, ti)  -- IOError from _read_virtfs_attrs: suppressed
    | some content =>
      match applyVirtfsAttrs tf ti it.node (parseVirtfsAttrs content) with
      | Except.ok r => Except.ok r
      | Except.error (VErr.ioError _) => Except.ok (tf, ti)  -- suppressed too
      | Except.error e => Except.error e
  let ti1 := { r.2 with mtime := time }
  Except.ok (r.1, normalizeOwner env ti1)

/-- One `tar_f.add(name, arcname, recursive=False, filter=...)` call:
gettarinfo from lstat data, run the filter, then `addfile` — including the
host file's bytes when the final type is regular (`add` opens the host path
for reading there; on a directory that open raises `IOError(EISDIR)`). -/
def processOne (env : Env) (time : Nat) (tf : TarF) (it : WalkItem) :
    Except VErr TarF :=
  match gettarinfo env tf it.node it.arc with
  | none => Except.ok tf    -- gettarinfo returned None: add() skips the entry
  | some (tf1, ti) =>
    match filter_virtfs_attrs env time tf1 it ti with
    | Except.error e => Except.error e
    | Except.ok (tf2, ti2) =>
      if ti2.type = TarType.REG then
        match it.node with
        | ItemNode.file f =>
          Except.ok { tf2 with members := tf2.members ++ [(ti2, f.content)] }
        | ItemNode.dirStat _ => Except.error (VErr.ioError EISDIR)
      else
        Except.ok { tf2 with members := tf2.members ++ [(ti2, [])] }

/-- The collection walk: the traversal order of
`_add_directory_to_tarfile`, i.e. basename-sorted entries at every level,
skipping the reserved metadata subdirectory, descending into a
subdirectory right after its own member.  The recursion is on a fuel
argument kept `≥ sizeOf pending` (the fuel-0 branch is then unreachable)
so the definition is structural and reduces in the kernel. -/
def walkGo (fuel : Nat) (pending parent : List (List Char × HNode))
    (dirArc : List Char) : List WalkItem :=
  match fuel, pending with
  | _, [] => []
  | 0, _ => []
  | fuel + 1, (fn, nd) :: rest =>
    if fn = VIRTFS_META_DIR then walkGo fuel rest parent dirArc
    else
      let arc := osPathJoin dirArc fn
      ⟨arc, fn, readVirtfsMeta parent fn, nd.view⟩ ::
        ((match nd with
          | HNode.dir _ es => walkGo fuel (sortEntries es.toList) es.toList arc
          | HNode.file _ => []) ++ walkGo fuel rest parent dirArc)

def walkItems (entries : List (List Char × HNode)) (dirArc : List Char) :
    List WalkItem :=
  walkGo (entsListSize entries) (sortEntries entries) entries dirArc

/-- `_add_directory_to_tarfile` (virtfs.py lines 265-309): for each
basename-sorted entry except `.virtfs_metadata`, `tar_f.add` the entry with
`filter_virtfs_attrs`, then recurse into subdirectories.  Fuel as in
`walkGo`. -/
def addDirGo (env : Env) (time : Nat) (fuel : Nat) (tf : TarF)
    (pending parent : List (List Char × HNode)) (dirArc : List Char) :
    Except VErr TarF :=
  match fuel, pending with
  | _, [] => Except.ok tf
  | 0, _ => Except.ok tf
  | fuel + 1, (fn, nd) :: rest =>
    if fn = VIRTFS_META_DIR then addDirGo env time fuel tf rest parent dirArc
    else
      let arc := osPathJoin dirArc fn
      match processOne env time tf ⟨arc, fn, readVirtfsMeta parent fn, nd.view⟩ with
      | Except.error e => Except.error e
      | Except.ok tf1 =>
        match nd with
        | HNode.dir _ es =>
          match addDirGo env time fuel tf1 (sortEntries es.toList) es.toList arc with
          | Except.error e => Except.error e
          | Except.ok tf2 => addDirGo env time fuel tf2 rest parent dirArc
        | HNode.file _ => addDirGo env time fuel tf1 rest parent dirArc

def addDirectoryToTarfile (env : Env) (time : Nat) (tf : TarF)
    (entries : List (List Char × HNode)) (dirArc : List Char) :
    Except VErr TarF :=
  addDirGo env time (entsListSize entries) tf (sortEntries entries) entries
    dirArc

/-- The produced artifact: the tar members in order with their payloads,
and the gzip envelope's pinned mtime when compression is on.  (The byte
stream of a tar/gzip file is a function of exactly these data.) -/
structure Archive where
  members : List (TarInfo × List Char)
  gzipMtime : Option Nat
  deriving DecidableEq

/-- `collect_artifact` (virtfs.py lines 382-394): build the tar stream from
`root`'s entries under arcname `.`; when `compress` is set the stream is
wrapped in a `GzipFile(..., mtime=time)` envelope.  Defaults per the
source: `compress=True`, `time=MAGIC_TIMESTAMP`. -/
def collect_artifact (env : Env) (root : List (List Char × HNode))
    (compress : Bool := true) (time : Nat := MAGIC_TIMESTAMP) :
    Except VErr Archive :=
  match addDirectoryToTarfile env time ⟨false, [], []⟩ root ['.'] with
  | Except.ok tf => Except.ok ⟨tf.members, if compress then some time else none⟩
  | Except.error e => Except.error e

theorem foldlM_except_append {α σ ε : Type} (f : σ → α → Except ε σ)
    (l₁ l₂ : List α) (s : σ) :
    (l₁ ++ l₂).foldlM f s =
      (l₁.foldlM f s).bind fun s' => l₂.foldlM f s' := by
  induction l₁ generalizing s with
  | nil => rfl
  | cons a l ih =>
    show (f s a).bind _ = ((f s a).bind _).bind _
    cases f s a with
    | error e => rfl
    | ok s' => exact ih s'

theorem foldlM_except_cons {α σ ε : Type} (f : σ → α → Except ε σ)
    (a : α) (l : List α) (s : σ) :
    (a :: l).foldlM f s = (f s a).bind fun s' => l.foldlM f s' := rfl

/-- The interleaved build is the fold of `processOne` over the walk. -/
theorem addDirGo_eq_fold (env : Env) (time : Nat) :
    ∀ (fuel : Nat) (pending parent : List (List Char × HNode))
      (dirArc : List Char) (tf : TarF),
      addDirGo env time fuel tf pending parent dirArc =
        (walkGo fuel pending parent dirArc).foldlM (processOne env time) tf := by
  intro fuel
  induction fuel with
  | zero =>
    intro pending parent dirArc tf
    cases pending <;> rfl
  | succ fuel ih =>
    intro pending parent dirArc tf
    cases pending with
    | nil => rfl
    | cons hd rest =>
      obtain ⟨fn, nd⟩ := hd
      by_cases hm : fn = VIRTFS_META_DIR
      · simp only [addDirGo, walkGo, hm, if_true]
        exact ih rest parent dirArc tf
      · cases nd with
        | file f =>
          simp only [addDirGo, walkGo, hm, if_false, List.nil_append,
            foldlM_except_cons]
          cases hp : processOne env time tf
              ⟨osPathJoin dirArc fn, fn, readVirtfsMeta parent fn,
                (HNode.file f).view⟩ with
          | error e => rfl
          | ok tf1 =>
            simp only [Except.bind]
            exact ih rest parent dirArc tf1
        | dir d es =>
          simp only [addDirGo, walkGo, hm, if_false, foldlM_except_cons]
          cases hp : processOne env time tf
              ⟨osPathJoin dirArc fn, fn, readVirtfsMeta parent fn,
                (HNode.dir d es).view⟩ with
          | error e => rfl
          | ok tf1 =>
            simp only [Except.bind]
            rw [foldlM_except_append, ← ih (sortEntries es.toList) es.toList
              (osPathJoin dirArc fn) tf1]
            cases addDirGo env time fuel tf1 (sortEntries es.toList) es.toList
                (osPathJoin dirArc fn) with
            | error e => rfl
            | ok tf2 => exact ih rest parent dirArc tf2

/-! ## Claim C9: fixed timestamps -/

theorem normalizeOwner_mtime (env : Env) (ti : TarInfo) :
    (normalizeOwner env ti).mtime = ti.mtime := by
  unfold normalizeOwner
  split <;> rfl

theorem normalizeOwner_members_free (env : Env) (ti : TarInfo) :
    (normalizeOwner env ti).type = ti.type ∧
    (normalizeOwner env ti).name = ti.name ∧
    (normalizeOwner env ti).linkname = ti.linkname ∧
    (normalizeOwner env ti).mode = ti.mode := by
  unfold normalizeOwner
  split <;> exact ⟨rfl, rfl, rfl, rfl⟩

theorem applyResolveType_state {tf : TarF} {ti : TarInfo} {nd : ItemNode}
    {stmd : Nat} {v : TarType × List Char × TarF}
    (h : applyResolveType tf ti nd stmd = Except.ok v) :
    v.2.2.members = tf.members ∧ v.2.2.dereference = tf.dereference := by
  unfold applyResolveType at h
  split at h
  · cases halk : alistLookup (nd.lstatIno.1, nd.lstatIno.2.1) tf.inodes with
    | none =>
      simp only [halk] at h
      split at h <;> (cases h; exact ⟨rfl, rfl⟩)
    | some nm =>
      simp only [halk] at h
      split at h
      · cases h; exact ⟨rfl, rfl⟩
      · split at h <;> (cases h; exact ⟨rfl, rfl⟩)
  · repeat' split at h
    all_goals first
      | (cases h; exact ⟨rfl, rfl⟩)
      | simp at h

theorem applyVirtfsAttrs_members {tf : TarF} {ti : TarInfo} {nd : ItemNode}
    {attrs : Dict} {tf' : TarF} {ti' : TarInfo}
    (h : applyVirtfsAttrs tf ti nd attrs = Except.ok (tf', ti')) :
    tf'.members = tf.members := by
  unfold applyVirtfsAttrs at h
  simp only [bind, Except.bind] at h
  repeat' split at h
  all_goals first
    | (cases h; exact (applyResolveType_state (by assumption)).1)
    | simp at h

theorem gettarinfo_members {env : Env} {tf : TarF} {nd : ItemNode}
    {arcname : List Char} {tf1 : TarF} {ti : TarInfo}
    (h : gettarinfo env tf nd arcname = some (tf1, ti)) :
    tf1.members = tf.members ∧ tf1.dereference = tf.dereference := by
  unfold gettarinfo at h
  split at h
  · rename_i f
    split at h
    · cases halk : alistLookup (f.st_ino, f.st_dev) tf.inodes with
      | none =>
        simp only [halk] at h
        split at h <;> (cases h; exact ⟨rfl, rfl⟩)
      | some nm =>
        simp only [halk] at h
        split at h
        · cases h; exact ⟨rfl, rfl⟩
        · split at h <;> (cases h; exact ⟨rfl, rfl⟩)
    · simp at h
  · split at h
    · cases h; exact ⟨rfl, rfl⟩
    · simp at h

theorem filter_virtfs_attrs_ok {env : Env} {time : Nat} {tf : TarF}
    {it : WalkItem} {ti : TarInfo} {tf2 : TarF} {ti2 : TarInfo}
    (h : filter_virtfs_attrs env time tf it ti = Except.ok (tf2, ti2)) :
    tf2.members = tf.members ∧ ti2.mtime = time := by
  unfold filter_virtfs_attrs at h
  simp only [bind, Except.bind] at h
  split at h
  · cases h
    exact ⟨rfl, normalizeOwner_mtime env _⟩
  · split at h
    · rename_i r hap
      cases h
      refine ⟨?_, normalizeOwner_mtime env _⟩
      obtain ⟨tfr, tir⟩ := r
      exact applyVirtfsAttrs_members hap
    · cases h
      exact ⟨rfl, normalizeOwner_mtime env _⟩
    · exact absurd h (by simp)

theorem processOne_members {env : Env} {time : Nat} {tf : TarF}
    {it : WalkItem} {tf' : TarF}
    (h : processOne env time tf it = Except.ok tf') :
    tf'.members = tf.members ∨
      ∃ ti c, tf'.members = tf.members ++ [(ti, c)] ∧ ti.mtime = time := by
  unfold processOne at h
  split at h
  · cases h
    exact Or.inl rfl
  · rename_i tf1 ti hget
    split at h
    · exact absurd h (by simp)
    · rename_i tf2 ti2 hfil
      have h1 := (gettarinfo_members hget).1
      have h2 := (filter_virtfs_attrs_ok hfil).1
      have h3 := (filter_virtfs_attrs_ok hfil).2
      split at h
      · split at h
        · cases h
          exact Or.inr ⟨ti2, _, by rw [h2, h1], h3⟩
        · exact absurd h (by simp)
      · cases h
        exact Or.inr ⟨ti2, [], by rw [h2, h1], h3⟩

theorem foldlM_members_mtime (env : Env) (time : Nat) :
    ∀ (items : List WalkItem) (tf tfFinal : TarF),
      (∀ m ∈ tf.members, m.1.mtime = time) →
      items.foldlM (processOne env time) tf = Except.ok tfFinal →
      ∀ m ∈ tfFinal.members, m.1.mtime = time := by
  intro items
  induction items with
  | nil =>
    intro tf tfFinal hinv h
    cases h
    exact hinv
  | cons it rest ih =>
    intro tf tfFinal hinv h
    rw [foldlM_except_cons] at h
    cases hp : processOne env time tf it with
    | error e => rw [hp] at h; exact absurd h (by simp [Except.bind])
    | ok tf1 =>
      rw [hp] at h
      refine ih tf1 tfFinal ?_ h
      rcases processOne_members hp with hm | ⟨ti, c, hm, hmt⟩
      · rw [hm]; exact hinv
      · rw [hm]
        intro m hmem
        rcases List.mem_append.mp hmem with hmem | hmem
        · exact hinv m hmem
        · rw [List.mem_singleton.mp hmem]
          exact hmt

/-- The decimal value of `MAGIC_TIMESTAMP`. -/
theorem magic_timestamp_value : MAGIC_TIMESTAMP = 1321009871 := by decide

/-- C9: every member of an archive produced by `collect_artifact` carries
the fixed timestamp parameter as its modification time (the parameter
defaults to `MAGIC_TIMESTAMP`, the epoch seconds of 2011-11-11T11:11:11Z,
i.e. 1321009871), independent of host mtimes; when compression is enabled
the gzip envelope's embedded timestamp is pinned to the same value. -/
theorem c9_fixed_timestamps (env : Env) (root : List (List Char × HNode))
    (compress : Bool) (time : Nat) (ar : Archive)
    (h : collect_artifact env root compress time = Except.ok ar) :
    (∀ m ∈ ar.members, m.1.mtime = time) ∧
    ar.gzipMtime = (if compress then some time else none) ∧
    MAGIC_TIMESTAMP = 1321009871 := by
  unfold collect_artifact at h
  cases hadd : addDirectoryToTarfile env time ⟨false, [], []⟩ root ['.'] with
  | error e => rw [hadd] at h; exact absurd h (by simp)
  | ok tf =>
    rw [hadd] at h
    cases h
    refine ⟨?_, rfl, magic_timestamp_value⟩
    unfold addDirectoryToTarfile at hadd
    rw [addDirGo_eq_fold] at hadd
    exact foldlM_members_mtime env time _ ⟨false, [], []⟩ tf
      (by intro m hm; exact absurd hm (by simp)) hadd

/-- Witness environment and tree for the collector claims: a root-owned
process and a one-file tree without sidecar records. -/
def envW : Env :=
  ⟨0, 0, fun _ => ['r', 'o', 'o', 't'], fun _ => ['r', 'o', 'o', 't']⟩

def rootW : List (List Char × HNode) :=
  [(['f'], HNode.file ⟨33188, 0, 0, 7, 1, 1, 99, ['h', 'i']⟩)]

/-- Witness for C9 on a concrete one-file tree collected at time 5. -/
theorem c9_fixed_timestamps_witness :
    (∀ m ∈ (Archive.mk
        [(⟨['.', '/', 'f'], 33188, 0, 0, 2, 5, TarType.REG, [], ['0'], ['0'],
          0, 0⟩, ['h', 'i'])] (some 5)).members, m.1.mtime = 5) ∧
    (Archive.mk
        [(⟨['.', '/', 'f'], 33188, 0, 0, 2, 5, TarType.REG, [], ['0'], ['0'],
          0, 0⟩, ['h', 'i'])] (some 5)).gzipMtime = (if true then some 5 else none) ∧
    MAGIC_TIMESTAMP = 1321009871 :=
  c9_fixed_timestamps envW rootW true 5 _ (by rfl)

/-! ## Claim C2: determinism of collection

Two on-disk trees denote the same unchanged directory structure when they
differ only in `os.listdir` enumeration order, i.e. when their normal forms
(every level sorted by name) coincide. -/

mutual
/-- Normal form of a tree: every directory listing sorted by name. -/
def HNode.norm : HNode → HNode
  | HNode.file f => HNode.file f
  | HNode.dir d es => HNode.dir d (HEntries.ofList (sortEntries es.normList))
def HEntries.normList : HEntries → List (List Char × HNode)
  | HEntries.nil => []
  | HEntries.cons n x r => (n, x.norm) :: r.normList
end

def normPair (p : List Char × HNode) : List Char × HNode := (p.1, p.2.norm)

def normEntries (l : List (List Char × HNode)) : List (List Char × HNode) :=
  sortEntries (l.map (fun p => (p.1, p.2.norm)))

def HEntries.hasName (n : List Char) : HEntries → Bool
  | HEntries.nil => false
  | HEntries.cons m _ r => (m == n) || HEntries.hasName n r

mutual
/-- Duplicate-free names at every level of a node (real directories cannot
hold two entries with one name). -/
def HNode.nodupB : HNode → Bool
  | HNode.file _ => true
  | HNode.dir _ es => es.nodupB
def HEntries.nodupB : HEntries → Bool
  | HEntries.nil => true
  | HEntries.cons n x r => !(r.hasName n) && x.nodupB && r.nodupB
end

def nodupListB : List (List Char × HNode) → Bool
  | [] => true
  | (n, x) :: r => !(r.any fun p => p.1 == n) && x.nodupB && nodupListB r

theorem toList_ofList : ∀ (l : List (List Char × HNode)),
    (HEntries.ofList l).toList = l
  | [] => rfl
  | (n, x) :: r => by
    show (n, x) :: (HEntries.ofList r).toList = (n, x) :: r
    rw [toList_ofList r]

theorem ofList_inj {l₁ l₂ : List (List Char × HNode)}
    (h : HEntries.ofList l₁ = HEntries.ofList l₂) : l₁ = l₂ := by
  rw [← toList_ofList l₁, ← toList_ofList l₂, h]

theorem normList_eq_map : ∀ (es : HEntries),
    es.normList = es.toList.map normPair
  | HEntries.nil => rfl
  | HEntries.cons n x r => by
    show (n, x.norm) :: r.normList = (n, x.norm) :: r.toList.map normPair
    rw [normList_eq_map r]

theorem hasName_toList : ∀ (es : HEntries) (n : List Char),
    es.hasName n = es.toList.any fun p => p.1 == n
  | HEntries.nil, _ => rfl
  | HEntries.cons m x r, n => by
    show ((m == n) || r.hasName n) = _
    rw [hasName_toList r n]
    rfl

theorem nodupListB_toList : ∀ (es : HEntries),
    nodupListB es.toList = es.nodupB
  | HEntries.nil => rfl
  | HEntries.cons n x r => by
    show (!(r.toList.any fun p => p.1 == n) && x.nodupB &&
      nodupListB r.toList) = (!(r.hasName n) && x.nodupB && r.nodupB)
    rw [nodupListB_toList r, hasName_toList r n]

/-- Normalization preserves the lstat view of a node. -/
theorem view_norm_congr {x₁ x₂ : HNode} (h : x₁.norm = x₂.norm) :
    x₁.view = x₂.view := by
  cases x₁ with
  | file f₁ =>
    cases x₂ with
    | file f₂ =>
      have : HNode.file f₁ = HNode.file f₂ := h
      cases this
      rfl
    | dir d₂ es₂ => exact absurd h (by simp [HNode.norm])
  | dir d₁ es₁ =>
    cases x₂ with
    | file f₂ => exact absurd h (by simp [HNode.norm])
    | dir d₂ es₂ =>
      have h2 : HNode.dir d₁ (HEntries.ofList (sortEntries es₁.normList)) =
          HNode.dir d₂ (HEntries.ofList (sortEntries es₂.normList)) := h
      injection h2 with hd _
      simp [HNode.view, hd]

theorem alistLookup_map_payload {l : List (List Char × HNode)}
    (f : HNode → HNode) (k : List Char) :
    alistLookup k (l.map fun p => (p.1, f p.2)) =
      (alistLookup k l).map f := by
  induction l with
  | nil => rfl
  | cons p r ih =>
    obtain ⟨n, x⟩ := p
    by_cases h : n = k
    · simp [alistLookup, h]
    · simp [alistLookup, h, ih]

theorem alistLookup_mem {κ ν : Type} [DecidableEq κ] {l : List (κ × ν)}
    {k : κ} {v : ν} (h : alistLookup k l = some v) : (k, v) ∈ l := by
  induction l with
  | nil => exact absurd h (by simp [alistLookup])
  | cons p r ih =>
    obtain ⟨k', v'⟩ := p
    by_cases hk : k' = k
    · subst hk
      simp only [alistLookup, if_pos rfl] at h
      cases h
      exact List.mem_cons_self _ _
    · simp only [alistLookup, hk, if_false] at h
      exact List.mem_cons_of_mem _ (ih h)

/-- The propositional characterization of `nodupListB`. -/
theorem nodupListB_iff {l : List (List Char × HNode)} :
    nodupListB l = true ↔
      (l.map Prod.fst).Nodup ∧ ∀ p ∈ l, p.2.nodupB = true := by
  induction l with
  | nil => simp [nodupListB]
  | cons p r ih =>
    obtain ⟨n, x⟩ := p
    simp only [nodupListB, Bool.and_eq_true, Bool.not_eq_true', ih,
      List.map_cons, List.nodup_cons, List.mem_cons]
    constructor
    · rintro ⟨⟨hname, hx⟩, hnod, hall⟩
      refine ⟨⟨?_, hnod⟩, ?_⟩
      · intro hmem
        rcases List.mem_map.mp hmem with ⟨q, hq, hqn⟩
        have : r.any (fun p => p.1 == n) = true :=
          List.any_eq_true.mpr ⟨q, hq, by simp [hqn]⟩
        rw [this] at hname
        cases hname
      · intro q hq
        rcases hq with hq | hq
        · rw [hq]; exact hx
        · exact hall q hq
    · rintro ⟨⟨hname, hnod⟩, hall⟩
      refine ⟨⟨?_, hall _ (Or.inl rfl)⟩, hnod, fun q hq => hall q (Or.inr hq)⟩
      rw [Bool.eq_false_iff]
      intro hany
      rcases List.any_eq_true.mp hany with ⟨q, hq, hqn⟩
      exact hname (List.mem_map.mpr ⟨q, hq, by simpa using hqn⟩)

theorem nodupListB_perm {l₁ l₂ : List (List Char × HNode)}
    (hp : List.Perm l₁ l₂) (h : nodupListB l₁ = true) :
    nodupListB l₂ = true := by
  rw [nodupListB_iff] at h ⊢
  exact ⟨((hp.map Prod.fst).nodup_iff).mp h.1,
    fun p hp2 => h.2 p (hp.mem_iff.mpr hp2)⟩

theorem nodupListB_sortEntries {l : List (List Char × HNode)}
    (h : nodupListB l = true) : nodupListB (sortEntries l) = true :=
  nodupListB_perm (sortEntries_perm l).symm h

theorem map_normPair_fst (l : List (List Char × HNode)) :
    (l.map normPair).map Prod.fst = l.map Prod.fst := by
  induction l with
  | nil => rfl
  | cons p r ih => simp [normPair, ih]

/-- Norm-equality transported through a lookup with unique names. -/
theorem lookup_norm_eq {l₁ l₂ : List (List Char × HNode)}
    (hperm : List.Perm (l₁.map normPair) (l₂.map normPair))
    (h₁ : nodupListB l₁ = true) (k : List Char) :
    (alistLookup k l₁).map HNode.norm = (alistLookup k l₂).map HNode.norm := by
  have hrw : ∀ (l : List (List Char × HNode)),
      l.map normPair = l.map (fun p => (p.1, HNode.norm p.2)) := fun _ => rfl
  have hl : alistLookup k (l₁.map normPair) =
      alistLookup k (l₂.map normPair) := by
    refine alistLookup_perm hperm ?_ k
    rw [map_normPair_fst]
    exact (nodupListB_iff.mp h₁).1
  rw [hrw l₁, hrw l₂, alistLookup_map_payload, alistLookup_map_payload] at hl
  exact hl

theorem nodupListB_cons_parts {n : List Char} {x : HNode}
    {r : List (List Char × HNode)} (h : nodupListB ((n, x) :: r) = true) :
    x.nodupB = true ∧ nodupListB r = true := by
  have hh := nodupListB_iff.mp h
  refine ⟨hh.2 (n, x) (List.mem_cons_self _ _), nodupListB_iff.mpr ⟨?_, ?_⟩⟩
  · have := hh.1
    rw [List.map_cons, List.nodup_cons] at this
    exact this.2
  · exact fun p hp => hh.2 p (List.mem_cons_of_mem _ hp)

theorem nodupB_of_lookup {l : List (List Char × HNode)} {k : List Char}
    {m : HNode} (h : nodupListB l = true) (hl : alistLookup k l = some m) :
    m.nodupB = true :=
  (nodupListB_iff.mp h).2 (k, m) (alistLookup_mem hl)

/-- `_read_virtfs_attrs` sees the same sidecar data in two listings of the
same directory structure. -/
theorem readVirtfsMeta_congr {p₁ p₂ : List (List Char × HNode)}
    (hperm : List.Perm (p₁.map normPair) (p₂.map normPair))
    (h₁ : nodupListB p₁ = true) (h₂ : nodupListB p₂ = true) (n : List Char) :
    readVirtfsMeta p₁ n = readVirtfsMeta p₂ n := by
  have hl := lookup_norm_eq hperm h₁ VIRTFS_META_DIR
  unfold readVirtfsMeta
  cases hm₁ : alistLookup VIRTFS_META_DIR p₁ with
  | none =>
    rw [hm₁] at hl
    cases hm₂ : alistLookup VIRTFS_META_DIR p₂ with
    | none => rfl
    | some m₂ => rw [hm₂] at hl; exact absurd hl (by simp)
  | some m₁ =>
    rw [hm₁] at hl
    cases hm₂ : alistLookup VIRTFS_META_DIR p₂ with
    | none => rw [hm₂] at hl; exact absurd hl (by simp)
    | some m₂ =>
      rw [hm₂] at hl
      simp only [Option.map_some'] at hl
      have hl2 : m₁.norm = m₂.norm := by injection hl
      cases m₁ with
      | file f₁ =>
        cases m₂ with
        | file f₂ => rfl
        | dir d₂ es₂ => exact absurd hl2 (by simp [HNode.norm])
      | dir d₁ es₁ =>
        cases m₂ with
        | file f₂ => exact absurd hl2 (by simp [HNode.norm])
        | dir d₂ es₂ =>
          have h3 : HNode.dir d₁ (HEntries.ofList (sortEntries es₁.normList))
              = HNode.dir d₂ (HEntries.ofList (sortEntries es₂.normList)) :=
            hl2
          injection h3 with hd hes
          have hsort : sortEntries es₁.normList = sortEntries es₂.normList :=
            ofList_inj hes
          have hpermIn : List.Perm (es₁.toList.map normPair)
              (es₂.toList.map normPair) := by
            rw [← normList_eq_map, ← normList_eq_map]
            exact ((sortEntries_perm es₁.normList).symm.trans
              (hsort ▸ sortEntries_perm es₂.normList))
          have hn₁ : nodupListB es₁.toList = true := by
            rw [nodupListB_toList]
            exact nodupB_of_lookup h₁ hm₁
          have hin := lookup_norm_eq hpermIn hn₁ n
          cases hi₁ : alistLookup n es₁.toList with
          | none =>
            rw [hi₁] at hin
            cases hi₂ : alistLookup n es₂.toList with
            | none => simp only [hi₁, hi₂]
            | some w₂ => rw [hi₂] at hin; exact absurd hin (by simp)
          | some w₁ =>
            rw [hi₁] at hin
            cases hi₂ : alistLookup n es₂.toList with
            | none => rw [hi₂] at hin; exact absurd hin (by simp)
            | some w₂ =>
              rw [hi₂] at hin
              simp only [Option.map_some'] at hin
              have hin2 : w₁.norm = w₂.norm := by injection hin
              cases w₁ with
              | file g₁ =>
                cases w₂ with
                | file g₂ =>
                  have : HNode.file g₁ = HNode.file g₂ := hin2
                  cases this
                  simp only [hi₁, hi₂]
                | dir e₂ s₂ => exact absurd hin2 (by simp [HNode.norm])
              | dir e₁ s₁ =>
                cases w₂ with
                | file g₂ => exact absurd hin2 (by simp [HNode.norm])
                | dir e₂ s₂ => simp only [hi₁, hi₂]

/-- Two listings of the same unchanged tree produce the same walk. -/
theorem walkGo_congr :
    ∀ (fuel₁ fuel₂ : Nat) (p₁ p₂ par₁ par₂ : List (List Char × HNode))
      (arc : List Char),
      entsListSize p₁ ≤ fuel₁ → entsListSize p₂ ≤ fuel₂ →
      p₁.map normPair = p₂.map normPair →
      List.Perm (par₁.map normPair) (par₂.map normPair) →
      nodupListB p₁ = true → nodupListB p₂ = true →
      nodupListB par₁ = true → nodupListB par₂ = true →
      walkGo fuel₁ p₁ par₁ arc = walkGo fuel₂ p₂ par₂ arc := by
  intro fuel₁
  induction fuel₁ with
  | zero =>
    intro fuel₂ p₁ p₂ par₁ par₂ arc hf₁ hf₂ hmap _ _ _ _ _
    cases p₁ with
    | cons hd tl =>
      exfalso
      obtain ⟨n, x⟩ := hd
      have : entsListSize ((n, x) :: tl) = 1 + x.size + entsListSize tl := rfl
      omega
    | nil =>
      have hp2 : p₂ = [] := by
        have := hmap.symm
        rw [List.map_nil] at this
        exact List.map_eq_nil.mp this
      subst hp2
      cases fuel₂ <;> rfl
  | succ fuel ih =>
    intro fuel₂ p₁ p₂ par₁ par₂ arc hf₁ hf₂ hmap hperm hn₁ hn₂ hq₁ hq₂
    cases p₁ with
    | nil =>
      have hp2 : p₂ = [] := by
        have := hmap.symm
        rw [List.map_nil] at this
        exact List.map_eq_nil.mp this
      subst hp2
      cases fuel₂ <;> rfl
    | cons hd₁ r₁ =>
      obtain ⟨n₁, x₁⟩ := hd₁
      cases p₂ with
      | nil => rw [List.map_nil] at hmap; exact absurd hmap (by simp)
      | cons hd₂ r₂ =>
        obtain ⟨n₂, x₂⟩ := hd₂
        rw [List.map_cons, List.map_cons] at hmap
        have hhd : normPair (n₁, x₁) = normPair (n₂, x₂) :=
          (List.cons.injEq _ _ _ _ ▸ hmap).1
        have hrest : r₁.map normPair = r₂.map normPair :=
          (List.cons.injEq _ _ _ _ ▸ hmap).2
        have hn : n₁ = n₂ := congrArg Prod.fst hhd
        have hx : x₁.norm = x₂.norm := congrArg Prod.snd hhd
        subst hn
        cases fuel₂ with
        | zero =>
          exfalso
          have : entsListSize ((n₁, x₂) :: r₂) =
            1 + x₂.size + entsListSize r₂ := rfl
          omega
        | succ fuel₂' =>
          have hsz₁ : entsListSize ((n₁, x₁) :: r₁) =
            1 + x₁.size + entsListSize r₁ := rfl
          have hsz₂ : entsListSize ((n₁, x₂) :: r₂) =
            1 + x₂.size + entsListSize r₂ := rfl
          obtain ⟨hx₁n, hr₁n⟩ := nodupListB_cons_parts hn₁
          obtain ⟨hx₂n, hr₂n⟩ := nodupListB_cons_parts hn₂
          by_cases hm : n₁ = VIRTFS_META_DIR
          · simp only [walkGo, hm, if_true]
            exact ih fuel₂' r₁ r₂ par₁ par₂ arc (by omega) (by omega)
              hrest hperm hr₁n hr₂n hq₁ hq₂
          · cases x₁ with
            | file f₁ =>
              cases x₂ with
              | file f₂ =>
                simp only [walkGo, hm, if_false, List.nil_append]
                rw [readVirtfsMeta_congr hperm hq₁ hq₂ n₁, view_norm_congr hx,
                  ih fuel₂' r₁ r₂ par₁ par₂ arc (by omega) (by omega)
                    hrest hperm hr₁n hr₂n hq₁ hq₂]
              | dir d₂ es₂ => exact absurd hx (by simp [HNode.norm])
            | dir d₁ es₁ =>
              cases x₂ with
              | file f₂ => exact absurd hx (by simp [HNode.norm])
              | dir d₂ es₂ =>
                have h3 : HNode.dir d₁
                    (HEntries.ofList (sortEntries es₁.normList)) =
                    HNode.dir d₂ (HEntries.ofList (sortEntries es₂.normList))
                  := hx
                injection h3 with hd hes
                have hsort : sortEntries es₁.normList =
                    sortEntries es₂.normList := ofList_inj hes
                have hsub₁ : nodupListB es₁.toList = true := by
                  rw [nodupListB_toList]; exact hx₁n
                have hsub₂ : nodupListB es₂.toList = true := by
                  rw [nodupListB_toList]; exact hx₂n
                have hmapsub : (sortEntries es₁.toList).map normPair =
                    (sortEntries es₂.toList).map normPair := by
                  have hA : ∀ (es : HEntries),
                      (sortEntries es.toList).map normPair =
                        sortEntries es.normList := by
                    intro es
                    rw [normList_eq_map]
                    have := sortEntries_map HNode.norm es.toList
                    exact this.symm
                  rw [hA es₁, hA es₂, hsort]
                have hpermsub : List.Perm (es₁.toList.map normPair)
                    (es₂.toList.map normPair) := by
                  rw [← normList_eq_map, ← normList_eq_map]
                  exact ((sortEntries_perm es₁.normList).symm.trans
                    (hsort ▸ sortEntries_perm es₂.normList))
                have hsize₁ : HNode.size (HNode.dir d₁ es₁) = 1 + es₁.size :=
                  rfl
                have hsize₂ : HNode.size (HNode.dir d₂ es₂) = 1 + es₂.size :=
                  rfl
                simp only [walkGo, hm, if_false]
                rw [readVirtfsMeta_congr hperm hq₁ hq₂ n₁,
                  view_norm_congr hx,
                  ih fuel₂' (sortEntries es₁.toList) (sortEntries es₂.toList)
                    es₁.toList es₂.toList (osPathJoin arc n₁)
                    (by rw [entsListSize_sortEntries, entsListSize_toList]
                        omega)
                    (by rw [entsListSize_sortEntries, entsListSize_toList]
                        omega)
                    hmapsub hpermsub
                    (nodupListB_sortEntries hsub₁)
                    (nodupListB_sortEntries hsub₂) hsub₁ hsub₂,
                  ih fuel₂' r₁ r₂ par₁ par₂ arc (by omega) (by omega)
                    hrest hperm hr₁n hr₂n hq₁ hq₂]

/-- C2: `collect_artifact` is deterministic: two collections of the same
unchanged tree — two directory listings whose duplicate-free entry lists
agree up to reordering at every level — with the same `compress` and `time`
parameters produce identical archives; and the walk visits each directory
level in basename-sorted order (`sorted(os.listdir(dirname))` in
`_add_directory_to_tarfile`). -/
theorem c2_deterministic_collection (env : Env)
    (t₁ t₂ : List (List Char × HNode)) (compress : Bool) (time : Nat)
    (h₁ : nodupListB t₁ = true) (h₂ : nodupListB t₂ = true)
    (hnorm : normEntries t₁ = normEntries t₂) :
    collect_artifact env t₁ compress time =
      collect_artifact env t₂ compress time ∧
    (∀ l : List (List Char × HNode), entriesSorted (sortEntries l)) := by
  refine ⟨?_, fun l => sortEntries_sorted l⟩
  have hA : ∀ (t : List (List Char × HNode)),
      (sortEntries t).map normPair = normEntries t := by
    intro t
    show (sortEntries t).map normPair =
      sortEntries (t.map fun p => (p.1, p.2.norm))
    exact (sortEntries_map HNode.norm t).symm
  have hmap : (sortEntries t₁).map normPair =
      (sortEntries t₂).map normPair := by
    rw [hA t₁, hA t₂]; exact hnorm
  have hperm : List.Perm (t₁.map normPair) (t₂.map normPair) := by
    have p1 := (sortEntries_perm t₁).map normPair
    have p2 := (sortEntries_perm t₂).map normPair
    rw [← hmap] at p2
    exact p1.symm.trans p2
  have hwalk : walkGo (entsListSize t₁) (sortEntries t₁) t₁ ['.'] =
      walkGo (entsListSize t₂) (sortEntries t₂) t₂ ['.'] :=
    walkGo_congr (entsListSize t₁) (entsListSize t₂) (sortEntries t₁)
      (sortEntries t₂) t₁ t₂ ['.']
      (by rw [entsListSize_sortEntries]) (by rw [entsListSize_sortEntries])
      hmap hperm (nodupListB_sortEntries h₁) (nodupListB_sortEntries h₂)
      h₁ h₂
  unfold collect_artifact addDirectoryToTarfile
  rw [addDirGo_eq_fold, addDirGo_eq_fold, hwalk]

def envW2 : Env := ⟨0, 0, fun _ => "wheel".data, fun _ => "wheel".data⟩

def fileA : HNode := HNode.file ⟨33188, 0, 0, 3, 1, 1, 99, ['x']⟩

def dirB : HNode :=
  HNode.dir ⟨16877, 0, 0, 4, 1, 2, 99⟩
    (HEntries.cons ['c'] (HNode.file ⟨33188, 0, 0, 5, 1, 1, 99, ['y']⟩)
      HEntries.nil)

def t21 : List (List Char × HNode) := [(['a'], fileA), (['b'], dirB)]

def t22 : List (List Char × HNode) := [(['b'], dirB), (['a'], fileA)]

/-- Witness for C2: the two listing orders of a two-entry directory (a
regular file and a subdirectory with one file) collect to the same
archive. -/
theorem c2_deterministic_collection_witness :
    collect_artifact envW2 t21 true MAGIC_TIMESTAMP =
      collect_artifact envW2 t22 true MAGIC_TIMESTAMP :=
  (c2_deterministic_collection envW2 t21 t22 true MAGIC_TIMESTAMP
    (by rfl) (by rfl) (by rfl)).1

/-! ## Hardlink collapse within one collection pass -/

/-- Does this walk entry carry the lstat identity `k = (st_ino, st_dev)`?
Only file entries carry an identity here; directory members never enter
the `inodes` table. -/
def isKItem (k : Nat × Nat) (it : WalkItem) : Bool :=
  match it.node with
  | ItemNode.file f => decide ((f.st_ino, f.st_dev) = k)
  | ItemNode.dirStat _ => false

def itemContent (it : WalkItem) : List Char :=
  match it.node with
  | ItemNode.file f => f.content
  | ItemNode.dirStat _ => []

/-- Well-formedness of one hardlink-group entry as lstat reports it: a
host-regular file with link count above one whose sidecar, when present,
records a regular-file mode. -/
def hlItemOK (it : WalkItem) : Bool :=
  match it.node with
  | ItemNode.file f =>
    S_ISREG f.st_mode && decide (f.st_nlink > 1) &&
      (match it.sidecar with
       | none => true
       | some c =>
         match dictLookup VIRTFS_MODE_KEY (parseVirtfsAttrs c) with
         | some m => S_ISREG m
         | none => false)
  | ItemNode.dirStat _ => false

/-- The first entry of a hardlink group becomes the full-content regular
member. -/
def hlFirst (it : WalkItem) (m : TarInfo × List Char) : Prop :=
  m.1.name = it.arc ∧ m.1.type = TarType.REG ∧ m.2 = itemContent it ∧
    m.1.size = (itemContent it).length ∧ m.1.linkname = []

/-- Every later entry of the group becomes a hardlink member referencing
the first member's name. -/
def hlLink (firstArc : List Char) (it : WalkItem) (m : TarInfo × List Char) :
    Prop :=
  m.1.name = it.arc ∧ m.1.type = TarType.LNK ∧ m.1.linkname = firstArc ∧
    m.2 = [] ∧ m.1.size = 0

/-- The claim's member shape for one inode-identity group: one full-content
member for the first entry in traversal order, then hardlink members. -/
def hlCollapsed (kItems : List WalkItem) (kMems : List (TarInfo × List Char)) :
    Prop :=
  match kItems with
  | [] => kMems = []
  | it₁ :: rest =>
    ∃ m₁ ms, kMems = m₁ :: ms ∧ hlFirst it₁ m₁ ∧
      List.Forall₂ (hlLink it₁.arc) rest ms

theorem normalizeOwner_type (env : Env) (ti : TarInfo) :
    (normalizeOwner env ti).type = ti.type := by
  unfold normalizeOwner; split <;> rfl

theorem normalizeOwner_name (env : Env) (ti : TarInfo) :
    (normalizeOwner env ti).name = ti.name := by
  unfold normalizeOwner; split <;> rfl

theorem normalizeOwner_size (env : Env) (ti : TarInfo) :
    (normalizeOwner env ti).size = ti.size := by
  unfold normalizeOwner; split <;> rfl

theorem normalizeOwner_linkname (env : Env) (ti : TarInfo) :
    (normalizeOwner env ti).linkname = ti.linkname := by
  unfold normalizeOwner; split <;> rfl

theorem applyResolveType_lookup2 {tf : TarF} {ti : TarInfo} {nd : ItemNode}
    {stmd : Nat} {v : TarType × List Char × TarF} (k : Nat × Nat)
    (h : applyResolveType tf ti nd stmd = Except.ok v) :
    alistLookup k v.2.2.inodes = alistLookup k tf.inodes ∨
      (v.1 = TarType.REG ∧ (nd.lstatIno.1, nd.lstatIno.2.1) = k) := by
  unfold applyResolveType at h
  split at h
  · cases halk : alistLookup (nd.lstatIno.1, nd.lstatIno.2.1) tf.inodes with
    | none =>
      simp only [halk] at h
      split at h <;> cases h
      · by_cases hkk : (nd.lstatIno.1, nd.lstatIno.2.1) = k
        · exact Or.inr ⟨rfl, hkk⟩
        · exact Or.inl
            (alistLookup_insert_ne _ _ _ _ (fun hh => hkk hh.symm))
      · exact Or.inl rfl
    | some nm =>
      simp only [halk] at h
      split at h
      · cases h; exact Or.inl rfl
      · split at h <;> cases h
        · by_cases hkk : (nd.lstatIno.1, nd.lstatIno.2.1) = k
          · exact Or.inr ⟨rfl, hkk⟩
          · exact Or.inl
              (alistLookup_insert_ne _ _ _ _ (fun hh => hkk hh.symm))
        · exact Or.inl rfl
  · repeat' split at h
    all_goals first
      | (cases h; exact Or.inl rfl)
      | simp at h

theorem gettarinfo_state2 {env : Env} {tf : TarF} {nd : ItemNode}
    {arcname : List Char} {tf1 : TarF} {ti : TarInfo} (k : Nat × Nat)
    (h : gettarinfo env tf nd arcname = some (tf1, ti)) :
    ti.name = arcname ∧
    (alistLookup k tf1.inodes = alistLookup k tf.inodes ∨
      ∃ f, nd = ItemNode.file f ∧ (f.st_ino, f.st_dev) = k) := by
  unfold gettarinfo at h
  split at h
  · rename_i f
    split at h
    · cases halk : alistLookup (f.st_ino, f.st_dev) tf.inodes with
      | none =>
        simp only [halk] at h
        split at h <;> cases h
        · by_cases hkk : (f.st_ino, f.st_dev) = k
          · exact ⟨rfl, Or.inr ⟨f, rfl, hkk⟩⟩
          · exact ⟨rfl, Or.inl
              (alistLookup_insert_ne _ _ _ _ (fun hh => hkk hh.symm))⟩
        · exact ⟨rfl, Or.inl rfl⟩
      | some nm =>
        simp only [halk] at h
        split at h
        · cases h; exact ⟨rfl, Or.inl rfl⟩
        · split at h <;> cases h
          · by_cases hkk : (f.st_ino, f.st_dev) = k
            · exact ⟨rfl, Or.inr ⟨f, rfl, hkk⟩⟩
            · exact ⟨rfl, Or.inl
                (alistLookup_insert_ne _ _ _ _ (fun hh => hkk hh.symm))⟩
          · exact ⟨rfl, Or.inl rfl⟩
    · simp at h
  · split at h
    · cases h; exact ⟨rfl, Or.inl rfl⟩
    · simp at h

theorem applyVirtfsAttrs_state2 {tf : TarF} {ti : TarInfo} {nd : ItemNode}
    {attrs : Dict} {tf' : TarF} {ti' : TarInfo} (k : Nat × Nat)
    (h : applyVirtfsAttrs tf ti nd attrs = Except.ok (tf', ti')) :
    ti'.name = ti.name ∧ tf'.dereference = tf.dereference ∧
    tf'.members = tf.members ∧
    (alistLookup k tf'.inodes = alistLookup k tf.inodes ∨
      (ti'.type = TarType.REG ∧ (nd.lstatIno.1, nd.lstatIno.2.1) = k)) := by
  unfold applyVirtfsAttrs at h
  simp only [bind, Except.bind] at h
  repeat' split at h
  all_goals first
    | (cases h;
       refine ⟨rfl, (applyResolveType_state (by assumption)).2,
         (applyResolveType_state (by assumption)).1, ?_⟩
       rcases applyResolveType_lookup2 k (by assumption) with hl | ⟨h1, h2⟩
       · exact Or.inl hl
       · exact Or.inr ⟨h1, h2⟩)
    | simp at h

theorem filter_state2 {env : Env} {time : Nat} {tf : TarF} {it : WalkItem}
    {ti : TarInfo} {tf2 : TarF} {ti2 : TarInfo} (k : Nat × Nat)
    (h : filter_virtfs_attrs env time tf it ti = Except.ok (tf2, ti2)) :
    ti2.name = ti.name ∧ tf2.dereference = tf.dereference ∧
    tf2.members = tf.members ∧
    (alistLookup k tf2.inodes = alistLookup k tf.inodes ∨
      (ti2.type = TarType.REG ∧
        (it.node.lstatIno.1, it.node.lstatIno.2.1) = k)) := by
  unfold filter_virtfs_attrs at h
  simp only [bind, Except.bind] at h
  split at h
  · cases h
    exact ⟨normalizeOwner_name env _, rfl, rfl, Or.inl rfl⟩
  · split at h
    · rename_i r hap
      cases h
      obtain ⟨tfr, tir⟩ := r
      obtain ⟨hn, hd, hm, hl⟩ := applyVirtfsAttrs_state2 k hap
      refine ⟨(normalizeOwner_name env _).trans hn, hd, hm, ?_⟩
      rcases hl with hl | ⟨h1, h2⟩
      · exact Or.inl hl
      · exact Or.inr ⟨(normalizeOwner_type env _).trans h1, h2⟩
    · cases h
      exact ⟨normalizeOwner_name env _, rfl, rfl, Or.inl rfl⟩
    · exact absurd h (by simp)

/-- A successful `add` of an entry that does not carry identity `k` leaves
the `inodes` table at `k` and the `dereference` flag unchanged and appends
at most one member, named by the entry's arcname. -/
theorem processOne_nonk {env : Env} {time : Nat} {tf tf1 : TarF}
    {it : WalkItem} (k : Nat × Nat)
    (h : processOne env time tf it = Except.ok tf1)
    (hki : isKItem k it = false) :
    alistLookup k tf1.inodes = alistLookup k tf.inodes ∧
    tf1.dereference = tf.dereference ∧
    (tf1.members = tf.members ∨
      ∃ ti c, tf1.members = tf.members ++ [(ti, c)] ∧ ti.name = it.arc) := by
  unfold processOne at h
  split at h
  · cases h; exact ⟨rfl, rfl, Or.inl rfl⟩
  · rename_i tfg ti hget
    split at h
    · exact absurd h (by simp)
    · rename_i tf2 ti2 hfil
      obtain ⟨hname_g, hlkg⟩ := gettarinfo_state2 k hget
      have hmem_g := (gettarinfo_members hget).1
      have hdf_g := (gettarinfo_members hget).2
      obtain ⟨hname_f, hdf_f, hmem_f, hlkf⟩ := filter_state2 k hfil
      have hlkg' : alistLookup k tfg.inodes = alistLookup k tf.inodes := by
        rcases hlkg with hl | ⟨f, hnd, hkid⟩
        · exact hl
        · exfalso
          unfold isKItem at hki
          rw [hnd] at hki
          simp [hkid] at hki
      split at h
      · rename_i hty
        cases hndf : it.node with
        | file f =>
          simp only [hndf] at h
          cases h
          refine ⟨?_, hdf_f.trans hdf_g,
            Or.inr ⟨ti2, f.content, by rw [hmem_f, hmem_g],
              hname_f.trans hname_g⟩⟩
          rcases hlkf with hl | ⟨_, hkid⟩
          · exact hl.trans hlkg'
          · exfalso
            unfold isKItem at hki
            rw [hndf] at hki
            rw [hndf] at hkid
            simp only [ItemNode.lstatIno] at hkid
            simp [hkid] at hki
        | dirStat d =>
          simp only [hndf] at h
          exact absurd h (by simp)
      · rename_i hty
        cases h
        refine ⟨?_, hdf_f.trans hdf_g,
          Or.inr ⟨ti2, [], by rw [hmem_f, hmem_g], hname_f.trans hname_g⟩⟩
        rcases hlkf with hl | ⟨h1, _⟩
        · exact hl.trans hlkg'
        · exact absurd h1 hty

/-- The first `add` of a hardlink group: the `inodes` table has no entry
for `k` yet, so the entry registers its arcname and is archived as a
full-content regular member. -/
theorem processOne_k_first {env : Env} {time : Nat} {tf tf1 : TarF}
    {it : WalkItem} {f : FileStat} (k : Nat × Nat)
    (hnd : it.node = ItemNode.file f)
    (hkid : (f.st_ino, f.st_dev) = k)
    (hk0 : k.1 ≠ 0)
    (hok : hlItemOK it = true)
    (hderef : tf.dereference = false)
    (hst : alistLookup k tf.inodes = none)
    (h : processOne env time tf it = Except.ok tf1) :
    alistLookup k tf1.inodes = some it.arc ∧
    tf1.dereference = false ∧
    ∃ ti, tf1.members = tf.members ++ [(ti, itemContent it)] ∧
      hlFirst it (ti, itemContent it) := by
  subst hkid
  have hino : f.st_ino ≠ 0 := hk0
  have hic : itemContent it = f.content := by unfold itemContent; rw [hnd]
  unfold hlItemOK at hok
  rw [hnd] at hok
  simp only [Bool.and_eq_true] at hok
  obtain ⟨⟨hreg, hnl⟩, hsc⟩ := hok
  unfold processOne at h
  rw [hnd] at h
  simp only [gettarinfo, hreg, hst, hino, eq_self_iff_true, ne_eq,
    not_false_eq_true, if_true] at h
  cases hscs : it.sidecar with
  | none =>
    simp only [filter_virtfs_attrs, hscs, bind, Except.bind,
      normalizeOwner_type] at h
    simp only [eq_self_iff_true, if_true] at h
    cases h
    refine ⟨alistLookup_insert _ _ _, hderef, ?_⟩
    refine ⟨_, by rw [hic], ?_, ?_, rfl, ?_, ?_⟩
    · simp [normalizeOwner_name]
    · simp [normalizeOwner_type]
    · simp [normalizeOwner_size, hic]
    · simp [normalizeOwner_linkname]
  | some c =>
    rw [hscs] at hsc
    cases hmd : dictLookup VIRTFS_MODE_KEY (parseVirtfsAttrs c) with
    | none =>
      simp only [hmd] at hsc
      exact absurd hsc (by simp)
    | some m =>
      simp only [hmd] at hsc
      simp only [filter_virtfs_attrs, hscs, bind, Except.bind] at h
      have hdne : decide (¬(it.arc = it.arc)) = false := by simp
      simp only [applyVirtfsAttrs, applyResolveType, bind, Except.bind, hmd,
        hnd, ItemNode.lstatIno, hsc, hderef, hnl, hdne, alistLookup_insert,
        eq_self_iff_true, ne_eq, not_true, not_true_eq_false, decide_False,
        hino, not_false_eq_true, Bool.not_false, Bool.true_and,
        Bool.and_false, Bool.false_eq_true, if_true, if_false] at h
      cases hu : dictLookup VIRTFS_UID_KEY (parseVirtfsAttrs c) with
      | none =>
        simp only [hu] at h
        exact absurd h (by simp)
      | some u =>
        simp only [hu] at h
        cases hg : dictLookup VIRTFS_GID_KEY (parseVirtfsAttrs c) with
        | none =>
          simp only [hg] at h
          exact absurd h (by simp)
        | some g =>
          simp only [hg] at h
          simp only [normalizeOwner_type, eq_self_iff_true, ne_eq, not_true,
            not_true_eq_false, reduceCtorEq, or_self, not_false_eq_true,
            if_true, if_false] at h
          cases h
          refine ⟨alistLookup_insert _ _ _, rfl, ?_⟩
          refine ⟨_, by rw [hic], ?_, ?_, rfl, ?_, ?_⟩
          · simp [normalizeOwner_name]
          · simp [normalizeOwner_type]
          · simp [normalizeOwner_size, hic]
          · simp [normalizeOwner_linkname]

/-- A later `add` of a hardlink group: the `inodes` table already maps `k`
to the first member's arcname, so the entry is archived as a zero-size
hardlink member referencing it and the table entry survives. -/
theorem processOne_k_link {env : Env} {time : Nat} {tf tf1 : TarF}
    {it : WalkItem} {f : FileStat} (k : Nat × Nat) (a : List Char)
    (hnd : it.node = ItemNode.file f)
    (hkid : (f.st_ino, f.st_dev) = k)
    (hok : hlItemOK it = true)
    (hderef : tf.dereference = false)
    (hst : alistLookup k tf.inodes = some a)
    (hane : it.arc ≠ a)
    (h : processOne env time tf it = Except.ok tf1) :
    alistLookup k tf1.inodes = some a ∧
    tf1.dereference = false ∧
    ∃ ti, tf1.members = tf.members ++ [(ti, [])] ∧ hlLink a it (ti, []) := by
  subst hkid
  have hane2 : ¬(a = it.arc) := fun hh => hane hh.symm
  have hdne : decide (¬(a = it.arc)) = true := decide_eq_true hane2
  unfold hlItemOK at hok
  rw [hnd] at hok
  simp only [Bool.and_eq_true] at hok
  obtain ⟨⟨hreg, hnl⟩, hsc⟩ := hok
  unfold processOne at h
  rw [hnd] at h
  simp only [gettarinfo, hreg, hst, hderef, hnl, hdne, Bool.not_false,
    Bool.true_and, Bool.and_true, eq_self_iff_true, if_true] at h
  cases hscs : it.sidecar with
  | none =>
    simp only [filter_virtfs_attrs, hscs, bind, Except.bind,
      normalizeOwner_type] at h
    simp only [reduceCtorEq, if_false] at h
    cases h
    refine ⟨hst, hderef, ?_⟩
    refine ⟨_, rfl, ?_, ?_, ?_, rfl, ?_⟩
    · simp [normalizeOwner_name]
    · simp [normalizeOwner_type]
    · simp [normalizeOwner_linkname]
    · simp [normalizeOwner_size]
  | some c =>
    rw [hscs] at hsc
    cases hmd : dictLookup VIRTFS_MODE_KEY (parseVirtfsAttrs c) with
    | none =>
      simp only [hmd] at hsc
      exact absurd hsc (by simp)
    | some m =>
      simp only [hmd] at hsc
      simp only [filter_virtfs_attrs, hscs, bind, Except.bind] at h
      simp only [applyVirtfsAttrs, applyResolveType, bind, Except.bind, hmd,
        hnd, ItemNode.lstatIno, hsc, hderef, hnl, hdne, hst,
        eq_self_iff_true, ne_eq, not_true, not_true_eq_false, decide_False,
        not_false_eq_true, Bool.not_false, Bool.true_and, Bool.and_true,
        Bool.false_eq_true, reduceCtorEq, or_self, if_true, if_false] at h
      cases hu : dictLookup VIRTFS_UID_KEY (parseVirtfsAttrs c) with
      | none =>
        simp only [hu] at h
        exact absurd h (by simp)
      | some u =>
        simp only [hu] at h
        cases hg : dictLookup VIRTFS_GID_KEY (parseVirtfsAttrs c) with
        | none =>
          simp only [hg] at h
          exact absurd h (by simp)
        | some g =>
          simp only [hg] at h
          simp only [normalizeOwner_type, eq_self_iff_true, ne_eq, not_true,
            not_true_eq_false, reduceCtorEq, or_self, not_false_eq_true,
            if_true, if_false] at h
          cases h
          refine ⟨hst, hderef, ?_⟩
          refine ⟨_, rfl, ?_, ?_, ?_, rfl, ?_⟩
          · simp [normalizeOwner_name]
          · simp [normalizeOwner_type]
          · simp [normalizeOwner_linkname]
          · simp [normalizeOwner_size]

/-- Invariant of the member fold for one inode identity `k`: with no table
entry for `k` the remaining `k`-entries collapse to one full member plus
hardlinks; with a table entry `a` they all become hardlinks to `a`. -/
theorem hlFoldGo (env : Env) (time : Nat) (k : Nat × Nat)
    (A : List (List Char)) (hk0 : k.1 ≠ 0) :
    ∀ (items : List WalkItem) (tf tfF : TarF),
      items.foldlM (processOne env time) tf = Except.ok tfF →
      tf.dereference = false →
      (∀ it ∈ items, isKItem k it = true →
        hlItemOK it = true ∧ it.arc ∈ A) →
      (∀ it ∈ items, isKItem k it = false → ¬ it.arc ∈ A) →
      ((items.filter (fun it => isKItem k it)).map WalkItem.arc).Nodup →
      (∀ a, alistLookup k tf.inodes = some a →
        ∀ it ∈ items, isKItem k it = true → it.arc ≠ a) →
      (match alistLookup k tf.inodes with
       | none =>
         ∃ ms, tfF.members = tf.members ++ ms ∧
           hlCollapsed (items.filter (fun it => isKItem k it))
             (ms.filter (fun m => decide (m.1.name ∈ A)))
       | some a =>
         ∃ ms, tfF.members = tf.members ++ ms ∧
           List.Forall₂ (hlLink a) (items.filter (fun it => isKItem k it))
             (ms.filter (fun m => decide (m.1.name ∈ A)))) := by
  intro items
  induction items with
  | nil =>
    intro tf tfF h _ _ _ _ _
    cases h
    cases alistLookup k tf.inodes with
    | none => exact ⟨[], (List.append_nil _).symm, rfl⟩
    | some a => exact ⟨[], (List.append_nil _).symm, List.Forall₂.nil⟩
  | cons it rest ih =>
    intro tf tfF h hderef hOK hnA hndp hSt
    rw [foldlM_except_cons] at h
    cases hp : processOne env time tf it with
    | error e =>
      rw [hp] at h
      exact absurd h (by simp [Except.bind])
    | ok tf1 =>
      rw [hp] at h
      have hOK1 : ∀ it2 ∈ rest, isKItem k it2 = true →
          hlItemOK it2 = true ∧ it2.arc ∈ A :=
        fun it2 h2 => hOK it2 (List.mem_cons_of_mem _ h2)
      have hnA1 : ∀ it2 ∈ rest, isKItem k it2 = false → ¬ it2.arc ∈ A :=
        fun it2 h2 => hnA it2 (List.mem_cons_of_mem _ h2)
      cases hki : isKItem k it with
      | false =>
        obtain ⟨hlk, hdf, hms⟩ := processOne_nonk k hp hki
        have hfilc : (it :: rest).filter (fun it => isKItem k it) =
            rest.filter (fun it => isKItem k it) := by
          simp [List.filter_cons, hki]
        have hnd1 : ((rest.filter (fun it => isKItem k it)).map
            WalkItem.arc).Nodup := by
          rw [hfilc] at hndp; exact hndp
        have hSt1 : ∀ a, alistLookup k tf1.inodes = some a →
            ∀ it2 ∈ rest, isKItem k it2 = true → it2.arc ≠ a := by
          intro a ha it2 h2 hk2
          rw [hlk] at ha
          exact hSt a ha it2 (List.mem_cons_of_mem _ h2) hk2
        have ihres := ih tf1 tfF h (by rw [hdf]; exact hderef) hOK1 hnA1
          hnd1 hSt1
        rw [hlk] at ihres
        cases hst : alistLookup k tf.inodes with
        | none =>
          rw [hst] at ihres
          obtain ⟨ms, hmm, hc⟩ := ihres
          rcases hms with hm0 | ⟨ti, c, hm0, hname⟩
          · exact ⟨ms, by rw [hmm, hm0], by rw [hfilc]; exact hc⟩
          · have hnotin : ¬ (ti, c).1.name ∈ A := by
              rw [hname]
              exact hnA it (List.mem_cons_self _ _) hki
            refine ⟨(ti, c) :: ms, ?_, ?_⟩
            · rw [hmm, hm0, List.append_assoc, List.singleton_append]
            · rw [hfilc]
              simp only [List.filter_cons, decide_eq_true_eq, hnotin,
                if_false]
              exact hc
        | some a =>
          rw [hst] at ihres
          obtain ⟨ms, hmm, hc⟩ := ihres
          rcases hms with hm0 | ⟨ti, c, hm0, hname⟩
          · exact ⟨ms, by rw [hmm, hm0], by rw [hfilc]; exact hc⟩
          · have hnotin : ¬ (ti, c).1.name ∈ A := by
              rw [hname]
              exact hnA it (List.mem_cons_self _ _) hki
            refine ⟨(ti, c) :: ms, ?_, ?_⟩
            · rw [hmm, hm0, List.append_assoc, List.singleton_append]
            · rw [hfilc]
              simp only [List.filter_cons, decide_eq_true_eq, hnotin,
                if_false]
              exact hc
      | true =>
        have hex : ∃ f, it.node = ItemNode.file f ∧ (f.st_ino, f.st_dev) = k
          := by
          unfold isKItem at hki
          cases hnode : it.node with
          | file f =>
            simp only [hnode] at hki
            exact ⟨f, rfl, of_decide_eq_true hki⟩
          | dirStat d =>
            simp only [hnode] at hki
            exact absurd hki (by simp)
        obtain ⟨f, hndf, hkid⟩ := hex
        obtain ⟨hok, hInA⟩ := hOK it (List.mem_cons_self _ _) hki
        have hfilc : (it :: rest).filter (fun it => isKItem k it) =
            it :: rest.filter (fun it => isKItem k it) := by
          simp [List.filter_cons, hki]
        rw [hfilc, List.map_cons, List.nodup_cons] at hndp
        obtain ⟨hnotmem, hnd1⟩ := hndp
        cases hst : alistLookup k tf.inodes with
        | none =>
          obtain ⟨hlk1, hdf1, ti, hm1, hfirst⟩ :=
            processOne_k_first k hndf hkid hk0 hok hderef hst hp
          have hSt1 : ∀ a, alistLookup k tf1.inodes = some a →
              ∀ it2 ∈ rest, isKItem k it2 = true → it2.arc ≠ a := by
            intro a ha it2 h2 hk2 hcontra
            rw [hlk1] at ha
            injection ha with ha2
            have hmem : it2.arc ∈ (rest.filter
                (fun it => isKItem k it)).map WalkItem.arc :=
              List.mem_map_of_mem _ (List.mem_filter.mpr ⟨h2, hk2⟩)
            rw [hcontra, ← ha2] at hmem
            exact hnotmem hmem
          have ihres := ih tf1 tfF h hdf1 hOK1 hnA1 hnd1 hSt1
          rw [hlk1] at ihres
          obtain ⟨ms, hmm, hF⟩ := ihres
          refine ⟨(ti, itemContent it) :: ms, ?_, ?_⟩
          · rw [hmm, hm1, List.append_assoc, List.singleton_append]
          · rw [hfilc]
            have hin : (ti, itemContent it).1.name ∈ A := by
              rw [hfirst.1]; exact hInA
            simp only [List.filter_cons, decide_eq_true_eq, hin, if_true]
            exact ⟨(ti, itemContent it), List.filter _ ms, rfl, hfirst, hF⟩
        | some a =>
          have hane : it.arc ≠ a := hSt a hst it (List.mem_cons_self _ _) hki
          obtain ⟨hlk1, hdf1, ti, hm1, hlink⟩ :=
            processOne_k_link k a hndf hkid hok hderef hst hane hp
          have hSt1 : ∀ a2, alistLookup k tf1.inodes = some a2 →
              ∀ it2 ∈ rest, isKItem k it2 = true → it2.arc ≠ a2 := by
            intro a2 ha it2 h2 hk2
            rw [hlk1] at ha
            injection ha with ha2
            rw [← ha2]
            exact hSt a hst it2 (List.mem_cons_of_mem _ h2) hk2
          have ihres := ih tf1 tfF h hdf1 hOK1 hnA1 hnd1 hSt1
          rw [hlk1] at ihres
          obtain ⟨ms, hmm, hF⟩ := ihres
          refine ⟨(ti, []) :: ms, ?_, ?_⟩
          · rw [hmm, hm1, List.append_assoc, List.singleton_append]
          · rw [hfilc]
            have hin : (ti, ([] : List Char)).1.name ∈ A := by
              rw [hlink.1]; exact hInA
            simp only [List.filter_cons, decide_eq_true_eq, hin, if_true]
            exact List.Forall₂.cons hlink hF

/-- C3: within one `collect_artifact` pass, all regular-file entries
sharing one nonzero lstat identity `k = (st_ino, st_dev)` produce exactly
one full-content archive member — the first encountered in the
basename-sorted traversal — and every later entry of the group is emitted
as a hardlink member whose linkname references that first member's name.
Hypotheses: the walk's arcnames are pairwise distinct (distinct basenames
at every level), and the `k`-entries are host-regular files with link
count above one whose sidecar, when present, records a regular mode. -/
theorem c3_hardlink_collapse (env : Env) (root : List (List Char × HNode))
    (k : Nat × Nat) (compress : Bool) (time : Nat) (ar : Archive)
    (hk0 : k.1 ≠ 0)
    (hOK : ∀ it ∈ walkItems root ['.'], isKItem k it = true →
      hlItemOK it = true)
    (hArcs : ((walkItems root ['.']).map WalkItem.arc).Nodup)
    (hsucc : collect_artifact env root compress time = Except.ok ar) :
    hlCollapsed
      ((walkItems root ['.']).filter (fun it => isKItem k it))
      (ar.members.filter (fun m => decide (m.1.name ∈
        ((walkItems root ['.']).filter
          (fun it => isKItem k it)).map WalkItem.arc))) := by
  unfold collect_artifact addDirectoryToTarfile at hsucc
  rw [addDirGo_eq_fold] at hsucc
  have hwi : walkGo (entsListSize root) (sortEntries root) root ['.'] =
      walkItems root ['.'] := rfl
  rw [hwi] at hsucc
  cases hfold : (walkItems root ['.']).foldlM (processOne env time)
      (⟨false, [], []⟩ : TarF) with
  | error e =>
    rw [hfold] at hsucc
    exact absurd hsucc (by simp)
  | ok tfF =>
    simp only [hfold] at hsucc
    have har : ar.members = tfF.members := by
      injection hsucc with h2
      rw [← h2]
    have hmain := hlFoldGo env time k
      (((walkItems root ['.']).filter (fun it => isKItem k it)).map
        WalkItem.arc) hk0 (walkItems root ['.']) ⟨false, [], []⟩ tfF hfold
      rfl
      (fun it hmem hk => ⟨hOK it hmem hk,
        List.mem_map_of_mem _ (List.mem_filter.mpr ⟨hmem, hk⟩)⟩)
      (by
        intro it hmem hkf hin
        obtain ⟨it2, hit2, harc⟩ := List.mem_map.mp hin
        obtain ⟨hmem2, hk2⟩ := List.mem_filter.mp hit2
        have heq := List.inj_on_of_nodup_map hArcs hmem2 hmem harc
        rw [heq] at hk2
        rw [hkf] at hk2
        exact absurd hk2 (by simp))
      (List.Nodup.sublist
        ((List.filter_sublist _).map WalkItem.arc) hArcs)
      (by
        intro a ha
        exact absurd ha (by simp [alistLookup]))
    obtain ⟨ms, hm, hc⟩ := hmain
    simp only [List.nil_append] at hm
    rw [har, hm]
    exact hc

def envW3 : Env := ⟨1, 1, fun _ => ['u'], fun _ => ['u']⟩

/-- Two hardlinked regular files `a` and `b`: same inode 7 on device 1,
link count 2, identical bytes. -/
def rootW3 : List (List Char × HNode) :=
  [(['a'], HNode.file ⟨33188, 0, 0, 7, 1, 2, 99, ['h', 'i']⟩),
   (['b'], HNode.file ⟨33188, 0, 0, 7, 1, 2, 99, ['h', 'i']⟩)]

/-- The archive collected from `rootW3` at time 42: one full-content
member `./a` and one hardlink member `./b` referencing `./a`. -/
def arW3 : Archive :=
  ⟨[({ name := ['.', '/', 'a']
       mode := 33188
       uid := 0
       gid := 0
       size := 2
       mtime := 42
       type := TarType.REG
       linkname := []
       uname := ['u']
       gname := ['u']
       devmajor := 0
       devminor := 0 },
     ['h', 'i']),
    ({ name := ['.', '/', 'b']
       mode := 33188
       uid := 0
       gid := 0
       size := 0
       mtime := 42
       type := TarType.LNK
       linkname := ['.', '/', 'a']
       uname := ['u']
       gname := ['u']
       devmajor := 0
       devminor := 0 },
     [])],
   some 42⟩

/-- Witness for C3: collecting two hardlinked files yields the full member
for `./a` (first in sorted order) and a hardlink member `./b` whose
linkname is `./a`. -/
theorem c3_hardlink_collapse_witness :
    hlCollapsed
      ((walkItems rootW3 ['.']).filter (fun it => isKItem (7, 1) it))
      (arW3.members.filter (fun m => decide (m.1.name ∈
        ((walkItems rootW3 ['.']).filter
          (fun it => isKItem (7, 1) it)).map WalkItem.arc))) :=
  c3_hardlink_collapse envW3 rootW3 (7, 1) true 42 arW3 (by decide)
    (by decide) (by decide) (by rfl)

/-! ## Round trip: staging an artifact back out (`stage_artifact`) -/

theorem testBit_4095 (i : Nat) : Nat.testBit 4095 i = decide (i < 12) := by
  rcases Nat.lt_or_ge i 12 with hi | hi
  · have h : Nat.testBit 4095 i = true := by interval_cases i <;> decide
    simp [h, hi]
  · have h : Nat.testBit 4095 i = false :=
      Nat.testBit_lt_two_pow (lt_of_lt_of_le (by norm_num)
        (Nat.pow_le_pow_right (by norm_num) hi))
    simp [h, Nat.not_lt.mpr hi]

theorem testBit_61440 (i : Nat) :
    Nat.testBit 61440 i = (decide (12 ≤ i) && decide (i < 16)) := by
  rcases Nat.lt_or_ge i 16 with hi | hi
  · interval_cases i <;> decide
  · have h : Nat.testBit 61440 i = false :=
      Nat.testBit_lt_two_pow (lt_of_lt_of_le (by norm_num)
        (Nat.pow_le_pow_right (by norm_num) hi))
    have h16 : ¬ i < 16 := Nat.not_lt.mpr hi
    simp [h, h16]

/-- Masking the reconstructed mode with `S_IFMT` recovers the type bits. -/
theorem mask_or_high (a b : Nat) :
    ((a &&& 4095) ||| (b &&& 61440)) &&& 61440 = b &&& 61440 := by
  apply Nat.eq_of_testBit_eq
  intro i
  simp only [Nat.testBit_and, Nat.testBit_or, testBit_4095, testBit_61440]
  by_cases h1 : i < 12
  · have h2 : ¬ 12 ≤ i := by omega
    simp [h1, h2]
  · by_cases h3 : i < 16
    · simp [h1, h3, Nat.not_lt.mp h1]
    · simp [h1, h3]

/-- Masking the reconstructed mode with 0o7777 recovers the permission
bits. -/
theorem mask_or_low (a b : Nat) :
    ((a &&& 4095) ||| (b &&& 61440)) &&& 4095 = a &&& 4095 := by
  apply Nat.eq_of_testBit_eq
  intro i
  simp only [Nat.testBit_and, Nat.testBit_or, testBit_4095, testBit_61440]
  by_cases h1 : i < 12
  · have h2 : ¬ 12 ≤ i := by omega
    simp [h1, h2]
  · simp [h1]

theorem testBit_255 (i : Nat) : Nat.testBit 255 i = decide (i < 8) := by
  rcases Nat.lt_or_ge i 8 with hi | hi
  · have h : Nat.testBit 255 i = true := by interval_cases i <;> decide
    simp [h, hi]
  · have h : Nat.testBit 255 i = false :=
      testBit_false_of_le_255 (by norm_num) hi
    simp [h, Nat.not_lt.mpr hi]

/-- Unpacking then repacking an 8/8 device number is the identity below
2^16. -/
theorem dev_pack_unpack (r : Nat) (hr : r < 65536) :
    dev_from_major_minor (dev_major r) (dev_minor r) = r := by
  unfold dev_from_major_minor dev_major dev_minor
  apply Nat.eq_of_testBit_eq
  intro i
  simp only [Nat.testBit_or, Nat.testBit_shiftLeft, Nat.testBit_and,
    Nat.testBit_shiftRight, testBit_255]
  rcases Nat.lt_or_ge i 8 with h8 | h8
  · have hnot : ¬ 8 ≤ i := by omega
    simp [h8, hnot]
  · rcases Nat.lt_or_ge i 16 with h16 | h16
    · have hadd : 8 + (i - 8) = i := by omega
      have hs : i - 8 < 8 := by omega
      have hnot : ¬ i < 8 := by omega
      simp [h8, hadd, hs, hnot]
    · have hpow : (65536 : Nat) ≤ 2 ^ i := by
        calc (65536 : Nat) = 2 ^ 16 := by norm_num
          _ ≤ 2 ^ i := Nat.pow_le_pow_right (by norm_num) h16
      have hri : Nat.testBit r i = false :=
        Nat.testBit_lt_two_pow (lt_of_lt_of_le hr hpow)
      have h1 : ¬ i - 8 < 8 := by omega
      have hnot : ¬ i < 8 := by omega
      simp [hri, h1, hnot]

theorem ifmt_of_isreg {m : Nat} (h : S_ISREG m = true) : m &&& 61440 = 32768
  := by simpa [S_ISREG, S_IFMT, S_IFREG] using h

theorem ifmt_of_isdir {m : Nat} (h : S_ISDIR m = true) : m &&& 61440 = 16384
  := by simpa [S_ISDIR, S_IFMT, S_IFDIR] using h

theorem ifmt_of_isfifo {m : Nat} (h : S_ISFIFO m = true) :
    m &&& 61440 = 4096 := by simpa [S_ISFIFO, S_IFMT, S_IFIFO] using h

theorem ifmt_of_islnk {m : Nat} (h : S_ISLNK m = true) : m &&& 61440 = 40960
  := by simpa [S_ISLNK, S_IFMT, S_IFLNK] using h

theorem ifmt_of_ischr {m : Nat} (h : S_ISCHR m = true) : m &&& 61440 = 8192
  := by simpa [S_ISCHR, S_IFMT, S_IFCHR] using h

theorem ifmt_of_isblk {m : Nat} (h : S_ISBLK m = true) : m &&& 61440 = 24576
  := by simpa [S_ISBLK, S_IFMT, S_IFBLK] using h

theorem rstripChar_of_getLastQ {c : Char} {x : List Char}
    (h : x.getLast? ≠ some c) : rstripChar c x = x := by
  cases hx : x with
  | nil => rfl
  | cons y ys =>
    rw [← hx]
    refine rstripChar_of_getLast fun hne hc => h ?_
    rw [List.getLast?_eq_getLast x hne, hc]

theorem getLastQ_append (a : List Char) {b : List Char} (hb : b ≠ []) :
    (a ++ b).getLast? = b.getLast? := by
  induction a with
  | nil => rfl
  | cons x xs ih =>
    rw [List.cons_append]
    cases hxb : xs ++ b with
    | nil =>
      exfalso
      rcases List.append_eq_nil.mp hxb with ⟨_, hbn⟩
      exact hb hbn
    | cons y l2 =>
      rw [List.getLast?_cons_cons, ← hxb, ih]

theorem mem_of_getLastQ {c : Char} {x : List Char}
    (h : x.getLast? = some c) : c ∈ x := by
  cases hx : x with
  | nil => rw [hx] at h; exact absurd h (by simp)
  | cons y ys =>
    rw [← hx]
    have hne : x ≠ [] := by rw [hx]; simp
    rw [List.getLast?_eq_getLast x hne] at h
    injection h with h2
    rw [← h2]
    exact List.getLast_mem hne

theorem osPathJoin_assoc (a b c : List Char) :
    osPathJoin a (osPathJoin b c) = osPathJoin (osPathJoin a b) c := by
  unfold osPathJoin
  simp [List.append_assoc]

theorem osPathJoin_inj {a b c : List Char}
    (h : osPathJoin a b = osPathJoin a c) : b = c := by
  unfold osPathJoin at h
  have h2 := List.append_cancel_left h
  injection h2

/-- The ustar header round trip between `addfile` and `getmembers`: the
mode field is stored masked to the low 12 permission bits (`& 07777` in
`TarInfo.tobuf`); every other field the model tracks is stored exactly. -/
def headerRoundTrip (ti : TarInfo) : TarInfo := { ti with mode := ti.mode &&& 4095 }

/-- `TarFile.extract` (Python 2.7) on the member kinds this converter
hands it, materializing under `directory` in the model `Store`: regular
members get their payload written, directory members are created,
hardlink members duplicate the already-extracted target's bytes.  The
converter `_extract_tarinfo_into_staging` never passes other kinds (they
would materialize node types the staging store does not hold). -/
def tarExtract (directory : List Char) (ti : TarInfo) (payload : List Char)
    (s : Store) : Except VErr Store :=
  let path := osPathJoin directory ti.name
  match ti.type with
  | TarType.REG =>
    Except.ok { s with files := alistInsert path (DEntry.file payload) s.files }
  | TarType.DIR =>
    Except.ok { s with files := alistInsert path DEntry.dir s.files }
  | TarType.LNK =>
    match alistLookup (osPathJoin directory ti.linkname) s.files with
    | some (DEntry.file c) =>
      Except.ok { s with files := alistInsert path (DEntry.file c) s.files }
    | _ => Except.error VErr.linkError
  | _ => Except.error VErr.typeError

/-- `_extract_tarinfo_into_staging` (virtfs.py lines 224-262): regular
files, hardlinks and directories are extracted as such; symlink members
become regular files holding the linkname text; character/block devices
and fifos are stripped to zero-length regular files.  (The ownership and
mode mutations the source performs touch only host metadata the staging
store does not track.) -/
def extract_tarinfo_into_staging (directory : List Char) (ti : TarInfo)
    (payload : List Char) (s : Store) : Except VErr Store :=
  if ti.type = TarType.REG ∨ ti.type = TarType.LNK then
    tarExtract directory ti payload s
  else if ti.type = TarType.DIR then
    tarExtract directory ti payload s
  else if ti.type = TarType.SYM then
    let path := osPathJoin directory ti.name
    Except.ok { s with files := alistInsert path (DEntry.file ti.linkname) s.files }
  else
    tarExtract directory { ti with type := TarType.REG } payload s

/-- `_stage_tarinfo_to_directory` (virtfs.py lines 348-361): write the
member's reconstructed sidecar record next to its destination path, then
materialize the member. -/
def stage_tarinfo_to_directory (directory : List Char) (ti : TarInfo)
    (payload : List Char) (s : Store) : Except VErr Store :=
  let fullpath := osPathJoin directory (rstripChar '/' ti.name)
  let dir_name := (osPathSplit fullpath).1
  let filename := (osPathSplit fullpath).2
  match write_virtfs_attrs none (extract_virtfs_attrs ti) dir_name filename s
      with
  | Except.error e => Except.error e
  | Except.ok s1 => extract_tarinfo_into_staging directory ti payload s1

/-- `stage_artifact` (virtfs.py lines 404-412): open the archive (mode
`r:gz` demands a gzip envelope; plain `r` is transparent) and stage every
member in order.  `s₀` is the initial state of the destination. -/
def stage_artifact (ar : Archive) (directory : List Char) (compress : Bool)
    (s₀ : Store) : Except VErr Store :=
  if compress ∧ ar.gzipMtime = none then Except.error VErr.readError
  else ar.members.foldlM
    (fun s mc => stage_tarinfo_to_directory directory
      (headerRoundTrip mc.1) mc.2 s) s₀

/-- The `(st_ino, st_dev)` lstat identity of a file entry. -/
def fileId (it : WalkItem) : Option (Nat × Nat) :=
  match it.node with
  | ItemNode.file f => some (f.st_ino, f.st_dev)
  | ItemNode.dirStat _ => none

/-- The member type `_apply_virtfs_attrs` resolves from a sidecar mode,
in its branch order (the REG branch shown for the non-hardlink path). -/
def tarTypeOfMode (m : Nat) : TarType :=
  if S_ISREG m then TarType.REG
  else if S_ISDIR m then TarType.DIR
  else if S_ISFIFO m then TarType.FIFO
  else if S_ISLNK m then TarType.SYM
  else if S_ISCHR m then TarType.CHR
  else TarType.BLK

def modeKindOK (m : Nat) : Bool :=
  S_ISREG m || S_ISDIR m || S_ISFIFO m || S_ISLNK m || S_ISCHR m || S_ISBLK m

/-- Well-formedness of one staged entry: a sidecar record exists with
integer uid, gid and mode; the record mode is one of the six supported
kinds and is consistent with the host node (directories for directory
records, regular surrogates for everything else); device records carry an
`rdev` value within the 8/8 packing range. -/
def c1ItemOK (it : WalkItem) : Bool :=
  match it.sidecar with
  | none => false
  | some rc =>
    let d := parseVirtfsAttrs rc
    match dictLookup VIRTFS_MODE_KEY d, dictLookup VIRTFS_UID_KEY d,
        dictLookup VIRTFS_GID_KEY d with
    | some m, some _, some _ =>
      (match it.node with
       | ItemNode.file f =>
         S_ISREG f.st_mode &&
           (S_ISREG m || S_ISLNK m || S_ISFIFO m || S_ISCHR m || S_ISBLK m)
       | ItemNode.dirStat d2 => S_ISDIR d2.st_mode && S_ISDIR m) &&
      (!(S_ISCHR m || S_ISBLK m) ||
        (match dictLookup VIRTFS_RDEV_KEY d with
         | some r => decide (r < 65536)
         | none => false))
    | _, _, _ => false

/-- The collecting process cannot resolve the record's numeric owner to a
passwd name that collides with its decimal spelling (true of any real
passwd database), so the ownership normalization of `filter_virtfs_attrs`
never fires on a record-backed entry. -/
def c1EnvOK (env : Env) (it : WalkItem) : Bool :=
  match it.sidecar with
  | none => true
  | some rc =>
    match dictLookup VIRTFS_UID_KEY (parseVirtfsAttrs rc) with
    | some u => env.pwnam u != natToChars u
    | none => true

/-- Shape of a walk arcname: `dirArc/basename` with a nonempty slash-free
basename under a nonempty head that does not end in a slash (true of every
arcname `_add_directory_to_tarfile` forms under `.`). -/
def arcOK (it : WalkItem) : Bool :=
  !(it.base.isEmpty) && !(it.base.contains '/') &&
    decide (it.arc = osPathJoin (osPathSplit it.arc).1 it.base) &&
    !((osPathSplit it.arc).1.isEmpty) &&
    !((osPathSplit it.arc).1.getLast? == some '/')

/-- What `collect_artifact` emits for one record-backed staged entry. -/
def c1MemberFor (it : WalkItem) (mc : TarInfo × List Char) : Prop :=
  ∃ rc u g m, it.sidecar = some rc ∧
    dictLookup VIRTFS_UID_KEY (parseVirtfsAttrs rc) = some u ∧
    dictLookup VIRTFS_GID_KEY (parseVirtfsAttrs rc) = some g ∧
    dictLookup VIRTFS_MODE_KEY (parseVirtfsAttrs rc) = some m ∧
    modeKindOK m = true ∧
    mc.1.name = it.arc ∧ mc.1.mode = m ∧ mc.1.uid = u ∧ mc.1.gid = g ∧
    mc.1.type = tarTypeOfMode m ∧
    (S_ISREG m = true → mc.2 = itemContent it) ∧
    (S_ISLNK m = true → mc.1.linkname = itemContent it ∧ mc.2 = []) ∧
    (S_ISDIR m = true ∨ S_ISFIFO m = true → mc.2 = []) ∧
    ((S_ISCHR m = true ∨ S_ISBLK m = true) → mc.2 = [] ∧
      ∃ r, dictLookup VIRTFS_RDEV_KEY (parseVirtfsAttrs rc) = some r ∧
        r < 65536 ∧
        mc.1.devmajor = dev_major r ∧ mc.1.devminor = dev_minor r)

/-- The claim's per-entry round-trip property over the staged output
`sF`: the destination holds a sidecar record agreeing with the entry's
own record in type bits, permission bits, uid, gid and (for device
records) rdev, and the destination file holds the original bytes for
regular entries and the original target text for symlink records. -/
def c1Staged (directory : List Char) (sF : Store) (it : WalkItem) : Prop :=
  ∃ rc u g m, it.sidecar = some rc ∧
    dictLookup VIRTFS_UID_KEY (parseVirtfsAttrs rc) = some u ∧
    dictLookup VIRTFS_GID_KEY (parseVirtfsAttrs rc) = some g ∧
    dictLookup VIRTFS_MODE_KEY (parseVirtfsAttrs rc) = some m ∧
    (∃ rc2, lookupRecord (osPathJoin directory (osPathSplit it.arc).1)
        it.base sF = some rc2 ∧
      (∃ m2, dictLookup VIRTFS_MODE_KEY (parseVirtfsAttrs rc2) = some m2 ∧
        m2 &&& 61440 = m &&& 61440 ∧ m2 &&& 4095 = m &&& 4095) ∧
      dictLookup VIRTFS_UID_KEY (parseVirtfsAttrs rc2) = some u ∧
      dictLookup VIRTFS_GID_KEY (parseVirtfsAttrs rc2) = some g ∧
      ((S_ISCHR m = true ∨ S_ISBLK m = true) →
        dictLookup VIRTFS_RDEV_KEY (parseVirtfsAttrs rc2) =
          dictLookup VIRTFS_RDEV_KEY (parseVirtfsAttrs rc))) ∧
    ((S_ISREG m = true ∨ S_ISLNK m = true) →
      alistLookup (osPathJoin directory it.arc) sF.files =
        some (DEntry.file (itemContent it))) ∧
    (S_ISDIR m = true →
      alistLookup (osPathJoin directory it.arc) sF.files = some DEntry.dir) ∧
    ((S_ISFIFO m = true ∨ S_ISCHR m = true ∨ S_ISBLK m = true) →
      alistLookup (osPathJoin directory it.arc) sF.files =
        some (DEntry.file []))

/-- The lstat inode number of a walk entry (0 for directory entries). -/
def itemIno (it : WalkItem) : Nat :=
  match it.node with
  | ItemNode.file f => f.st_ino
  | ItemNode.dirStat _ => 0

/-- The lstat link count of a walk entry (0 for directory entries). -/
def itemNlink (it : WalkItem) : Nat :=
  match it.node with
  | ItemNode.file f => f.st_nlink
  | ItemNode.dirStat _ => 0

/-- Whether the entry's sidecar records a regular-file mode. -/
def recordRegB (it : WalkItem) : Bool :=
  match it.sidecar with
  | some rc =>
    match dictLookup VIRTFS_MODE_KEY (parseVirtfsAttrs rc) with
    | some m => S_ISREG m
    | none => false
  | none => false

/-- What `collect_artifact` emits for a record-backed regular entry whose
lstat identity is already registered under arcname `a`: a hardlink member
carrying the record's mode, uid and gid and referencing `a`. -/
def c1MemberLink (a : List Char) (it : WalkItem) (mc : TarInfo × List Char) :
    Prop :=
  ∃ rc u g m, it.sidecar = some rc ∧
    dictLookup VIRTFS_UID_KEY (parseVirtfsAttrs rc) = some u ∧
    dictLookup VIRTFS_GID_KEY (parseVirtfsAttrs rc) = some g ∧
    dictLookup VIRTFS_MODE_KEY (parseVirtfsAttrs rc) = some m ∧
    S_ISREG m = true ∧
    mc.1.name = it.arc ∧ mc.1.mode = m ∧ mc.1.uid = u ∧ mc.1.gid = g ∧
    mc.1.type = TarType.LNK ∧ mc.1.linkname = a ∧ mc.2 = []

/-- A collected member is either the entry's full emission or a hardlink
member whose target arcname was emitted earlier with this entry's bytes
(`prev` lists the regular entries emitted so far with their contents). -/
def c1MemberForH (prev : List (List Char × List Char)) (it : WalkItem)
    (mc : TarInfo × List Char) : Prop :=
  c1MemberFor it mc ∨
    ∃ a, c1MemberLink a it mc ∧ (a, itemContent it) ∈ prev

/-- Extend the emitted-regular-entries list by one entry. -/
def pushPrev (prev : List (List Char × List Char)) (it : WalkItem) :
    List (List Char × List Char) :=
  if recordRegB it then (it.arc, itemContent it) :: prev else prev

/-- The member list of one collection pass over `items`: hardlink members
may reference regular entries emitted before them. -/
def c1Members (prev : List (List Char × List Char)) :
    List WalkItem → List (TarInfo × List Char) → Prop
  | [], ms => ms = []
  | it :: rest, ms =>
    ∃ mc ms2, ms = mc :: ms2 ∧ c1MemberForH prev it mc ∧
      c1Members (pushPrev prev it) rest ms2

theorem pushPrev_mem {prev : List (List Char × List Char)} {it : WalkItem}
    {p : List Char × List Char} (h : p ∈ prev) : p ∈ pushPrev prev it := by
  unfold pushPrev
  split
  · exact List.mem_cons_of_mem _ h
  · exact h

theorem normalizeOwner_id (env : Env) (ti : TarInfo)
    (hpw : env.pwnam ti.uid ≠ natToChars ti.uid)
    (hn : ti.uname = natToChars ti.uid) :
    normalizeOwner env ti = ti := by
  unfold normalizeOwner
  rw [if_neg]
  rintro ⟨h1, h2, h3, h4⟩
  exact hpw (h3.symm.trans hn)

theorem kinds_of_reg {m : Nat} (h : S_ISREG m = true) :
    S_ISDIR m = false ∧ S_ISFIFO m = false ∧ S_ISLNK m = false ∧
    S_ISCHR m = false ∧ S_ISBLK m = false := by
  have hm := ifmt_of_isreg h
  refine ⟨?_, ?_, ?_, ?_, ?_⟩ <;>
    simp [S_ISDIR, S_ISFIFO, S_ISLNK, S_ISCHR, S_ISBLK, S_IFMT, S_IFDIR,
      S_IFIFO, S_IFLNK, S_IFCHR, S_IFBLK, hm]

theorem kinds_of_dir {m : Nat} (h : S_ISDIR m = true) :
    S_ISREG m = false ∧ S_ISFIFO m = false ∧ S_ISLNK m = false ∧
    S_ISCHR m = false ∧ S_ISBLK m = false := by
  have hm := ifmt_of_isdir h
  refine ⟨?_, ?_, ?_, ?_, ?_⟩ <;>
    simp [S_ISREG, S_ISFIFO, S_ISLNK, S_ISCHR, S_ISBLK, S_IFMT, S_IFREG,
      S_IFIFO, S_IFLNK, S_IFCHR, S_IFBLK, hm]

theorem kinds_of_fifo {m : Nat} (h : S_ISFIFO m = true) :
    S_ISREG m = false ∧ S_ISDIR m = false ∧ S_ISLNK m = false ∧
    S_ISCHR m = false ∧ S_ISBLK m = false := by
  have hm := ifmt_of_isfifo h
  refine ⟨?_, ?_, ?_, ?_, ?_⟩ <;>
    simp [S_ISREG, S_ISDIR, S_ISLNK, S_ISCHR, S_ISBLK, S_IFMT, S_IFREG,
      S_IFDIR, S_IFLNK, S_IFCHR, S_IFBLK, hm]

theorem kinds_of_lnk {m : Nat} (h : S_ISLNK m = true) :
    S_ISREG m = false ∧ S_ISDIR m = false ∧ S_ISFIFO m = false ∧
    S_ISCHR m = false ∧ S_ISBLK m = false := by
  have hm := ifmt_of_islnk h
  refine ⟨?_, ?_, ?_, ?_, ?_⟩ <;>
    simp [S_ISREG, S_ISDIR, S_ISFIFO, S_ISCHR, S_ISBLK, S_IFMT, S_IFREG,
      S_IFDIR, S_IFIFO, S_IFCHR, S_IFBLK, hm]

theorem kinds_of_chr {m : Nat} (h : S_ISCHR m = true) :
    S_ISREG m = false ∧ S_ISDIR m = false ∧ S_ISFIFO m = false ∧
    S_ISLNK m = false ∧ S_ISBLK m = false := by
  have hm := ifmt_of_ischr h
  refine ⟨?_, ?_, ?_, ?_, ?_⟩ <;>
    simp [S_ISREG, S_ISDIR, S_ISFIFO, S_ISLNK, S_ISBLK, S_IFMT, S_IFREG,
      S_IFDIR, S_IFIFO, S_IFLNK, S_IFBLK, hm]

theorem kinds_of_blk {m : Nat} (h : S_ISBLK m = true) :
    S_ISREG m = false ∧ S_ISDIR m = false ∧ S_ISFIFO m = false ∧
    S_ISLNK m = false ∧ S_ISCHR m = false := by
  have hm := ifmt_of_isblk h
  refine ⟨?_, ?_, ?_, ?_, ?_⟩ <;>
    simp [S_ISREG, S_ISDIR, S_ISFIFO, S_ISLNK, S_ISCHR, S_IFMT, S_IFREG,
      S_IFDIR, S_IFIFO, S_IFLNK, S_IFCHR, hm]

/-- `gettarinfo` on a fresh host-regular file: the REG tarinfo, with the
identity registered when the inode is nonzero. -/
theorem gettarinfo_c1_file (env : Env) (tf : TarF) (f : FileStat)
    (arc : List Char) (hreg : S_ISREG f.st_mode = true)
    (hfresh : alistLookup (f.st_ino, f.st_dev) tf.inodes = none) :
    ∃ tfg, gettarinfo env tf (ItemNode.file f) arc =
        some (tfg,
          { name := arc
            mode := f.st_mode
            uid := f.st_uid
            gid := f.st_gid
            size := f.content.length
            mtime := f.st_mtime
            type := TarType.REG
            linkname := []
            uname := env.pwnam f.st_uid
            gname := env.grnam f.st_gid
            devmajor := 0
            devminor := 0 }) ∧
      tfg.dereference = tf.dereference ∧ tfg.members = tf.members ∧
      (∀ p, alistLookup p tfg.inodes = alistLookup p tf.inodes ∨
        p = (f.st_ino, f.st_dev)) ∧
      ((f.st_ino = 0 ∧
          alistLookup (f.st_ino, f.st_dev) tfg.inodes = none) ∨
        (f.st_ino ≠ 0 ∧
          alistLookup (f.st_ino, f.st_dev) tfg.inodes = some arc)) := by
  by_cases hino : f.st_ino = 0
  · refine ⟨tf, ?_, rfl, rfl, fun p => Or.inl rfl, Or.inl ⟨hino, hfresh⟩⟩
    have hfresh0 : alistLookup (0, f.st_dev) tf.inodes = none := by
      rw [← hino]; exact hfresh
    simp only [gettarinfo, hreg, hfresh0, hino, eq_self_iff_true, ne_eq,
      not_true_eq_false, if_true, if_false]
  · refine ⟨{ tf with
        inodes := alistInsert (f.st_ino, f.st_dev) arc tf.inodes },
      ?_, rfl, rfl, ?_, Or.inr ⟨hino, by simp [alistLookup_insert]⟩⟩
    · simp only [gettarinfo, hreg, hfresh, hino, eq_self_iff_true, ne_eq,
        not_false_eq_true, if_true, if_false]
    · intro p
      by_cases hp : p = (f.st_ino, f.st_dev)
      · exact Or.inr hp
      · exact Or.inl (alistLookup_insert_ne _ _ _ _ hp)

/-- Ownership normalization is the identity on an applied record member
whose numeric owner has no decimal-spelled passwd name. -/
theorem normalizeOwner_nodigit (env : Env) (u g : Nat)
    (hpw : env.pwnam u ≠ natToChars u)
    (A ln gn2 : List Char) (B s t dj dn : Nat) (ty : TarType) :
    normalizeOwner env
      { name := A
        mode := B
        uid := u
        gid := g
        size := s
        mtime := t
        type := ty
        linkname := ln
        uname := natToChars u
        gname := gn2
        devmajor := dj
        devminor := dn } =
      { name := A
        mode := B
        uid := u
        gid := g
        size := s
        mtime := t
        type := ty
        linkname := ln
        uname := natToChars u
        gname := gn2
        devmajor := dj
        devminor := dn } :=
  normalizeOwner_id env _ hpw rfl

/-- One `tar_f.add` call on a well-formed record-backed staged entry with
a fresh lstat identity: it appends exactly the member `c1MemberFor`
describes and at most registers the entry's own identity. -/
theorem processOne_c1 {env : Env} {time : Nat} {tf tf1 : TarF}
    {it : WalkItem}
    (hok : c1ItemOK it = true) (henv : c1EnvOK env it = true)
    (hderef : tf.dereference = false)
    (hfresh : ∀ f2, it.node = ItemNode.file f2 →
      alistLookup (f2.st_ino, f2.st_dev) tf.inodes = none)
    (h : processOne env time tf it = Except.ok tf1) :
    tf1.dereference = false ∧
    (∀ p, alistLookup p tf1.inodes = alistLookup p tf.inodes ∨
      (fileId it = some p ∧ p.1 ≠ 0 ∧
        alistLookup p tf1.inodes = some it.arc)) ∧
    ∃ mc, tf1.members = tf.members ++ [mc] ∧ c1MemberFor it mc := by
  cases hsc : it.sidecar with
  | none =>
    simp only [c1ItemOK, hsc] at hok
    exact absurd hok (by simp)
  | some rc =>
    cases hmd : dictLookup VIRTFS_MODE_KEY (parseVirtfsAttrs rc) with
    | none =>
      simp only [c1ItemOK, hsc, hmd] at hok
      exact absurd hok (by simp)
    | some m =>
    cases hud : dictLookup VIRTFS_UID_KEY (parseVirtfsAttrs rc) with
    | none =>
      simp only [c1ItemOK, hsc, hmd, hud] at hok
      exact absurd hok (by simp)
    | some u =>
    cases hgd : dictLookup VIRTFS_GID_KEY (parseVirtfsAttrs rc) with
    | none =>
      simp only [c1ItemOK, hsc, hmd, hud, hgd] at hok
      exact absurd hok (by simp)
    | some g =>
    simp only [c1ItemOK, hsc, hmd, hud, hgd, Bool.and_eq_true] at hok
    obtain ⟨hok1, hok2⟩ := hok
    have hpw : env.pwnam u ≠ natToChars u := by
      simp only [c1EnvOK, hsc, hud] at henv
      simpa using henv
    cases hnode : it.node with
    | dirStat d2 =>
      simp only [hnode, Bool.and_eq_true] at hok1
      obtain ⟨hhost, hDm⟩ := hok1
      obtain ⟨hR2, hF2, hL2, hC2, hB2⟩ := kinds_of_dir hDm
      unfold processOne at h
      rw [hnode] at h
      simp only [gettarinfo, hhost, if_true, filter_virtfs_attrs, hsc,
        hnode, bind, Except.bind] at h
      simp only [applyVirtfsAttrs, applyResolveType, bind, Except.bind,
        hmd, hud, hgd, hnode, ItemNode.lstatIno, hR2, hDm,
        Bool.false_eq_true, eq_self_iff_true, ne_eq, reduceCtorEq,
        not_false_eq_true, or_self, if_true, if_false] at h
      rw [normalizeOwner_nodigit env u g hpw] at h
      simp only [eq_self_iff_true, reduceCtorEq, if_true, if_false] at h
      cases h
      refine ⟨hderef, fun p => Or.inl rfl, ?_⟩
      refine ⟨_, rfl, rc, u, g, m, hsc, hud, hgd, hmd, ?_, rfl, rfl, rfl,
        rfl, ?_, ?_, ?_, ?_, ?_⟩
      · simp [modeKindOK, hDm]
      · simp [tarTypeOfMode, hR2, hDm]
      · intro hx; simp [hR2] at hx
      · intro hx; simp [hL2] at hx
      · intro hx; rfl
      · intro hx
        rcases hx with hx | hx
        · simp [hC2] at hx
        · simp [hB2] at hx
    | file f =>
      simp only [hnode, Bool.and_eq_true] at hok1
      obtain ⟨hhost, hkinds⟩ := hok1
      obtain ⟨tfg, hget, hgder, hgmem, hglook, hgown⟩ :=
        gettarinfo_c1_file env tf f it.arc hhost (hfresh f hnode)
      unfold processOne at h
      rw [hnode] at h
      simp only [hget, filter_virtfs_attrs, hsc, hnode, bind,
        Except.bind] at h
      have hkinds2 : S_ISREG m = true ∨ S_ISLNK m = true ∨
          S_ISFIFO m = true ∨ S_ISCHR m = true ∨ S_ISBLK m = true := by
        cases hA : S_ISREG m <;> cases hB : S_ISLNK m <;>
          cases hC : S_ISFIFO m <;> cases hD : S_ISCHR m <;>
          cases hE : S_ISBLK m <;> simp [hA, hB, hC, hD, hE] at hkinds ⊢
      have htfgd : (!tfg.dereference) = true := by
        rw [hgder, hderef]; rfl
      rcases hkinds2 with hRm | hLm | hFm | hCm | hBm
      · -- regular-file record
        obtain ⟨hD2, hF2, hL2, hC2, hB2⟩ := kinds_of_reg hRm
        have hdne : decide (¬(it.arc = it.arc)) = false := by simp
        rcases hgown with ⟨hino0, hlk⟩ | ⟨hinoNZ, hlk⟩
        · have hlk0 : alistLookup (0, f.st_dev) tfg.inodes = none := by
            rw [← hino0]; exact hlk
          simp only [applyVirtfsAttrs, applyResolveType, bind, Except.bind,
            hmd, hud, hgd, hnode, ItemNode.lstatIno, hRm, hlk0, hino0,
            eq_self_iff_true, ne_eq, not_true_eq_false, reduceCtorEq,
            not_false_eq_true, or_self, if_true, if_false] at h
          rw [normalizeOwner_nodigit env u g hpw] at h
          simp only [eq_self_iff_true, if_true] at h
          cases h
          refine ⟨hgder.trans hderef, ?_, ?_⟩
          · intro p
            rcases hglook p with hl | hl
            · exact Or.inl hl
            · rw [hl]
              exact Or.inl (hlk.trans (hfresh f hnode).symm)
          · refine ⟨_, by rw [hgmem], rc, u, g, m, hsc, hud, hgd, hmd, ?_,
              rfl, rfl, rfl, rfl, ?_, ?_, ?_, ?_, ?_⟩
            · simp [modeKindOK, hRm]
            · simp [tarTypeOfMode, hRm]
            · intro hx; simp [itemContent, hnode]
            · intro hx; simp [hL2] at hx
            · intro hx
              rcases hx with hx | hx
              · simp [hD2] at hx
              · simp [hF2] at hx
            · intro hx
              rcases hx with hx | hx
              · simp [hC2] at hx
              · simp [hB2] at hx
        · simp only [applyVirtfsAttrs, applyResolveType, bind, Except.bind,
            hmd, hud, hgd, hnode, ItemNode.lstatIno, hRm, hlk, hinoNZ,
            htfgd, hdne, eq_self_iff_true, ne_eq, not_true_eq_false,
            decide_False, reduceCtorEq, not_false_eq_true, or_self,
            Bool.and_false, Bool.true_and, Bool.false_eq_true, if_true,
            if_false] at h
          rw [normalizeOwner_nodigit env u g hpw] at h
          simp only [eq_self_iff_true, if_true] at h
          cases h
          refine ⟨hgder.trans hderef, ?_, ?_⟩
          · intro p
            by_cases hp : p = (f.st_ino, f.st_dev)
            · refine Or.inr ⟨by simp [fileId, hnode, hp], ?_, ?_⟩
              · rw [hp]; exact hinoNZ
              · rw [hp]; exact alistLookup_insert _ _ _
            · rw [alistLookup_insert_ne _ _ _ _ hp]
              rcases hglook p with hl | hl
              · exact Or.inl hl
              · exact absurd hl hp
          · refine ⟨_, by rw [hgmem], rc, u, g, m, hsc, hud, hgd, hmd, ?_,
              rfl, rfl, rfl, rfl, ?_, ?_, ?_, ?_, ?_⟩
            · simp [modeKindOK, hRm]
            · simp [tarTypeOfMode, hRm]
            · intro hx; simp [itemContent, hnode]
            · intro hx; simp [hL2] at hx
            · intro hx
              rcases hx with hx | hx
              · simp [hD2] at hx
              · simp [hF2] at hx
            · intro hx
              rcases hx with hx | hx
              · simp [hC2] at hx
              · simp [hB2] at hx
      · -- symlink record
        obtain ⟨hR2, hD2, hF2, hC2, hB2⟩ := kinds_of_lnk hLm
        simp only [applyVirtfsAttrs, applyResolveType, bind, Except.bind,
          hmd, hud, hgd, hnode, ItemNode.lstatIno, hR2, hD2, hF2, hLm,
          Bool.false_eq_true, eq_self_iff_true, ne_eq, reduceCtorEq,
          not_false_eq_true, or_self, if_true, if_false] at h
        rw [normalizeOwner_nodigit env u g hpw] at h
        simp only [eq_self_iff_true, reduceCtorEq, if_true, if_false] at h
        cases h
        refine ⟨hgder.trans hderef, ?_, ?_⟩
        · intro p
          rcases hglook p with hl | hl
          · exact Or.inl hl
          · rcases hgown with ⟨hino0, hlkA⟩ | ⟨hinoNZ, hlkA⟩
            · rw [hl]
              exact Or.inl (hlkA.trans (hfresh f hnode).symm)
            · exact Or.inr ⟨by simp [fileId, hnode, hl],
                by rw [hl]; exact hinoNZ, by rw [hl]; exact hlkA⟩
        · refine ⟨_, by rw [hgmem], rc, u, g, m, hsc, hud, hgd, hmd, ?_,
            rfl, rfl, rfl, rfl, ?_, ?_, ?_, ?_, ?_⟩
          · simp [modeKindOK, hLm]
          · simp [tarTypeOfMode, hR2, hD2, hF2, hLm]
          · intro hx; simp [hR2] at hx
          · intro hx; exact ⟨by simp [itemContent, hnode], rfl⟩
          · intro hx
            rcases hx with hx | hx
            · simp [hD2] at hx
            · simp [hF2] at hx
          · intro hx
            rcases hx with hx | hx
            · simp [hC2] at hx
            · simp [hB2] at hx
      · -- fifo record
        obtain ⟨hR2, hD2, hL2, hC2, hB2⟩ := kinds_of_fifo hFm
        simp only [applyVirtfsAttrs, applyResolveType, bind, Except.bind,
          hmd, hud, hgd, hnode, ItemNode.lstatIno, hR2, hD2, hFm,
          Bool.false_eq_true, eq_self_iff_true, ne_eq, reduceCtorEq,
          not_false_eq_true, or_self, if_true, if_false] at h
        rw [normalizeOwner_nodigit env u g hpw] at h
        simp only [eq_self_iff_true, reduceCtorEq, if_true, if_false] at h
        cases h
        refine ⟨hgder.trans hderef, ?_, ?_⟩
        · intro p
          rcases hglook p with hl | hl
          · exact Or.inl hl
          · rcases hgown with ⟨hino0, hlkA⟩ | ⟨hinoNZ, hlkA⟩
            · rw [hl]
              exact Or.inl (hlkA.trans (hfresh f hnode).symm)
            · exact Or.inr ⟨by simp [fileId, hnode, hl],
                by rw [hl]; exact hinoNZ, by rw [hl]; exact hlkA⟩
        · refine ⟨_, by rw [hgmem], rc, u, g, m, hsc, hud, hgd, hmd, ?_,
            rfl, rfl, rfl, rfl, ?_, ?_, ?_, ?_, ?_⟩
          · simp [modeKindOK, hFm]
          · simp [tarTypeOfMode, hR2, hD2, hFm]
          · intro hx; simp [hR2] at hx
          · intro hx; simp [hL2] at hx
          · intro hx; rfl
          · intro hx
            rcases hx with hx | hx
            · simp [hC2] at hx
            · simp [hB2] at hx
      · -- character-device record
        obtain ⟨hR2, hD2, hF2, hL2, hB2⟩ := kinds_of_chr hCm
        have hrok : (match dictLookup VIRTFS_RDEV_KEY (parseVirtfsAttrs rc)
            with
          | some r => decide (r < 65536)
          | none => false) = true := by
          simpa [hCm] using hok2
        cases hr : dictLookup VIRTFS_RDEV_KEY (parseVirtfsAttrs rc) with
        | none => rw [hr] at hrok; exact absurd hrok (by simp)
        | some r =>
          rw [hr] at hrok
          have hrlt : r < 65536 := by simpa using hrok
          simp only [applyVirtfsAttrs, applyResolveType, bind, Except.bind,
            hmd, hud, hgd, hnode, ItemNode.lstatIno, hR2, hD2, hF2, hL2,
            hCm, hr, Bool.false_eq_true, eq_self_iff_true, ne_eq,
            reduceCtorEq, not_false_eq_true, or_self, or_false, if_true,
            if_false] at h
          rw [normalizeOwner_nodigit env u g hpw] at h
          simp only [eq_self_iff_true, reduceCtorEq, if_true, if_false] at h
          cases h
          refine ⟨hgder.trans hderef, ?_, ?_⟩
          · intro p
            rcases hglook p with hl | hl
            · exact Or.inl hl
            · rcases hgown with ⟨hino0A, hlkA⟩ | ⟨hinoNZ, hlkA⟩
              · rw [hl]
                exact Or.inl (hlkA.trans (hfresh f hnode).symm)
              · exact Or.inr ⟨by simp [fileId, hnode, hl],
                  by rw [hl]; exact hinoNZ, by rw [hl]; exact hlkA⟩
          · refine ⟨_, by rw [hgmem], rc, u, g, m, hsc, hud, hgd, hmd, ?_,
              rfl, rfl, rfl, rfl, ?_, ?_, ?_, ?_, ?_⟩
            · simp [modeKindOK, hCm]
            · simp [tarTypeOfMode, hR2, hD2, hF2, hL2, hCm]
            · intro hx; simp [hR2] at hx
            · intro hx; simp [hL2] at hx
            · intro hx
              rcases hx with hx | hx
              · simp [hD2] at hx
              · simp [hF2] at hx
            · intro hx
              exact ⟨rfl, r, hr, hrlt, rfl, rfl⟩
      · -- block-device record
        obtain ⟨hR2, hD2, hF2, hL2, hC2⟩ := kinds_of_blk hBm
        have hrok : (match dictLookup VIRTFS_RDEV_KEY (parseVirtfsAttrs rc)
            with
          | some r => decide (r < 65536)
          | none => false) = true := by
          simpa [hBm] using hok2
        cases hr : dictLookup VIRTFS_RDEV_KEY (parseVirtfsAttrs rc) with
        | none => rw [hr] at hrok; exact absurd hrok (by simp)
        | some r =>
          rw [hr] at hrok
          have hrlt : r < 65536 := by simpa using hrok
          simp only [applyVirtfsAttrs, applyResolveType, bind, Except.bind,
            hmd, hud, hgd, hnode, ItemNode.lstatIno, hR2, hD2, hF2, hL2,
            hC2, hBm, hr, Bool.false_eq_true, eq_self_iff_true, ne_eq,
            reduceCtorEq, not_false_eq_true, or_self, false_or, if_true,
            if_false] at h
          rw [normalizeOwner_nodigit env u g hpw] at h
          simp only [eq_self_iff_true, reduceCtorEq, if_true, if_false] at h
          cases h
          refine ⟨hgder.trans hderef, ?_, ?_⟩
          · intro p
            rcases hglook p with hl | hl
            · exact Or.inl hl
            · rcases hgown with ⟨hino0A, hlkA⟩ | ⟨hinoNZ, hlkA⟩
              · rw [hl]
                exact Or.inl (hlkA.trans (hfresh f hnode).symm)
              · exact Or.inr ⟨by simp [fileId, hnode, hl],
                  by rw [hl]; exact hinoNZ, by rw [hl]; exact hlkA⟩
          · refine ⟨_, by rw [hgmem], rc, u, g, m, hsc, hud, hgd, hmd, ?_,
              rfl, rfl, rfl, rfl, ?_, ?_, ?_, ?_, ?_⟩
            · simp [modeKindOK, hBm]
            · simp [tarTypeOfMode, hR2, hD2, hF2, hL2, hC2, hBm]
            · intro hx; simp [hR2] at hx
            · intro hx; simp [hL2] at hx
            · intro hx
              rcases hx with hx | hx
              · simp [hD2] at hx
              · simp [hF2] at hx
            · intro hx
              exact ⟨rfl, r, hr, hrlt, rfl, rfl⟩

/-- One `tar_f.add` call on a well-formed record-backed regular entry whose
lstat identity is already registered under a different arcname `a`: the
entry is emitted as a hardlink member referencing `a` and the inode table
is unchanged. -/
theorem processOne_c1link {env : Env} {time : Nat} {tf tf1 : TarF}
    {it : WalkItem} {f : FileStat} (a : List Char)
    (hnode : it.node = ItemNode.file f)
    (hok : c1ItemOK it = true) (henv : c1EnvOK env it = true)
    (hderef : tf.dereference = false)
    (hst : alistLookup (f.st_ino, f.st_dev) tf.inodes = some a)
    (hnl : f.st_nlink > 1)
    (hane : a ≠ it.arc)
    (hrr : recordRegB it = true)
    (h : processOne env time tf it = Except.ok tf1) :
    tf1.dereference = false ∧
    (∀ p, alistLookup p tf1.inodes = alistLookup p tf.inodes) ∧
    ∃ mc, tf1.members = tf.members ++ [mc] ∧ c1MemberLink a it mc := by
  cases hsc : it.sidecar with
  | none =>
    simp only [recordRegB, hsc] at hrr
    exact absurd hrr (by simp)
  | some rc =>
  cases hmd : dictLookup VIRTFS_MODE_KEY (parseVirtfsAttrs rc) with
  | none =>
    simp only [recordRegB, hsc, hmd] at hrr
    exact absurd hrr (by simp)
  | some m =>
  have hRm : S_ISREG m = true := by
    simp only [recordRegB, hsc, hmd] at hrr
    exact hrr
  cases hud : dictLookup VIRTFS_UID_KEY (parseVirtfsAttrs rc) with
  | none =>
    simp only [c1ItemOK, hsc, hmd, hud] at hok
    exact absurd hok (by simp)
  | some u =>
  cases hgd : dictLookup VIRTFS_GID_KEY (parseVirtfsAttrs rc) with
  | none =>
    simp only [c1ItemOK, hsc, hmd, hud, hgd] at hok
    exact absurd hok (by simp)
  | some g =>
  have hhost : S_ISREG f.st_mode = true := by
    simp only [c1ItemOK, hsc, hmd, hud, hgd, hnode, Bool.and_eq_true] at hok
    exact hok.1.1
  have hpw : env.pwnam u ≠ natToChars u := by
    simp only [c1EnvOK, hsc, hud] at henv
    simpa using henv
  have hnl2 : decide (f.st_nlink > 1) = true := decide_eq_true hnl
  have hdne : decide (¬(a = it.arc)) = true := decide_eq_true hane
  unfold processOne at h
  rw [hnode] at h
  simp only [gettarinfo, hhost, hst, hderef, hnl2, hdne, Bool.not_false,
    Bool.true_and, Bool.and_true, eq_self_iff_true, if_true] at h
  simp only [filter_virtfs_attrs, hsc, bind, Except.bind] at h
  simp only [applyVirtfsAttrs, applyResolveType, bind, Except.bind, hmd,
    hud, hgd, hnode, ItemNode.lstatIno, hRm, hderef, hnl2, hdne, hst,
    eq_self_iff_true, ne_eq, not_true, not_true_eq_false, decide_False,
    not_false_eq_true, Bool.not_false, Bool.true_and, Bool.and_true,
    Bool.false_eq_true, reduceCtorEq, or_self, if_true, if_false] at h
  rw [normalizeOwner_nodigit env u g hpw] at h
  simp only [eq_self_iff_true, reduceCtorEq, if_true, if_false] at h
  cases h
  refine ⟨rfl, fun p => rfl, ?_⟩
  exact ⟨_, rfl, rc, u, g, m, hsc, hud, hgd, hmd, hRm,
    rfl, rfl, rfl, rfl, rfl, rfl, rfl⟩

/-- The member list of a collection over well-formed record-backed staged
entries: an entry whose lstat identity is already registered becomes a
hardlink member referencing the registered arcname, every other entry a
full member.  The inode-table invariant ties registered identities to
already-emitted regular entries (`prev`). -/
theorem c1_collect_fold (env : Env) (time : Nat) :
    ∀ (items : List WalkItem) (tf tfF : TarF)
      (prev : List (List Char × List Char)),
      items.foldlM (processOne env time) tf = Except.ok tfF →
      tf.dereference = false →
      (∀ it ∈ items, c1ItemOK it = true) →
      (∀ it ∈ items, c1EnvOK env it = true) →
      ((items.map WalkItem.arc)).Nodup →
      (∀ it₁ ∈ items, ∀ it₂ ∈ items, it₁ ≠ it₂ →
        fileId it₁ = fileId it₂ → itemIno it₁ ≠ 0 →
        itemNlink it₁ > 1 ∧ itemContent it₁ = itemContent it₂ ∧
          recordRegB it₁ = true) →
      (∀ k a, alistLookup k tf.inodes = some a →
        ∀ it ∈ items, ∀ f, it.node = ItemNode.file f →
          (f.st_ino, f.st_dev) = k →
          f.st_nlink > 1 ∧ recordRegB it = true ∧ a ≠ it.arc ∧
            (a, itemContent it) ∈ prev) →
      ∃ ms, tfF.members = tf.members ++ ms ∧ c1Members prev items ms := by
  intro items
  induction items with
  | nil =>
    intro tf tfF prev h _ _ _ _ _ _
    cases h
    exact ⟨[], (List.append_nil _).symm, rfl⟩
  | cons it rest ih =>
    intro tf tfF prev h hderef hok henv hnd hpair htbl
    rw [foldlM_except_cons] at h
    cases hp : processOne env time tf it with
    | error e =>
      rw [hp] at h
      exact absurd h (by simp [Except.bind])
    | ok tf1 =>
      rw [hp] at h
      have hndc := hnd
      rw [List.map_cons, List.nodup_cons] at hndc
      obtain ⟨hnotmem, hndrest⟩ := hndc
      have hstep : tf1.dereference = false ∧
          (∀ k a, alistLookup k tf1.inodes = some a →
            ∀ it2 ∈ rest, ∀ f2, it2.node = ItemNode.file f2 →
              (f2.st_ino, f2.st_dev) = k →
              f2.st_nlink > 1 ∧ recordRegB it2 = true ∧ a ≠ it2.arc ∧
                (a, itemContent it2) ∈ pushPrev prev it) ∧
          ∃ mc, tf1.members = tf.members ++ [mc] ∧
            c1MemberForH prev it mc := by
        cases hnodeQ : it.node with
        | dirStat d2 =>
          obtain ⟨hd1, hlk1, mc, hm1, hmf⟩ := processOne_c1
            (hok it (List.mem_cons_self _ _))
            (henv it (List.mem_cons_self _ _)) hderef
            (fun f2 hf2 => by rw [hnodeQ] at hf2; cases hf2) hp
          refine ⟨hd1, ?_, mc, hm1, Or.inl hmf⟩
          intro k a hka it2 h2 f2 hf2 hkeq
          rcases hlk1 k with hsame | ⟨hfid, hk0, hval⟩
          · rw [hsame] at hka
            obtain ⟨x1, x2, x3, x4⟩ := htbl k a hka it2
              (List.mem_cons_of_mem _ h2) f2 hf2 hkeq
            exact ⟨x1, x2, x3, pushPrev_mem x4⟩
          · exfalso
            simp [fileId, hnodeQ] at hfid
        | file f =>
          cases hlook : alistLookup (f.st_ino, f.st_dev) tf.inodes with
          | none =>
            obtain ⟨hd1, hlk1, mc, hm1, hmf⟩ := processOne_c1
              (hok it (List.mem_cons_self _ _))
              (henv it (List.mem_cons_self _ _)) hderef
              (fun f2 hf2 => by
                rw [hnodeQ] at hf2
                injection hf2 with hf2e
                rw [← hf2e]
                exact hlook) hp
            refine ⟨hd1, ?_, mc, hm1, Or.inl hmf⟩
            intro k a hka it2 h2 f2 hf2 hkeq
            rcases hlk1 k with hsame | ⟨hfid, hk0, hval⟩
            · rw [hsame] at hka
              obtain ⟨x1, x2, x3, x4⟩ := htbl k a hka it2
                (List.mem_cons_of_mem _ h2) f2 hf2 hkeq
              exact ⟨x1, x2, x3, pushPrev_mem x4⟩
            · have hae : a = it.arc := by
                rw [hval] at hka
                injection hka with hh
                exact hh.symm
              have hfid2 : fileId it2 = some k := by
                simp [fileId, hf2, hkeq]
              have hne : it2 ≠ it := by
                intro hee
                exact hnotmem (hee ▸ List.mem_map_of_mem WalkItem.arc h2)
              have hfideq : fileId it2 = fileId it := by rw [hfid2, hfid]
              have hi2 : itemIno it2 ≠ 0 := by
                simp only [itemIno, hf2]
                intro h0
                apply hk0
                rw [← hkeq, h0]
              have hi1 : itemIno it ≠ 0 := by
                have hfk : k = (f.st_ino, f.st_dev) := by
                  simp only [fileId, hnodeQ] at hfid
                  injection hfid with hh
                  exact hh.symm
                simp only [itemIno, hnodeQ]
                intro h0
                apply hk0
                rw [hfk, h0]
              obtain ⟨hnl2t, hcont2, hrr2⟩ := hpair it2
                (List.mem_cons_of_mem _ h2) it (List.mem_cons_self _ _)
                hne hfideq hi2
              obtain ⟨hnl1t, hcont1, hrr1⟩ := hpair it
                (List.mem_cons_self _ _) it2 (List.mem_cons_of_mem _ h2)
                (Ne.symm hne) hfideq.symm hi1
              refine ⟨by simpa [itemNlink, hf2] using hnl2t, hrr2, ?_, ?_⟩
              · rw [hae]
                intro hee
                exact hnotmem (hee ▸ List.mem_map_of_mem WalkItem.arc h2)
              · rw [hae]
                unfold pushPrev
                rw [if_pos hrr1, hcont2]
                exact List.mem_cons_self _ _
          | some a =>
            obtain ⟨hnlf, hrr, hane, hmem⟩ := htbl _ a hlook it
              (List.mem_cons_self _ _) f hnodeQ rfl
            obtain ⟨hd1, hlk1, mc, hm1, hml⟩ := processOne_c1link a hnodeQ
              (hok it (List.mem_cons_self _ _))
              (henv it (List.mem_cons_self _ _)) hderef hlook hnlf hane
              hrr hp
            refine ⟨hd1, ?_, mc, hm1, Or.inr ⟨a, hml, hmem⟩⟩
            intro k a2 hka it2 h2 f2 hf2 hkeq
            rw [hlk1 k] at hka
            obtain ⟨x1, x2, x3, x4⟩ := htbl k a2 hka it2
              (List.mem_cons_of_mem _ h2) f2 hf2 hkeq
            exact ⟨x1, x2, x3, pushPrev_mem x4⟩
      obtain ⟨hd1, htbl1, mc, hm1, hmfH⟩ := hstep
      obtain ⟨ms, hms, hMs⟩ := ih tf1 tfF (pushPrev prev it) h hd1
        (fun it2 h2 => hok it2 (List.mem_cons_of_mem _ h2))
        (fun it2 h2 => henv it2 (List.mem_cons_of_mem _ h2)) hndrest
        (fun it1 h1 it2 h2 hne hfe hi0 => hpair it1
          (List.mem_cons_of_mem _ h1) it2 (List.mem_cons_of_mem _ h2)
          hne hfe hi0)
        htbl1
      exact ⟨mc :: ms,
        by rw [hms, hm1, List.append_assoc, List.singleton_append],
        mc, ms, rfl, hmfH, hMs⟩

/-- Writing a canonical attribute mapping for a fresh slash-free basename
succeeds and only inserts the serialized record. -/
theorem write_virtfs_attrs_c1 (u g m2 : Nat) (ro : Option Nat)
    (dir base : List Char) (s : Store)
    (hbsl : ∀ c ∈ base, c ≠ '/')
    (hfr : lookupRecord dir base s = none) :
    ∃ s1, write_virtfs_attrs none (canonicalAttrs u g m2 ro) dir base s =
        Except.ok s1 ∧
      s1.records =
        alistInsert (dir, base) (serializedAttrs u g m2 ro) s.records ∧
      s1.files = s.files := by
  have hbn : osBasename (rstripChar '/' base) = base := by
    rw [rstripChar_no_occur hbsl, osBasename_no_slash hbsl]
  have hu2 : dictLookup VIRTFS_UID_KEY (canonicalAttrs u g m2 ro) = some u
    := by rw [canonicalAttrs_lookup]; simp
  have hg2 : dictLookup VIRTFS_GID_KEY (canonicalAttrs u g m2 ro) = some g
    := by
    rw [canonicalAttrs_lookup]
    simp [Ne.symm uid_ne_gid]
  have hm2 : dictLookup VIRTFS_MODE_KEY (canonicalAttrs u g m2 ro) = some m2
    := by
    rw [canonicalAttrs_lookup]
    simp [Ne.symm uid_ne_mode, Ne.symm gid_ne_mode]
  have hser : serializeVirtfsAttrs (canonicalAttrs u g m2 ro) =
      some (serializedAttrs u g m2 ro) := by
    rw [serializeVirtfsAttrs_eq hu2 hg2 hm2, canonicalAttrs_lookup]
    simp [Ne.symm uid_ne_rdev, Ne.symm gid_ne_rdev, Ne.symm mode_ne_rdev]
  have hfru : lookupRecord dir base s = none := hfr
  unfold lookupRecord at hfru
  by_cases hmem : dir ∈ s.metaDirs
  · refine ⟨⟨s.metaDirs, alistInsert (dir, base) (serializedAttrs u g m2 ro) s.records, s.files⟩, ?_, rfl, rfl⟩
    unfold write_virtfs_attrs lookupRecord
    simp only [hbn, hmem, if_true, hfru, Option.isSome_none,
      Bool.false_eq_true, if_false, hser]
  · refine ⟨⟨dir :: s.metaDirs, alistInsert (dir, base) (serializedAttrs u g m2 ro) s.records, s.files⟩, ?_, rfl, rfl⟩
    unfold write_virtfs_attrs lookupRecord
    simp only [hbn, hmem, if_false, hfru, Option.isSome_none,
      Bool.false_eq_true, if_true, hser]

theorem getLast_ne_of_getLastQ {c : Char} {l : List Char}
    (h : l.getLast? ≠ some c) : ∀ (hx : l ≠ []), l.getLast hx ≠ c := by
  intro hx hc
  exact h (by rw [List.getLast?_eq_getLast l hx, hc])

theorem getLastQ_osPathJoin (p b : List Char) (hb : b ≠ []) :
    (osPathJoin p b).getLast? = b.getLast? := by
  unfold osPathJoin
  rw [getLastQ_append p (by simp)]
  cases b with
  | nil => exact absurd rfl hb
  | cons c cs => rw [List.getLast?_cons_cons]

/-- One `_stage_tarinfo_to_directory` call, factored over the member's
resolved extraction entry `ent` and reconstructed rdev `roV`. -/
theorem stageStep_core {directory : List Char} {it : WalkItem}
    {mc : TarInfo × List Char} {s : Store} {u g m : Nat} {r : List Char}
    {roV : Option Nat} {ent : DEntry}
    (hbsl2 : ∀ c ∈ it.base, c ≠ '/')
    (hhname : (headerRoundTrip mc.1).name = it.arc)
    (hstrip : rstripChar '/' it.arc = it.arc)
    (hsplitfull : osPathSplit (osPathJoin directory it.arc) =
      (osPathJoin directory (osPathSplit it.arc).1, it.base))
    (hfr : lookupRecord (osPathJoin directory (osPathSplit it.arc).1)
      it.base s = none)
    (hex : extract_virtfs_attrs (headerRoundTrip mc.1) =
      canonicalAttrs u g ((m &&& 4095) ||| (m &&& 61440)) roV)
    (hroV : roV = (if S_ISCHR m = true ∨ S_ISBLK m = true then
      dictLookup VIRTFS_RDEV_KEY (parseVirtfsAttrs r) else none))
    (hentif : ent = (if S_ISREG m = true ∨ S_ISLNK m = true then
        DEntry.file (itemContent it)
      else if S_ISDIR m = true then DEntry.dir else DEntry.file []))
    (hextract : ∀ (s1 : Store), s1.files = s.files →
      extract_tarinfo_into_staging directory (headerRoundTrip mc.1) mc.2 s1
        = Except.ok ⟨s1.metaDirs, s1.records,
            alistInsert (osPathJoin directory it.arc) ent s1.files⟩) :
    ∃ s', stage_tarinfo_to_directory directory (headerRoundTrip mc.1) mc.2 s
        = Except.ok s' ∧
      (∀ dk bk, lookupRecord dk bk s' =
        if (dk, bk) =
            (osPathJoin directory (osPathSplit it.arc).1, it.base) then
          some (serializedAttrs u g ((m &&& 4095) ||| (m &&& 61440))
            (if S_ISCHR m = true ∨ S_ISBLK m = true then
              dictLookup VIRTFS_RDEV_KEY (parseVirtfsAttrs r)
            else none))
        else lookupRecord dk bk s) ∧
      (∀ pk, alistLookup pk s'.files =
        if pk = osPathJoin directory it.arc then
          some (if S_ISREG m = true ∨ S_ISLNK m = true then
              DEntry.file (itemContent it)
            else if S_ISDIR m = true then DEntry.dir
            else DEntry.file [])
        else alistLookup pk s.files) := by
  obtain ⟨s1, hw, hrec1, hfil1⟩ := write_virtfs_attrs_c1 u g
    ((m &&& 4095) ||| (m &&& 61440)) roV
    (osPathJoin directory (osPathSplit it.arc).1) it.base s hbsl2 hfr
  refine ⟨⟨s1.metaDirs, s1.records,
    alistInsert (osPathJoin directory it.arc) ent s1.files⟩, ?_, ?_, ?_⟩
  · simp only [stage_tarinfo_to_directory, hhname, hstrip, hsplitfull,
      hex, hw]
    exact hextract s1 hfil1
  · intro dk bk
    by_cases hks : (dk, bk) =
        (osPathJoin directory (osPathSplit it.arc).1, it.base)
    · rw [if_pos hks]
      show alistLookup (dk, bk) s1.records = _
      rw [hrec1, hks, alistLookup_insert, hroV]
    · rw [if_neg hks]
      show alistLookup (dk, bk) s1.records = lookupRecord dk bk s
      rw [hrec1, alistLookup_insert_ne _ _ _ _ hks]
      rfl
  · intro pk
    by_cases hpk : pk = osPathJoin directory it.arc
    · rw [if_pos hpk]
      show alistLookup pk
        (alistInsert (osPathJoin directory it.arc) ent s1.files) = _
      rw [hpk, alistLookup_insert, hentif]
    · rw [if_neg hpk]
      show alistLookup pk
          (alistInsert (osPathJoin directory it.arc) ent s1.files) =
        alistLookup pk s.files
      rw [alistLookup_insert_ne _ _ _ _ hpk, hfil1]

/-- One `_stage_tarinfo_to_directory` call on a collected member: the
sidecar record is reconstructed (masked permissions re-joined with the
type bits, rdev repacked) and the member's bytes are materialized. -/
theorem stageStep_c1 {directory : List Char} {it : WalkItem}
    {mc : TarInfo × List Char} {s : Store}
    (hmf : c1MemberFor it mc) (harc : arcOK it = true)
    (hfr : lookupRecord (osPathJoin directory (osPathSplit it.arc).1)
      it.base s = none) :
    ∃ s', stage_tarinfo_to_directory directory (headerRoundTrip mc.1) mc.2 s
        = Except.ok s' ∧
      ∃ rc u g m, it.sidecar = some rc ∧
        dictLookup VIRTFS_UID_KEY (parseVirtfsAttrs rc) = some u ∧
        dictLookup VIRTFS_GID_KEY (parseVirtfsAttrs rc) = some g ∧
        dictLookup VIRTFS_MODE_KEY (parseVirtfsAttrs rc) = some m ∧
        (∀ dk bk, lookupRecord dk bk s' =
          if (dk, bk) =
              (osPathJoin directory (osPathSplit it.arc).1, it.base) then
            some (serializedAttrs u g ((m &&& 4095) ||| (m &&& 61440))
              (if S_ISCHR m = true ∨ S_ISBLK m = true then
                dictLookup VIRTFS_RDEV_KEY (parseVirtfsAttrs rc)
              else none))
          else lookupRecord dk bk s) ∧
        (∀ pk, alistLookup pk s'.files =
          if pk = osPathJoin directory it.arc then
            some (if S_ISREG m = true ∨ S_ISLNK m = true then
                DEntry.file (itemContent it)
              else if S_ISDIR m = true then DEntry.dir
              else DEntry.file [])
          else alistLookup pk s.files) := by
  obtain ⟨rc, u, g, m, hsc, hud, hgd, hmd, hkind, hname, hmode, huid, hgid,
    htype, hREGc, hLNKc, hDFc, hCBc⟩ := hmf
  simp only [arcOK, Bool.and_eq_true] at harc
  obtain ⟨⟨⟨⟨hbne, hbsl⟩, hjoin⟩, hpne⟩, hplast⟩ := harc
  have hbne2 : it.base ≠ [] := by simpa using hbne
  have hbsl2 : ∀ c ∈ it.base, c ≠ '/' := by
    have hm2 : ¬ ('/' ∈ it.base) := by simpa using hbsl
    exact fun c hc he => hm2 (he ▸ hc)
  have hjoin2 : it.arc = osPathJoin (osPathSplit it.arc).1 it.base :=
    of_decide_eq_true hjoin
  have hpne2 : (osPathSplit it.arc).1 ≠ [] := by simpa using hpne
  have hplast2 : (osPathSplit it.arc).1.getLast? ≠ some '/' := by
    simpa using hplast
  have hhname : (headerRoundTrip mc.1).name = it.arc := by
    simp [headerRoundTrip, hname]
  have hhuid : (headerRoundTrip mc.1).uid = u := by
    simp [headerRoundTrip, huid]
  have hhgid : (headerRoundTrip mc.1).gid = g := by
    simp [headerRoundTrip, hgid]
  have hhmode : (headerRoundTrip mc.1).mode = m &&& 4095 := by
    simp [headerRoundTrip, hmode]
  have hhtype : (headerRoundTrip mc.1).type = tarTypeOfMode m := by
    simp [headerRoundTrip, htype]
  have hstrip : rstripChar '/' it.arc = it.arc := by
    apply rstripChar_of_getLastQ
    rw [hjoin2, getLastQ_osPathJoin _ _ hbne2]
    intro hc
    exact hbsl2 '/' (mem_of_getLastQ hc) rfl
  have hsplitfull : osPathSplit (osPathJoin directory it.arc) =
      (osPathJoin directory (osPathSplit it.arc).1, it.base) := by
    nth_rewrite 1 [hjoin2]
    rw [osPathJoin_assoc]
    apply osPathSplit_join
    · simp [osPathJoin]
    · apply getLast_ne_of_getLastQ
      rw [getLastQ_osPathJoin _ _ hpne2]
      exact hplast2
    · exact hbsl2
  have hkinds6 : S_ISREG m = true ∨ S_ISDIR m = true ∨ S_ISFIFO m = true ∨
      S_ISLNK m = true ∨ S_ISCHR m = true ∨ S_ISBLK m = true := by
    cases hA : S_ISREG m <;> cases hB : S_ISDIR m <;>
      cases hC : S_ISFIFO m <;> cases hD1 : S_ISLNK m <;>
      cases hE : S_ISCHR m <;> cases hF1 : S_ISBLK m <;>
      simp [modeKindOK, hA, hB, hC, hD1, hE, hF1] at hkind ⊢
  rcases hkinds6 with hK | hK | hK | hK | hK | hK
  · -- REG record
    obtain ⟨hX1, hX2, hX3, hX4, hX5⟩ := kinds_of_reg hK
    have hexK : extract_virtfs_attrs (headerRoundTrip mc.1) =
        canonicalAttrs u g ((m &&& 4095) ||| (m &&& 61440))
          (if S_ISCHR m = true ∨ S_ISBLK m = true then
            dictLookup VIRTFS_RDEV_KEY (parseVirtfsAttrs rc) else none) := by
      rw [extract_virtfs_attrs_eq, hhuid, hhgid, hhmode, hhtype]
      simp [tarTypeOfMode, tarTypeBit, hK, hX4, hX5, S_IFREG,
        ifmt_of_isreg hK]
    have hextrK : ∀ (s1 : Store), s1.files = s.files →
        extract_tarinfo_into_staging directory (headerRoundTrip mc.1) mc.2
          s1 = Except.ok ⟨s1.metaDirs, s1.records,
            alistInsert (osPathJoin directory it.arc)
              (DEntry.file (itemContent it)) s1.files⟩ := by
      intro s1 _
      simp [extract_tarinfo_into_staging, tarExtract, hhtype, tarTypeOfMode,
        hK, hhname, hREGc hK]
    obtain ⟨s', he, hrecs, hfils⟩ := stageStep_core (r := rc) hbsl2 hhname
      hstrip hsplitfull hfr hexK rfl (by simp [hK]) hextrK
    exact ⟨s', he, rc, u, g, m, hsc, hud, hgd, hmd, hrecs, hfils⟩
  · -- DIR record
    obtain ⟨hX1, hX2, hX3, hX4, hX5⟩ := kinds_of_dir hK
    have hexK : extract_virtfs_attrs (headerRoundTrip mc.1) =
        canonicalAttrs u g ((m &&& 4095) ||| (m &&& 61440))
          (if S_ISCHR m = true ∨ S_ISBLK m = true then
            dictLookup VIRTFS_RDEV_KEY (parseVirtfsAttrs rc) else none) := by
      rw [extract_virtfs_attrs_eq, hhuid, hhgid, hhmode, hhtype]
      simp [tarTypeOfMode, tarTypeBit, hK, hX1, hX4, hX5, S_IFDIR,
        ifmt_of_isdir hK]
    have hextrK : ∀ (s1 : Store), s1.files = s.files →
        extract_tarinfo_into_staging directory (headerRoundTrip mc.1) mc.2
          s1 = Except.ok ⟨s1.metaDirs, s1.records,
            alistInsert (osPathJoin directory it.arc)
              DEntry.dir s1.files⟩ := by
      intro s1 _
      simp [extract_tarinfo_into_staging, tarExtract, hhtype, tarTypeOfMode,
        hK, hX1, hhname]
    obtain ⟨s', he, hrecs, hfils⟩ := stageStep_core (r := rc) hbsl2 hhname
      hstrip hsplitfull hfr hexK rfl (by simp [hX1, hX3, hK]) hextrK
    exact ⟨s', he, rc, u, g, m, hsc, hud, hgd, hmd, hrecs, hfils⟩
  · -- FIFO record
    obtain ⟨hX1, hX2, hX3, hX4, hX5⟩ := kinds_of_fifo hK
    have hexK : extract_virtfs_attrs (headerRoundTrip mc.1) =
        canonicalAttrs u g ((m &&& 4095) ||| (m &&& 61440))
          (if S_ISCHR m = true ∨ S_ISBLK m = true then
            dictLookup VIRTFS_RDEV_KEY (parseVirtfsAttrs rc) else none) := by
      rw [extract_virtfs_attrs_eq, hhuid, hhgid, hhmode, hhtype]
      simp [tarTypeOfMode, tarTypeBit, hK, hX1, hX2, hX4, hX5, S_IFIFO,
        ifmt_of_isfifo hK]
    have hextrK : ∀ (s1 : Store), s1.files = s.files →
        extract_tarinfo_into_staging directory (headerRoundTrip mc.1) mc.2
          s1 = Except.ok ⟨s1.metaDirs, s1.records,
            alistInsert (osPathJoin directory it.arc)
              (DEntry.file []) s1.files⟩ := by
      intro s1 _
      simp [extract_tarinfo_into_staging, tarExtract, hhtype, tarTypeOfMode,
        hK, hX1, hX2, hhname, hDFc (Or.inr hK)]
    obtain ⟨s', he, hrecs, hfils⟩ := stageStep_core (r := rc) hbsl2 hhname
      hstrip hsplitfull hfr hexK rfl (by simp [hX1, hX2, hX3, hK]) hextrK
    exact ⟨s', he, rc, u, g, m, hsc, hud, hgd, hmd, hrecs, hfils⟩
  · -- symlink record
    obtain ⟨hX1, hX2, hX3, hX4, hX5⟩ := kinds_of_lnk hK
    have hexK : extract_virtfs_attrs (headerRoundTrip mc.1) =
        canonicalAttrs u g ((m &&& 4095) ||| (m &&& 61440))
          (if S_ISCHR m = true ∨ S_ISBLK m = true then
            dictLookup VIRTFS_RDEV_KEY (parseVirtfsAttrs rc) else none) := by
      rw [extract_virtfs_attrs_eq, hhuid, hhgid, hhmode, hhtype]
      simp [tarTypeOfMode, tarTypeBit, hK, hX1, hX2, hX3, hX4, hX5,
        S_IFLNK, ifmt_of_islnk hK]
    have hextrK : ∀ (s1 : Store), s1.files = s.files →
        extract_tarinfo_into_staging directory (headerRoundTrip mc.1) mc.2
          s1 = Except.ok ⟨s1.metaDirs, s1.records,
            alistInsert (osPathJoin directory it.arc)
              (DEntry.file (itemContent it)) s1.files⟩ := by
      intro s1 _
      simp [extract_tarinfo_into_staging, tarExtract, headerRoundTrip,
        htype, tarTypeOfMode, hK, hX1, hX2, hX3, hname, (hLNKc hK).1]
    obtain ⟨s', he, hrecs, hfils⟩ := stageStep_core (r := rc) hbsl2 hhname
      hstrip hsplitfull hfr hexK rfl (by simp [hK]) hextrK
    exact ⟨s', he, rc, u, g, m, hsc, hud, hgd, hmd, hrecs, hfils⟩
  · -- character-device record
    obtain ⟨hX1, hX2, hX3, hX4, hX5⟩ := kinds_of_chr hK
    obtain ⟨hpay, r, hrd, hrlt, hdj, hdn⟩ := hCBc (Or.inl hK)
    have hexK : extract_virtfs_attrs (headerRoundTrip mc.1) =
        canonicalAttrs u g ((m &&& 4095) ||| (m &&& 61440))
          (if S_ISCHR m = true ∨ S_ISBLK m = true then
            dictLookup VIRTFS_RDEV_KEY (parseVirtfsAttrs rc) else none) := by
      rw [extract_virtfs_attrs_eq, hhuid, hhgid, hhmode, hhtype]
      simp [tarTypeOfMode, tarTypeBit, hK, hX1, hX2, hX3, hX4, S_IFCHR,
        ifmt_of_ischr hK, headerRoundTrip, hdj, hdn,
        dev_pack_unpack r hrlt, hrd]
    have hextrK : ∀ (s1 : Store), s1.files = s.files →
        extract_tarinfo_into_staging directory (headerRoundTrip mc.1) mc.2
          s1 = Except.ok ⟨s1.metaDirs, s1.records,
            alistInsert (osPathJoin directory it.arc)
              (DEntry.file []) s1.files⟩ := by
      intro s1 _
      simp [extract_tarinfo_into_staging, tarExtract, hhtype, tarTypeOfMode,
        hK, hX1, hX2, hX3, hX4, hhname, hpay]
    obtain ⟨s', he, hrecs, hfils⟩ := stageStep_core (r := rc) hbsl2 hhname
      hstrip hsplitfull hfr hexK rfl (by simp [hX1, hX2, hX4, hK]) hextrK
    exact ⟨s', he, rc, u, g, m, hsc, hud, hgd, hmd, hrecs, hfils⟩
  · -- block-device record
    obtain ⟨hX1, hX2, hX3, hX4, hX5⟩ := kinds_of_blk hK
    obtain ⟨hpay, r, hrd, hrlt, hdj, hdn⟩ := hCBc (Or.inr hK)
    have hexK : extract_virtfs_attrs (headerRoundTrip mc.1) =
        canonicalAttrs u g ((m &&& 4095) ||| (m &&& 61440))
          (if S_ISCHR m = true ∨ S_ISBLK m = true then
            dictLookup VIRTFS_RDEV_KEY (parseVirtfsAttrs rc) else none) := by
      rw [extract_virtfs_attrs_eq, hhuid, hhgid, hhmode, hhtype]
      simp [tarTypeOfMode, tarTypeBit, hK, hX1, hX2, hX3, hX4, hX5,
        S_IFBLK, ifmt_of_isblk hK, headerRoundTrip, hdj, hdn,
        dev_pack_unpack r hrlt, hrd]
    have hextrK : ∀ (s1 : Store), s1.files = s.files →
        extract_tarinfo_into_staging directory (headerRoundTrip mc.1) mc.2
          s1 = Except.ok ⟨s1.metaDirs, s1.records,
            alistInsert (osPathJoin directory it.arc)
              (DEntry.file []) s1.files⟩ := by
      intro s1 _
      simp [extract_tarinfo_into_staging, tarExtract, hhtype, tarTypeOfMode,
        hK, hX1, hX2, hX3, hX4, hX5, hhname, hpay]
    obtain ⟨s', he, hrecs, hfils⟩ := stageStep_core (r := rc) hbsl2 hhname
      hstrip hsplitfull hfr hexK rfl (by simp [hX1, hX2, hX4, hK]) hextrK
    exact ⟨s', he, rc, u, g, m, hsc, hud, hgd, hmd, hrecs, hfils⟩

/-- One `_stage_tarinfo_to_directory` call on a hardlink member whose
target bytes are already staged under the destination: the sidecar record
is reconstructed with the regular type bit and the target's bytes are
duplicated at the member's path. -/
theorem stageStep_c1link {directory : List Char} {it : WalkItem}
    {mc : TarInfo × List Char} {s : Store} {a : List Char}
    (hml : c1MemberLink a it mc) (harc : arcOK it = true)
    (hfr : lookupRecord (osPathJoin directory (osPathSplit it.arc).1)
      it.base s = none)
    (hlink : alistLookup (osPathJoin directory a) s.files =
      some (DEntry.file (itemContent it))) :
    ∃ s', stage_tarinfo_to_directory directory (headerRoundTrip mc.1) mc.2 s
        = Except.ok s' ∧
      ∃ rc u g m, it.sidecar = some rc ∧
        dictLookup VIRTFS_UID_KEY (parseVirtfsAttrs rc) = some u ∧
        dictLookup VIRTFS_GID_KEY (parseVirtfsAttrs rc) = some g ∧
        dictLookup VIRTFS_MODE_KEY (parseVirtfsAttrs rc) = some m ∧
        (∀ dk bk, lookupRecord dk bk s' =
          if (dk, bk) =
              (osPathJoin directory (osPathSplit it.arc).1, it.base) then
            some (serializedAttrs u g ((m &&& 4095) ||| (m &&& 61440))
              (if S_ISCHR m = true ∨ S_ISBLK m = true then
                dictLookup VIRTFS_RDEV_KEY (parseVirtfsAttrs rc)
              else none))
          else lookupRecord dk bk s) ∧
        (∀ pk, alistLookup pk s'.files =
          if pk = osPathJoin directory it.arc then
            some (if S_ISREG m = true ∨ S_ISLNK m = true then
                DEntry.file (itemContent it)
              else if S_ISDIR m = true then DEntry.dir
              else DEntry.file [])
          else alistLookup pk s.files) := by
  obtain ⟨rc, u, g, m, hsc, hud, hgd, hmd, hK, hname, hmode, huid, hgid,
    htype, hlinkname, hpay⟩ := hml
  simp only [arcOK, Bool.and_eq_true] at harc
  obtain ⟨⟨⟨⟨hbne, hbsl⟩, hjoin⟩, hpne⟩, hplast⟩ := harc
  have hbne2 : it.base ≠ [] := by simpa using hbne
  have hbsl2 : ∀ c ∈ it.base, c ≠ '/' := by
    have hm2 : ¬ ('/' ∈ it.base) := by simpa using hbsl
    exact fun c hc he => hm2 (he ▸ hc)
  have hjoin2 : it.arc = osPathJoin (osPathSplit it.arc).1 it.base :=
    of_decide_eq_true hjoin
  have hpne2 : (osPathSplit it.arc).1 ≠ [] := by simpa using hpne
  have hplast2 : (osPathSplit it.arc).1.getLast? ≠ some '/' := by
    simpa using hplast
  have hhname : (headerRoundTrip mc.1).name = it.arc := by
    simp [headerRoundTrip, hname]
  have hhuid : (headerRoundTrip mc.1).uid = u := by
    simp [headerRoundTrip, huid]
  have hhgid : (headerRoundTrip mc.1).gid = g := by
    simp [headerRoundTrip, hgid]
  have hhmode : (headerRoundTrip mc.1).mode = m &&& 4095 := by
    simp [headerRoundTrip, hmode]
  have hhtype : (headerRoundTrip mc.1).type = TarType.LNK := by
    simp [headerRoundTrip, htype]
  have hstrip : rstripChar '/' it.arc = it.arc := by
    apply rstripChar_of_getLastQ
    rw [hjoin2, getLastQ_osPathJoin _ _ hbne2]
    intro hc
    exact hbsl2 '/' (mem_of_getLastQ hc) rfl
  have hsplitfull : osPathSplit (osPathJoin directory it.arc) =
      (osPathJoin directory (osPathSplit it.arc).1, it.base) := by
    nth_rewrite 1 [hjoin2]
    rw [osPathJoin_assoc]
    apply osPathSplit_join
    · simp [osPathJoin]
    · apply getLast_ne_of_getLastQ
      rw [getLastQ_osPathJoin _ _ hpne2]
      exact hplast2
    · exact hbsl2
  obtain ⟨hX1, hX2, hX3, hX4, hX5⟩ := kinds_of_reg hK
  have hexK : extract_virtfs_attrs (headerRoundTrip mc.1) =
      canonicalAttrs u g ((m &&& 4095) ||| (m &&& 61440))
        (if S_ISCHR m = true ∨ S_ISBLK m = true then
          dictLookup VIRTFS_RDEV_KEY (parseVirtfsAttrs rc) else none) := by
    rw [extract_virtfs_attrs_eq, hhuid, hhgid, hhmode, hhtype]
    simp [tarTypeBit, hX4, hX5, S_IFREG, ifmt_of_isreg hK]
  have hextrK : ∀ (s1 : Store), s1.files = s.files →
      extract_tarinfo_into_staging directory (headerRoundTrip mc.1) mc.2 s1
        = Except.ok ⟨s1.metaDirs, s1.records,
            alistInsert (osPathJoin directory it.arc)
              (DEntry.file (itemContent it)) s1.files⟩ := by
    intro s1 hs1f
    have hln : (headerRoundTrip mc.1).linkname = a := by
      simp [headerRoundTrip, hlinkname]
    have hlk2 : alistLookup (osPathJoin directory
        (headerRoundTrip mc.1).linkname) s1.files =
        some (DEntry.file (itemContent it)) := by
      rw [hln, hs1f]
      exact hlink
    simp [extract_tarinfo_into_staging, tarExtract, hhtype, hlk2, hhname]
  obtain ⟨s', he, hrecs, hfils⟩ := stageStep_core (r := rc) hbsl2 hhname
    hstrip hsplitfull hfr hexK rfl (by simp [hK]) hextrK
  exact ⟨s', he, rc, u, g, m, hsc, hud, hgd, hmd, hrecs, hfils⟩

/-- Staging every member of a collected archive into a fresh destination
realizes the round-trip property for every entry, and touches no other
path.  `prev` carries the regular entries staged before `items`, whose
bytes hardlink members may reference. -/
theorem c1_stage_fold (directory : List Char) :
    ∀ (items : List WalkItem) (ms : List (TarInfo × List Char))
      (prev : List (List Char × List Char)) (s sF : Store),
      c1Members prev items ms →
      (∀ it ∈ items, arcOK it = true) →
      ((items.map WalkItem.arc)).Nodup →
      (∀ it ∈ items, lookupRecord
        (osPathJoin directory (osPathSplit it.arc).1) it.base s = none) →
      (∀ a c, (a, c) ∈ prev →
        alistLookup (osPathJoin directory a) s.files =
          some (DEntry.file c)) →
      (∀ a c, (a, c) ∈ prev → ∀ it2 ∈ items, a ≠ it2.arc) →
      ms.foldlM (fun s2 mc => stage_tarinfo_to_directory directory
        (headerRoundTrip mc.1) mc.2 s2) s = Except.ok sF →
      (∀ it ∈ items, c1Staged directory sF it) ∧
      (∀ dk bk, (∀ it2 ∈ items, (dk, bk) ≠
          (osPathJoin directory (osPathSplit it2.arc).1, it2.base)) →
        lookupRecord dk bk sF = lookupRecord dk bk s) ∧
      (∀ pk, (∀ it2 ∈ items, pk ≠ osPathJoin directory it2.arc) →
        alistLookup pk sF.files = alistLookup pk s.files) := by
  intro items
  induction items with
  | nil =>
    intro ms prev s sF hM _ _ _ _ _ hfold
    have hM2 : ms = [] := hM
    subst hM2
    cases hfold
    exact ⟨fun it hit => absurd hit (by simp), fun dk bk _ => rfl,
      fun pk _ => rfl⟩
  | cons it rest ih =>
    intro ms prev s sF hM harcs hnd hfrs hprev hprevarc hfold
    obtain ⟨mc, ms2, hmseq, hmf, hMr⟩ := hM
    subst hmseq
    rw [foldlM_except_cons] at hfold
    have hstep : ∃ s', stage_tarinfo_to_directory directory
        (headerRoundTrip mc.1) mc.2 s = Except.ok s' ∧
      ∃ rc u g m, it.sidecar = some rc ∧
        dictLookup VIRTFS_UID_KEY (parseVirtfsAttrs rc) = some u ∧
        dictLookup VIRTFS_GID_KEY (parseVirtfsAttrs rc) = some g ∧
        dictLookup VIRTFS_MODE_KEY (parseVirtfsAttrs rc) = some m ∧
        (∀ dk bk, lookupRecord dk bk s' =
          if (dk, bk) =
              (osPathJoin directory (osPathSplit it.arc).1, it.base) then
            some (serializedAttrs u g ((m &&& 4095) ||| (m &&& 61440))
              (if S_ISCHR m = true ∨ S_ISBLK m = true then
                dictLookup VIRTFS_RDEV_KEY (parseVirtfsAttrs rc)
              else none))
          else lookupRecord dk bk s) ∧
        (∀ pk, alistLookup pk s'.files =
          if pk = osPathJoin directory it.arc then
            some (if S_ISREG m = true ∨ S_ISLNK m = true then
                DEntry.file (itemContent it)
              else if S_ISDIR m = true then DEntry.dir
              else DEntry.file [])
          else alistLookup pk s.files) := by
      rcases hmf with hmf | ⟨a, hml, hmem⟩
      · exact stageStep_c1 hmf (harcs it (List.mem_cons_self _ _))
          (hfrs it (List.mem_cons_self _ _))
      · exact stageStep_c1link hml (harcs it (List.mem_cons_self _ _))
          (hfrs it (List.mem_cons_self _ _))
          (hprev a (itemContent it) hmem)
    obtain ⟨s', he, rc, u, g, m, hsc2, hud2, hgd2, hmd2, hrecs, hfils⟩ :=
      hstep
    rw [he] at hfold
    have hndc := hnd
    rw [List.map_cons, List.nodup_cons] at hndc
    obtain ⟨hnotmem, hndrest⟩ := hndc
    have hpairne : ∀ it2 ∈ rest,
        (osPathJoin directory (osPathSplit it.arc).1, it.base) ≠
        (osPathJoin directory (osPathSplit it2.arc).1, it2.base) := by
      intro it2 h2 hpe
      have harcOK := harcs it (List.mem_cons_self _ _)
      have harc2 := harcs it2 (List.mem_cons_of_mem _ h2)
      simp only [arcOK, Bool.and_eq_true] at harcOK harc2
      have hj1 : it.arc = osPathJoin (osPathSplit it.arc).1 it.base :=
        of_decide_eq_true harcOK.1.1.2
      have hj2 : it2.arc = osPathJoin (osPathSplit it2.arc).1 it2.base :=
        of_decide_eq_true harc2.1.1.2
      injection hpe with hpe1 hpe2
      have hp12 := osPathJoin_inj hpe1
      have harceq : it.arc = it2.arc := by rw [hj1, hj2, hp12, hpe2]
      exact hnotmem (harceq ▸ List.mem_map_of_mem WalkItem.arc h2)
    have hpathne : ∀ it2 ∈ rest,
        osPathJoin directory it.arc ≠ osPathJoin directory it2.arc := by
      intro it2 h2 hpe
      have harceq := osPathJoin_inj hpe
      exact hnotmem (harceq ▸ List.mem_map_of_mem WalkItem.arc h2)
    have hfrs2 : ∀ it2 ∈ rest, lookupRecord
        (osPathJoin directory (osPathSplit it2.arc).1) it2.base s' = none
      := by
      intro it2 h2
      rw [hrecs, if_neg (fun hpe => hpairne it2 h2 hpe.symm)]
      exact hfrs it2 (List.mem_cons_of_mem _ h2)
    have hprev2 : ∀ a2 c2, (a2, c2) ∈ pushPrev prev it →
        alistLookup (osPathJoin directory a2) s'.files =
          some (DEntry.file c2) := by
      intro a2 c2 hmem2
      unfold pushPrev at hmem2
      by_cases hrr : recordRegB it = true
      · rw [if_pos hrr] at hmem2
        rcases List.mem_cons.mp hmem2 with heq | hold
        · injection heq with he1 he2
          subst he1
          subst he2
          have hRm : S_ISREG m = true := by
            simp only [recordRegB, hsc2, hmd2] at hrr
            exact hrr
          rw [hfils, if_pos rfl, if_pos (Or.inl hRm)]
        · have hne2 : osPathJoin directory a2 ≠
              osPathJoin directory it.arc := fun hh =>
            (hprevarc a2 c2 hold it (List.mem_cons_self _ _))
              (osPathJoin_inj hh)
          rw [hfils, if_neg hne2]
          exact hprev a2 c2 hold
      · rw [if_neg hrr] at hmem2
        have hne2 : osPathJoin directory a2 ≠
            osPathJoin directory it.arc := fun hh =>
          (hprevarc a2 c2 hmem2 it (List.mem_cons_self _ _))
            (osPathJoin_inj hh)
        rw [hfils, if_neg hne2]
        exact hprev a2 c2 hmem2
    have hprevarc2 : ∀ a2 c2, (a2, c2) ∈ pushPrev prev it →
        ∀ it2 ∈ rest, a2 ≠ it2.arc := by
      intro a2 c2 hmem2 it2 h2
      unfold pushPrev at hmem2
      by_cases hrr : recordRegB it = true
      · rw [if_pos hrr] at hmem2
        rcases List.mem_cons.mp hmem2 with heq | hold
        · injection heq with he1 he2
          subst he1
          intro hee
          exact hnotmem (hee ▸ List.mem_map_of_mem WalkItem.arc h2)
        · exact hprevarc a2 c2 hold it2 (List.mem_cons_of_mem _ h2)
      · rw [if_neg hrr] at hmem2
        exact hprevarc a2 c2 hmem2 it2 (List.mem_cons_of_mem _ h2)
    obtain ⟨hstagedR, hpresR, hpresRf⟩ := ih ms2 (pushPrev prev it) s' sF
      hMr (fun it2 h2 => harcs it2 (List.mem_cons_of_mem _ h2)) hndrest
      hfrs2 hprev2 hprevarc2 hfold
    refine ⟨?_, ?_, ?_⟩
    · intro it2 h2
      rcases List.mem_cons.mp h2 with heq | h2r
      · subst heq
        have hrecF : lookupRecord (osPathJoin directory
            (osPathSplit it2.arc).1) it2.base sF =
            some (serializedAttrs u g ((m &&& 4095) ||| (m &&& 61440))
              (if S_ISCHR m = true ∨ S_ISBLK m = true then
                dictLookup VIRTFS_RDEV_KEY (parseVirtfsAttrs rc)
              else none)) := by
          rw [hpresR _ _ (fun it3 h3 hpe => hpairne it3 h3 hpe),
            hrecs, if_pos rfl]
        have hfilF : alistLookup (osPathJoin directory it2.arc) sF.files =
            some (if S_ISREG m = true ∨ S_ISLNK m = true then
                DEntry.file (itemContent it2)
              else if S_ISDIR m = true then DEntry.dir
              else DEntry.file []) := by
          rw [hpresRf _ (fun it3 h3 hpe => hpathne it3 h3 hpe),
            hfils, if_pos rfl]
        refine ⟨rc, u, g, m, hsc2, hud2, hgd2, hmd2, ?_, ?_, ?_, ?_⟩
        · refine ⟨_, hrecF, ?_, ?_, ?_, ?_⟩
          · refine ⟨(m &&& 4095) ||| (m &&& 61440), ?_, ?_, ?_⟩
            · rw [parseVirtfsAttrs_serialized, canonicalAttrs_lookup]
              simp [Ne.symm uid_ne_mode, Ne.symm gid_ne_mode]
            · exact mask_or_high m m
            · exact mask_or_low m m
          · rw [parseVirtfsAttrs_serialized, canonicalAttrs_lookup]
            simp
          · rw [parseVirtfsAttrs_serialized, canonicalAttrs_lookup]
            simp [Ne.symm uid_ne_gid]
          · intro hcb
            rw [parseVirtfsAttrs_serialized, canonicalAttrs_lookup]
            have h1' : VIRTFS_RDEV_KEY ≠ VIRTFS_UID_KEY :=
              fun hh => uid_ne_rdev hh.symm
            have h2' : VIRTFS_RDEV_KEY ≠ VIRTFS_GID_KEY :=
              fun hh => gid_ne_rdev hh.symm
            have h3' : VIRTFS_RDEV_KEY ≠ VIRTFS_MODE_KEY :=
              fun hh => mode_ne_rdev hh.symm
            rw [if_neg h1', if_neg h2', if_neg h3', if_pos rfl,
              if_pos hcb]
        · intro hx
          rw [hfilF]
          rcases hx with hx | hx <;> simp [hx]
        · intro hx
          obtain ⟨hY1, _, hY3, _, _⟩ := kinds_of_dir hx
          rw [hfilF]
          simp [hY1, hY3, hx]
        · intro hx
          rw [hfilF]
          rcases hx with hx | hx | hx
          · obtain ⟨hY1, hY2, hY3, _, _⟩ := kinds_of_fifo hx
            simp [hY1, hY2, hY3]
          · obtain ⟨hY1, hY2, _, hY4, _⟩ := kinds_of_chr hx
            simp [hY1, hY2, hY4]
          · obtain ⟨hY1, hY2, _, hY4, _⟩ := kinds_of_blk hx
            simp [hY1, hY2, hY4]
      · exact hstagedR it2 h2r
    · intro dk bk hne
      rw [hpresR dk bk
          (fun it2 h2 => hne it2 (List.mem_cons_of_mem _ h2)),
        hrecs, if_neg (hne it (List.mem_cons_self _ _))]
    · intro pk hne
      rw [hpresRf pk (fun it2 h2 => hne it2 (List.mem_cons_of_mem _ h2)),
        hfils, if_neg (hne it (List.mem_cons_self _ _))]


/-- C1: round trip.  For a staged tree whose walk entries are all
record-backed and well formed (`c1ItemOK`: host-consistent record of a
supported kind with in-range rdev; `c1EnvOK`: no decimal passwd-name
collision; hardlink-consistent lstat data: entries sharing a nonzero
lstat identity have link count above one, equal bytes and regular
records, as any real filesystem guarantees; well-formed
pairwise-distinct arcnames) and a destination with no pre-existing
sidecar records, extracting the archive produced by collecting the tree
(`stage_artifact` applied to the `collect_artifact` output with the
matching compress flag) yields for every entry — hardlinked entries
included — a sidecar record equal to the tree's own record in type bits,
permission bits, uid, gid, and rdev where applicable, and byte-identical
content for regular files and for symlink targets (`c1Staged`). -/
theorem c1_round_trip (env : Env) (root : List (List Char × HNode))
    (directory : List Char) (compress : Bool) (time : Nat)
    (ar : Archive) (s₀ sF : Store)
    (hok : ∀ it ∈ walkItems root ['.'], c1ItemOK it = true)
    (henv : ∀ it ∈ walkItems root ['.'], c1EnvOK env it = true)
    (hhl : ∀ it₁ ∈ walkItems root ['.'], ∀ it₂ ∈ walkItems root ['.'],
      it₁ ≠ it₂ → fileId it₁ = fileId it₂ → itemIno it₁ ≠ 0 →
      itemNlink it₁ > 1 ∧ itemContent it₁ = itemContent it₂ ∧
        recordRegB it₁ = true)
    (harcs : ∀ it ∈ walkItems root ['.'], arcOK it = true)
    (hnd : ((walkItems root ['.']).map WalkItem.arc).Nodup)
    (hfrs : ∀ it ∈ walkItems root ['.'], lookupRecord
      (osPathJoin directory (osPathSplit it.arc).1) it.base s₀ = none)
    (hcol : collect_artifact env root compress time = Except.ok ar)
    (hstage : stage_artifact ar directory compress s₀ = Except.ok sF) :
    ∀ it ∈ walkItems root ['.'], c1Staged directory sF it := by
  unfold collect_artifact addDirectoryToTarfile at hcol
  rw [addDirGo_eq_fold] at hcol
  have hwi : walkGo (entsListSize root) (sortEntries root) root ['.'] =
      walkItems root ['.'] := rfl
  rw [hwi] at hcol
  cases hfold : (walkItems root ['.']).foldlM (processOne env time)
      (⟨false, [], []⟩ : TarF) with
  | error e =>
    rw [hfold] at hcol
    exact absurd hcol (by simp)
  | ok tfF =>
    simp only [hfold] at hcol
    obtain ⟨ms, hmsF, hMs⟩ := c1_collect_fold env time (walkItems root ['.'])
      ⟨false, [], []⟩ tfF [] hfold rfl hok henv hnd hhl
      (fun k a hka => Option.noConfusion hka)
    injection hcol with hcol2
    have hmems : ar.members = ms := by
      rw [← hcol2]
      simpa using hmsF
    unfold stage_artifact at hstage
    have hgz : ¬(compress = true ∧ ar.gzipMtime = none) := by
      rintro ⟨hc, hn⟩
      rw [← hcol2] at hn
      simp [hc] at hn
    rw [if_neg hgz, hmems] at hstage
    exact (c1_stage_fold directory (walkItems root ['.']) ms [] s₀ sF hMs
      harcs hnd hfrs (fun a c hm => absurd hm (List.not_mem_nil _))
      (fun a c hm => absurd hm (List.not_mem_nil _)) hstage).1


def envW1 : Env := ⟨1, 1, fun _ => ['u', 'u'], fun _ => ['u', 'u']⟩

/-- Sidecar records of the witness tree: two regular-file records for the
hardlinked pair and a symlink record. -/
def metaW1 : HEntries :=
  HEntries.cons ['a']
    (HNode.file ⟨33188, 0, 0, 11, 1, 1, 99, serializedAttrs 0 0 33188 none⟩)
    (HEntries.cons ['c']
      (HNode.file ⟨33188, 0, 0, 12, 1, 1, 99, serializedAttrs 0 0 33188 none⟩)
      (HEntries.cons ['l']
        (HNode.file
          ⟨33188, 0, 0, 13, 1, 1, 99, serializedAttrs 0 0 41471 none⟩)
        HEntries.nil))

/-- Witness staged tree: hardlinked regular files `a` and `c` (shared
lstat identity `(7, 1)`, link count 2, bytes "hi") and a symlink
surrogate `l` (target "tgt", record mode 0o120777), all record-backed
under `.virtfs_metadata`. -/
def rootW1 : List (List Char × HNode) :=
  [(['a'], HNode.file ⟨33188, 0, 0, 7, 1, 2, 99, ['h', 'i']⟩),
   (['c'], HNode.file ⟨33188, 0, 0, 7, 1, 2, 99, ['h', 'i']⟩),
   (['l'], HNode.file ⟨33188, 0, 0, 4, 1, 1, 99, ['t', 'g', 't']⟩),
   (VIRTFS_META_DIR, HNode.dir ⟨16877, 0, 0, 9, 1, 2, 99⟩ metaW1)]

/-- The archive collected from `rootW1` at time 42: a full member for
`a`, a hardlink member for `c` referencing `./a`, a symlink member for
`l`. -/
def arW1 : Archive :=
  ⟨[({ name := ['.', '/', 'a']
       mode := 33188
       uid := 0
       gid := 0
       size := 2
       mtime := 42
       type := TarType.REG
       linkname := []
       uname := ['0']
       gname := ['0']
       devmajor := 0
       devminor := 0 },
     ['h', 'i']),
    ({ name := ['.', '/', 'c']
       mode := 33188
       uid := 0
       gid := 0
       size := 0
       mtime := 42
       type := TarType.LNK
       linkname := ['.', '/', 'a']
       uname := ['0']
       gname := ['0']
       devmajor := 0
       devminor := 0 },
     []),
    ({ name := ['.', '/', 'l']
       mode := 41471
       uid := 0
       gid := 0
       size := 0
       mtime := 42
       type := TarType.SYM
       linkname := ['t', 'g', 't']
       uname := ['0']
       gname := ['0']
       devmajor := 0
       devminor := 0 },
     [])],
   some 42⟩

/-- The destination state after staging `arW1` under `d`: all three
sidecar records reconstructed verbatim, the hardlink pair's bytes
duplicated, the symlink target text materialized. -/
def sW1 : Store :=
  ⟨[['d', '/', '.']],
   [(((['d', '/', '.'] : List Char), (['a'] : List Char)),
      serializedAttrs 0 0 33188 none),
    (((['d', '/', '.'] : List Char), (['c'] : List Char)),
      serializedAttrs 0 0 33188 none),
    (((['d', '/', '.'] : List Char), (['l'] : List Char)),
      serializedAttrs 0 0 41471 none)],
   [((['d', '/', '.', '/', 'a'] : List Char), DEntry.file ['h', 'i']),
    ((['d', '/', '.', '/', 'c'] : List Char), DEntry.file ['h', 'i']),
    ((['d', '/', '.', '/', 'l'] : List Char),
      DEntry.file ['t', 'g', 't'])]⟩

/-- Witness for C1: collecting a staged tree containing a hardlink pair
and staging the archive back yields records and contents matching the
original tree — the hardlinked `c` regains its bytes through the
hardlink member referencing `./a`. -/
theorem c1_round_trip_witness :
    List.Forall (c1Staged ['d'] sW1) (walkItems rootW1 ['.']) :=
  List.forall_iff_forall_mem.mpr
    (c1_round_trip envW1 rootW1 ['d'] true 42 arW1 emptyStore sW1
      (by decide) (by decide) (by decide) (by decide) (by decide) (by decide)
      (by rfl) (by rfl))


/-- C8: the device-number packing places an 8-bit major in bits 8-15 and an
8-bit minor in bits 0-7; for every major and minor in [0,255] decoding the
packed value returns the original pair, and in particular major=5, minor=1
packs to 1281 and 1281 decodes back to major=5, minor=1. -/
theorem c8_dev_pack_roundtrip (major minor : Nat) (hmaj : major ≤ 255)
    (hmin : minor ≤ 255) :
    dev_major (dev_from_major_minor major minor) = major ∧
    dev_minor (dev_from_major_minor major minor) = minor ∧
    dev_from_major_minor 5 1 = 1281 ∧
    dev_major 1281 = 5 ∧ dev_minor 1281 = 1 :=
  ⟨dev_major_from major minor hmaj hmin, dev_minor_from major minor hmin,
    by decide, by decide, by decide⟩

/-- Witness for C8 at major=5, minor=1. -/
theorem c8_dev_pack_roundtrip_witness :
    dev_major (dev_from_major_minor 5 1) = 5 ∧
    dev_minor (dev_from_major_minor 5 1) = 1 ∧
    dev_from_major_minor 5 1 = 1281 ∧
    dev_major 1281 = 5 ∧ dev_minor 1281 = 1 :=
  c8_dev_pack_roundtrip 5 1 (by decide) (by decide)

end Virtfs
